import Mathlib

/-!
Verification development for the Montage repository's core concurrent data
structures: the persistent lock-free hash table (`PLockfreeHashTable`) and the
transient lock-based graph (`TGraph`), as implemented in the C++ sources.

The embedding is sequential-functional: each public operation is modelled as a
pure function on an explicit state, following the source's control flow on the
path where every compare-and-swap succeeds (the only path reachable in a
single-threaded execution).  Persistence ordering (cacheline writebacks and
store fences) is modelled separately as an event-trace semantics driven by an
oracle that decides branch outcomes and CAS successes.
-/

set_option autoImplicit false

namespace Montage

/-! ## Byte-string keys

`PLockfreeHashTable` keys and values are `std::basic_string<char>`; node order
within a bucket chain is decided by `curr->key.compare(key)`, i.e. byte-wise
lexicographic comparison with the shorter string ordered first on a tie.
We model byte strings as `List Nat` and the three-way comparison directly. -/

abbrev Key := List Nat
abbrev Val := List Nat

/-- Three-way byte-lexicographic comparison, as `std::string::compare`:
compare byte-by-byte; on exhaustion the shorter string is smaller. -/
def strCompare : Key → Key → Ordering
  | [], [] => .eq
  | [], _ :: _ => .lt
  | _ :: _, [] => .gt
  | a :: as, b :: bs =>
    if a < b then .lt
    else if b < a then .gt
    else strCompare as bs

/-- Strict order induced by `strCompare`. -/
def keyLt (a b : Key) : Prop := strCompare a b = .lt

instance keyLtDecidable : DecidableRel keyLt := by
  intro a b; unfold keyLt; infer_instance

theorem strCompare_self (a : Key) : strCompare a a = .eq := by
  induction a with
  | nil => rfl
  | cons x xs ih => simp [strCompare, ih]

theorem strCompare_eq_iff {a b : Key} : strCompare a b = .eq ↔ a = b := by
  constructor
  · intro h
    induction a generalizing b with
    | nil => cases b with
      | nil => rfl
      | cons y ys => simp [strCompare] at h
    | cons x xs ih =>
      cases b with
      | nil => simp [strCompare] at h
      | cons y ys =>
        simp only [strCompare] at h
        by_cases hxy : x < y
        · simp [hxy] at h
        · by_cases hyx : y < x
          · simp [hxy, hyx] at h
          · have hx : x = y := Nat.le_antisymm (Nat.le_of_not_lt hyx) (Nat.le_of_not_lt hxy)
            simp [hxy, hyx] at h
            rw [hx, ih h]
  · intro h; subst h; exact strCompare_self a

theorem keyLt_trans {a b c : Key} (hab : keyLt a b) (hbc : keyLt b c) : keyLt a c := by
  unfold keyLt at *
  induction a generalizing b c with
  | nil =>
    cases b with
    | nil => simp [strCompare] at hab
    | cons y ys =>
      cases c with
      | nil => simp [strCompare] at hbc
      | cons z zs => rfl
  | cons x xs ih =>
    cases b with
    | nil => simp [strCompare] at hab
    | cons y ys =>
      cases c with
      | nil => simp [strCompare] at hbc
      | cons z zs =>
        simp only [strCompare] at hab hbc ⊢
        by_cases hxy : x < y
        · -- x < y; compare x z
          by_cases hyz : y < z
          · have hxz : x < z := Nat.lt_trans hxy hyz
            simp [hxz]
          · by_cases hzy : z < y
            · simp [hyz, hzy] at hbc
            · have hyz' : y = z := Nat.le_antisymm (Nat.le_of_not_lt hzy) (Nat.le_of_not_lt hyz)
              subst hyz'
              simp [hxy]
        · by_cases hyx : y < x
          · simp [hxy, hyx] at hab
          · have hxy' : x = y := Nat.le_antisymm (Nat.le_of_not_lt hyx) (Nat.le_of_not_lt hxy)
            subst hxy'
            simp only [if_neg hxy, if_neg hyx] at hab
            by_cases hyz : x < z
            · simp [hyz]
            · by_cases hzy : z < x
              · simp [hyz, hzy] at hbc
              · simp only [if_neg hyz, if_neg hzy] at hbc ⊢
                exact ih hab hbc

theorem keyLt_irrefl (a : Key) : ¬ keyLt a a := by
  unfold keyLt; rw [strCompare_self]; intro h; cases h

theorem keyLt_ne {a b : Key} (h : keyLt a b) : a ≠ b := by
  intro he; subst he; exact keyLt_irrefl a h

/-- The comparison returns neither `.lt` nor `.gt` exactly on equal keys. -/
theorem strCompare_not_lt_not_gt {a b : Key} (h1 : strCompare a b ≠ .lt)
    (h2 : strCompare a b ≠ .gt) : a = b := by
  have : strCompare a b = .eq := by
    cases h : strCompare a b with
    | lt => exact absurd h h1
    | gt => exact absurd h h2
    | eq => rfl
  exact strCompare_eq_iff.mp this

/-! ## PHT: sequential model of `PLockfreeHashTable`

A chain node carries key, value, and the logical-deletion mark (the low bit of
its `next` pointer in the source: `getMark(curr->next)` marks `curr` itself).
A bucket chain is the list of nodes hanging off one bucket head.

`findSplit` is the sequential meaning of `findNode`'s traversal: walk the
chain, physically unlinking every marked node encountered (the CAS on `prev`
always succeeds sequentially), and stop at the first unmarked node whose key
is `≥` the target (`cmp == 0` returns true, `cmp > 0` returns false).  It
returns the prefix of retained nodes strictly below the target and the
remaining suffix, whose head — if any — is the stopping node. -/

structure PNode where
  key : Key
  val : Val
  marked : Bool
  deriving DecidableEq, Repr

abbrev Chain := List PNode

def findSplit (key : Key) : Chain → Chain × Chain
  | [] => ([], [])
  | n :: rest =>
    if n.marked then
      -- marked node: findNode unlinks it and advances
      findSplit key rest
    else
      match strCompare n.key key with
      | .lt =>
        -- cmp < 0: advance prev and curr
        let (pre, post) := findSplit key rest
        (n :: pre, post)
      | _ =>
        -- cmp = 0 (found) or cmp > 0 (absent): stop here
        ([], n :: rest)

/-- Whether `findNode` reports the key present: the stopping node exists and
its key equals the target. -/
def foundAt (key : Key) (post : Chain) : Bool :=
  match post with
  | [] => false
  | n :: _ => strCompare n.key key == .eq

/-- Sequential effect of `put` on one chain (source lines 141–190): if the key
is found, the fresh node is installed in front of the old one, the old node is
marked and then spliced out; otherwise the fresh node is linked in at the
cursor.  Returns the previous value (if any) and the resulting chain. -/
def chainPut (key : Key) (val : Val) (c : Chain) : Option Val × Chain :=
  let (pre, post) := findSplit key c
  match post with
  | n :: rest =>
    if strCompare n.key key = .eq then
      (some n.val, pre ++ ⟨key, val, false⟩ :: rest)
    else
      (none, pre ++ ⟨key, val, false⟩ :: (n :: rest))
  | [] => (none, pre ++ [⟨key, val, false⟩])

/-- Sequential effect of `insert` (source lines 192–223).  The third component
records whether the tentatively allocated node was deallocated
(`delete tmpNode`) before returning. -/
def chainInsert (key : Key) (val : Val) (c : Chain) : Bool × Chain × Bool :=
  let (pre, post) := findSplit key c
  if foundAt key post then
    (false, pre ++ post, true)
  else
    (true, pre ++ ⟨key, val, false⟩ :: post, false)

/-- Sequential effect of `remove` (source lines 225–256): mark the found node
and splice it out. -/
def chainRemove (key : Key) (c : Chain) : Option Val × Chain :=
  let (pre, post) := findSplit key c
  match post with
  | n :: rest =>
    if strCompare n.key key = .eq then
      (some n.val, pre ++ rest)
    else
      (none, pre ++ (n :: rest))
  | [] => (none, pre)

/-- Sequential effect of `replace` (source lines 258–299): like `put` when the
key is present, and a no-op (deallocating the tentative node) when absent.
The third component records whether the tentative node was deallocated. -/
def chainReplace (key : Key) (val : Val) (c : Chain) : Option Val × Chain × Bool :=
  let (pre, post) := findSplit key c
  match post with
  | n :: rest =>
    if strCompare n.key key = .eq then
      (some n.val, pre ++ ⟨key, val, false⟩ :: rest, false)
    else
      (none, pre ++ (n :: rest), true)
  | [] => (none, pre, true)

/-- Value observed by `get` (source lines 126–139). -/
def chainGet (key : Key) (c : Chain) : Option Val :=
  let (_, post) := findSplit key c
  match post with
  | n :: _ =>
    if strCompare n.key key = .eq then some n.val else none
  | [] => none

/-! ### Hash-table level

The table is a fixed array of `idxSize` bucket heads; a key's bucket is
`hash_fn(key) % idxSize`.  `std::hash` is library-defined, so the hash
function is a parameter of the model. -/

structure PHT where
  idxSize : Nat
  hashFn : Key → Nat
  buckets : List Chain

def PHT.bucketIdx (ht : PHT) (k : Key) : Nat := ht.hashFn k % ht.idxSize

def PHT.chainAt (ht : PHT) (k : Key) : Chain := ht.buckets.getD (ht.bucketIdx k) []

def PHT.get (ht : PHT) (k : Key) : Option Val := chainGet k (ht.chainAt k)

def PHT.put (ht : PHT) (k : Key) (v : Val) : Option Val × PHT :=
  let (res, c) := chainPut k v (ht.chainAt k)
  (res, { ht with buckets := ht.buckets.set (ht.bucketIdx k) c })

/-- `insert` at table level; the last component records deallocation of the
tentative node. -/
def PHT.insert (ht : PHT) (k : Key) (v : Val) : Bool × PHT × Bool :=
  let (res, c, freed) := chainInsert k v (ht.chainAt k)
  (res, { ht with buckets := ht.buckets.set (ht.bucketIdx k) c }, freed)

def PHT.remove (ht : PHT) (k : Key) : Option Val × PHT :=
  let (res, c) := chainRemove k (ht.chainAt k)
  (res, { ht with buckets := ht.buckets.set (ht.bucketIdx k) c })

/-- `replace` at table level; the last component records deallocation of the
tentative node. -/
def PHT.replace (ht : PHT) (k : Key) (v : Val) : Option Val × PHT × Bool :=
  let (res, c, freed) := chainReplace k v (ht.chainAt k)
  (res, { ht with buckets := ht.buckets.set (ht.bucketIdx k) c }, freed)

/-- Table well-formedness: the bucket array has exactly `idxSize` (positive)
entries, as established by the constructor (`idxSize = 1000000`). -/
def PHT.WF (ht : PHT) : Prop := 0 < ht.idxSize ∧ ht.buckets.length = ht.idxSize

/-- A key is (logically) present when some unmarked node in its bucket chain
carries it. -/
def PHT.memKey (ht : PHT) (k : Key) : Prop :=
  ∃ n ∈ ht.chainAt k, n.marked = false ∧ n.key = k

/-- The per-chain ordering invariant: the keys of unmarked nodes are strictly
ascending in byte-lexicographic order. -/
def sortedChain (c : Chain) : Prop :=
  (c.filter (fun n => !n.marked)).Pairwise (fun a b => keyLt a.key b.key)

/-- All chains of the table satisfy the ordering invariant. -/
def PHT.sortedAll (ht : PHT) : Prop := ∀ c ∈ ht.buckets, sortedChain c

/-- No marked (logically deleted but not yet unlinked) node anywhere: the
quiescent states reachable by complete sequential operations. -/
def PHT.noMarks (ht : PHT) : Prop :=
  ∀ c ∈ ht.buckets, ∀ n ∈ c, n.marked = false

/-- A key is present in a single chain when some unmarked node carries it. -/
def memChain (k : Key) (c : Chain) : Prop := ∃ n ∈ c, n.marked = false ∧ n.key = k

theorem ordBeqIff {a b : Ordering} : (a == b) = true ↔ a = b := by
  cases a <;> cases b <;> decide

theorem strCompare_gt_iff {a b : Key} : strCompare a b = .gt ↔ strCompare b a = .lt := by
  induction a generalizing b with
  | nil =>
    cases b with
    | nil => simp [strCompare]
    | cons y ys => simp [strCompare]
  | cons x xs ih =>
    cases b with
    | nil => simp [strCompare]
    | cons y ys =>
      simp only [strCompare]
      by_cases hxy : x < y
      · have hyx : ¬ y < x := Nat.lt_asymm hxy
        simp [hxy, hyx]
      · by_cases hyx : y < x
        · simp [hxy, hyx]
        · simp [hxy, hyx, ih]

theorem findSplit_pre_mem {k : Key} {c : Chain} :
    ∀ n ∈ (findSplit k c).1, n.marked = false ∧ keyLt n.key k := by
  induction c with
  | nil => intro n h; simp [findSplit] at h
  | cons m rest ih =>
    intro n hn
    by_cases hm : m.marked
    · simp only [findSplit, if_pos hm] at hn
      exact ih n hn
    · simp only [findSplit, if_neg hm] at hn
      cases hcmp : strCompare m.key k with
      | lt =>
        rw [hcmp] at hn
        simp only [List.mem_cons] at hn
        rcases hn with rfl | hn
        · exact ⟨Bool.eq_false_iff.mpr hm, hcmp⟩
        · exact ih n hn
      | eq => rw [hcmp] at hn; simp at hn
      | gt => rw [hcmp] at hn; simp at hn

theorem findSplit_pre_sublist {k : Key} {c : Chain} :
    (findSplit k c).1.Sublist (c.filter (fun n => !n.marked)) := by
  induction c with
  | nil => simp [findSplit]
  | cons m rest ih =>
    by_cases hm : m.marked
    · simp only [findSplit, if_pos hm, List.filter_cons, hm]
      simpa using ih
    · simp only [findSplit, if_neg hm, List.filter_cons]
      have hm' : (!m.marked) = true := by simp [hm]
      rw [hm']
      cases hcmp : strCompare m.key k with
      | lt => simpa using List.Sublist.cons₂ m ih
      | eq => simp
      | gt => simp

theorem findSplit_post_suffix {k : Key} {c : Chain} :
    (findSplit k c).2.IsSuffix c := by
  induction c with
  | nil => simp [findSplit]
  | cons m rest ih =>
    by_cases hm : m.marked
    · simp only [findSplit, if_pos hm]
      exact ih.trans (List.suffix_cons m rest)
    · simp only [findSplit, if_neg hm]
      cases hcmp : strCompare m.key k with
      | lt => exact ih.trans (List.suffix_cons m rest)
      | eq => simp
      | gt => simp

theorem findSplit_post_head {k : Key} {c : Chain} {n : PNode} {rest : Chain}
    (h : (findSplit k c).2 = n :: rest) :
    n.marked = false ∧ strCompare n.key k ≠ .lt := by
  induction c with
  | nil => simp [findSplit] at h
  | cons m tail ih =>
    by_cases hm : m.marked
    · simp only [findSplit, if_pos hm] at h
      exact ih h
    · simp only [findSplit, if_neg hm] at h
      cases hcmp : strCompare m.key k with
      | lt => rw [hcmp] at h; exact ih h
      | eq =>
        rw [hcmp] at h
        simp only [List.cons.injEq] at h
        obtain ⟨rfl, rfl⟩ := h
        exact ⟨Bool.eq_false_iff.mpr hm, by rw [hcmp]; intro hx; cases hx⟩
      | gt =>
        rw [hcmp] at h
        simp only [List.cons.injEq] at h
        obtain ⟨rfl, rfl⟩ := h
        exact ⟨Bool.eq_false_iff.mpr hm, by rw [hcmp]; intro hx; cases hx⟩

/-- A traversal over a prefix of unmarked, strictly smaller nodes followed by
an unmarked stopping node reproduces exactly that split. -/
theorem findSplit_append_stop {k : Key} {pre : Chain} {x : PNode} {t : Chain}
    (hpre : ∀ n ∈ pre, n.marked = false ∧ keyLt n.key k)
    (hx : x.marked = false) (hxk : strCompare x.key k ≠ .lt) :
    findSplit k (pre ++ x :: t) = (pre, x :: t) := by
  induction pre with
  | nil =>
    simp only [List.nil_append, findSplit, hx]
    cases hcmp : strCompare x.key k with
    | lt => exact absurd hcmp hxk
    | eq => simp
    | gt => simp
  | cons m rest ih =>
    have hmk := hpre m (List.mem_cons_self m rest)
    have hrest : ∀ n ∈ rest, n.marked = false ∧ keyLt n.key k := by
      intro n hn; exact hpre n (List.mem_cons_of_mem m hn)
    have hlt : strCompare m.key k = .lt := hmk.2
    simp [List.cons_append, findSplit, hmk.1, hlt, ih hrest]

/-- Over a chain without marked nodes, the split is a decomposition of the
chain: the traversal physically changes nothing. -/
theorem findSplit_nomarks {k : Key} {c : Chain}
    (h : ∀ n ∈ c, n.marked = false) :
    (findSplit k c).1 ++ (findSplit k c).2 = c := by
  induction c with
  | nil => simp [findSplit]
  | cons m rest ih =>
    have hm : m.marked = false := h m (List.mem_cons_self m rest)
    have hrest : ∀ n ∈ rest, n.marked = false := fun n hn => h n (List.mem_cons_of_mem m hn)
    simp only [findSplit, hm]
    rw [if_neg (by simp [hm])]
    cases hcmp : strCompare m.key k with
    | lt => simpa using ih hrest
    | eq => simp
    | gt => simp

/-- On a sorted chain, `findNode` reports `true` exactly when some unmarked
node carries the key. -/
theorem sorted_found_iff {k : Key} {c : Chain} (hs : sortedChain c) :
    foundAt k (findSplit k c).2 = true ↔ memChain k c := by
  constructor
  · intro h
    cases hpost : (findSplit k c).2 with
    | nil => rw [hpost] at h; simp [foundAt] at h
    | cons n rest =>
      rw [hpost] at h
      simp only [foundAt] at h
      rw [ordBeqIff] at h
      have hk : n.key = k := strCompare_eq_iff.mp h
      have hhead := findSplit_post_head hpost
      have hmem : n ∈ c := by
        have := findSplit_post_suffix (k := k) (c := c)
        rw [hpost] at this
        exact this.subset (List.mem_cons_self n rest)
      exact ⟨n, hmem, hhead.1, hk⟩
  · intro ⟨n, hn, hnm, hnk⟩
    induction c with
    | nil => simp at hn
    | cons m rest ih =>
      have hs' : sortedChain rest := by
        unfold sortedChain at hs ⊢
        rw [List.filter_cons] at hs
        by_cases hm : (!m.marked) = true
        · rw [if_pos hm] at hs; exact hs.tail
        · rwa [if_neg hm] at hs
      rcases List.mem_cons.mp hn with rfl | hn'
      · -- the witness is the head
        simp only [findSplit, hnm]
        rw [if_neg (by simp [hnm])]
        rw [hnk, strCompare_self]
        simp only [foundAt, hnk, strCompare_self]
        rfl
      · by_cases hm : m.marked
        · simp only [findSplit, if_pos hm]
          exact ih hs' hn'
        · simp only [findSplit, if_neg hm]
          cases hcmp : strCompare m.key k with
          | lt => exact ih hs' hn'
          | eq => simp only [foundAt, hcmp]; rfl
          | gt =>
            -- m.key > k yet an unmarked node with key k follows: contradicts sortedness
            exfalso
            have hklt : keyLt k m.key := strCompare_gt_iff.mp hcmp
            have hmem_f : n ∈ rest.filter (fun n => !n.marked) :=
              List.mem_filter.mpr ⟨hn', by simp [hnm]⟩
            unfold sortedChain at hs
            rw [List.filter_cons, if_pos (by simp [hm])] at hs
            have := (List.pairwise_cons.mp hs).1 n hmem_f
            rw [hnk] at this
            exact keyLt_irrefl k (keyLt_trans hklt this)

/-! ### Ordering-invariant preservation at chain level -/

theorem sortedChain_append {pre t : Chain} (h1 : sortedChain pre) (h2 : sortedChain t)
    (hx : ∀ a ∈ pre.filter (fun n => !n.marked), ∀ b ∈ t.filter (fun n => !n.marked),
      keyLt a.key b.key) :
    sortedChain (pre ++ t) := by
  unfold sortedChain at *
  rw [List.filter_append, List.pairwise_append]
  exact ⟨h1, h2, hx⟩

theorem sortedChain_of_suffix {c t : Chain} (h : t.IsSuffix c) (hs : sortedChain c) :
    sortedChain t := by
  unfold sortedChain at *
  exact hs.sublist (List.Sublist.filter _ h.sublist)

theorem findSplit_pre_sorted {k : Key} {c : Chain} (hs : sortedChain c) :
    sortedChain (findSplit k c).1 := by
  unfold sortedChain at *
  have h1 : (findSplit k c).1.filter (fun n => !n.marked) = (findSplit k c).1 := by
    apply List.filter_eq_self.mpr
    intro n hn
    simp [(findSplit_pre_mem n hn).1]
  rw [h1]
  exact hs.sublist findSplit_pre_sublist

/-- Unmarked keys strictly after the stopping node are strictly above the
target key. -/
theorem findSplit_tail_gt {k : Key} {c : Chain} {pre : Chain} {n : PNode} {rest : Chain}
    (hs : sortedChain c) (hsp : findSplit k c = (pre, n :: rest)) :
    ∀ m ∈ rest.filter (fun x => !x.marked), keyLt k m.key := by
  intro m hm
  have hhead := @findSplit_post_head k c n rest (by rw [hsp])
  have hsuf : (n :: rest).IsSuffix c := by
    have := findSplit_post_suffix (k := k) (c := c)
    rwa [hsp] at this
  have hpost : sortedChain (n :: rest) := sortedChain_of_suffix hsuf hs
  unfold sortedChain at hpost
  rw [List.filter_cons, if_pos (by simp [hhead.1])] at hpost
  have hnm : keyLt n.key m.key := (List.pairwise_cons.mp hpost).1 m hm
  rcases hcmp : strCompare n.key k with hlt | heq | hgt
  · exact absurd hcmp hhead.2
  · have : n.key = k := strCompare_eq_iff.mp hcmp
    rwa [this] at hnm
  · exact keyLt_trans (strCompare_gt_iff.mp hcmp) hnm

theorem sortedChain_nil : sortedChain [] := by
  unfold sortedChain; simp

/-- Inserting the fresh node between the low prefix and the tail preserves the
ordering invariant, provided every unmarked tail key is strictly above `k`. -/
theorem sortedChain_insert_mid {k : Key} {v : Val} {pre t : Chain}
    (hpre : ∀ n ∈ pre, n.marked = false ∧ keyLt n.key k)
    (hps : sortedChain pre) (hts : sortedChain t)
    (ht : ∀ m ∈ t.filter (fun x => !x.marked), keyLt k m.key) :
    sortedChain (pre ++ (⟨k, v, false⟩ : PNode) :: t) := by
  apply sortedChain_append hps
  · unfold sortedChain at *
    rw [List.filter_cons, if_pos (by simp)]
    exact List.pairwise_cons.mpr ⟨ht, hts⟩
  · intro a ha b hb
    have ha' := hpre a (List.mem_of_mem_filter ha)
    rw [List.filter_cons, if_pos (by simp)] at hb
    rcases List.mem_cons.mp hb with rfl | hb'
    · exact ha'.2
    · exact keyLt_trans ha'.2 (ht b hb')

/-- Removing the stopping node (or just gluing prefix and tail back together)
preserves the ordering invariant, provided every unmarked tail key is strictly
above `k`. -/
theorem sortedChain_glue {k : Key} {pre t : Chain}
    (hpre : ∀ n ∈ pre, n.marked = false ∧ keyLt n.key k)
    (hps : sortedChain pre) (hts : sortedChain t)
    (ht : ∀ m ∈ t.filter (fun x => !x.marked), keyLt k m.key) :
    sortedChain (pre ++ t) := by
  apply sortedChain_append hps hts
  intro a ha b hb
  have ha' := hpre a (List.mem_of_mem_filter ha)
  exact keyLt_trans ha'.2 (ht b hb)

theorem sortedChain_chainPut {k : Key} {v : Val} {c : Chain} (hs : sortedChain c) :
    sortedChain (chainPut k v c).2 := by
  unfold chainPut
  rcases hsp : findSplit k c with ⟨pre, post⟩
  have hpre : ∀ n ∈ pre, n.marked = false ∧ keyLt n.key k := by
    have := findSplit_pre_mem (k := k) (c := c); rw [hsp] at this; exact this
  have hps : sortedChain pre := by
    have := findSplit_pre_sorted (k := k) hs; rwa [hsp] at this
  have hsuf : post.IsSuffix c := by
    have := findSplit_post_suffix (k := k) (c := c); rwa [hsp] at this
  cases post with
  | nil =>
    simp only
    exact sortedChain_insert_mid hpre hps sortedChain_nil (by simp)
  | cons n rest =>
    have hrest : sortedChain rest :=
      sortedChain_of_suffix (List.IsSuffix.trans ⟨[n], rfl⟩ hsuf) hs
    have htail := findSplit_tail_gt hs hsp
    by_cases he : strCompare n.key k = .eq
    · simp only [he, if_pos rfl]
      exact sortedChain_insert_mid hpre hps hrest htail
    · simp only [if_neg he]
      have hpost : sortedChain (n :: rest) := sortedChain_of_suffix hsuf hs
      have hhead := findSplit_post_head (by rw [hsp])
      apply sortedChain_insert_mid hpre hps hpost
      intro m hm
      rw [List.filter_cons, if_pos (by simp [hhead.1])] at hm
      rcases List.mem_cons.mp hm with rfl | hm'
      · rcases hcmp : strCompare m.key k with h1 | h2 | h3
        · exact absurd hcmp hhead.2
        · exact absurd hcmp he
        · exact strCompare_gt_iff.mp hcmp
      · exact findSplit_tail_gt hs hsp m hm'

/-- The physical cleanup that a traversal performs (unlinking marked nodes)
preserves the ordering invariant. -/
theorem sortedChain_pre_append_post {k : Key} {c pre post : Chain}
    (hs : sortedChain c) (hsp : findSplit k c = (pre, post)) :
    sortedChain (pre ++ post) := by
  have hpre : ∀ n ∈ pre, n.marked = false ∧ keyLt n.key k := by
    have := findSplit_pre_mem (k := k) (c := c); rw [hsp] at this; exact this
  have hps : sortedChain pre := by
    have := findSplit_pre_sorted (k := k) hs; rwa [hsp] at this
  have hsuf : post.IsSuffix c := by
    have := findSplit_post_suffix (k := k) (c := c); rwa [hsp] at this
  have hpost : sortedChain post := sortedChain_of_suffix hsuf hs
  apply sortedChain_append hps hpost
  intro a ha b hb
  have ha' := hpre a (List.mem_of_mem_filter ha)
  cases post with
  | nil => simp at hb
  | cons n rest =>
    have hhead := findSplit_post_head (by rw [hsp])
    rw [List.filter_cons, if_pos (by simp [hhead.1])] at hb
    rcases List.mem_cons.mp hb with rfl | hb'
    · rcases hcmp : strCompare b.key k with h1 | h2 | h3
      · exact absurd hcmp hhead.2
      · rw [strCompare_eq_iff.mp hcmp]; exact ha'.2
      · exact keyLt_trans ha'.2 (strCompare_gt_iff.mp hcmp)
    · exact keyLt_trans ha'.2 (findSplit_tail_gt hs hsp b hb')

theorem sortedChain_chainInsert {k : Key} {v : Val} {c : Chain} (hs : sortedChain c) :
    sortedChain (chainInsert k v c).2.1 := by
  unfold chainInsert
  rcases hsp : findSplit k c with ⟨pre, post⟩
  have hpre : ∀ n ∈ pre, n.marked = false ∧ keyLt n.key k := by
    have := findSplit_pre_mem (k := k) (c := c); rw [hsp] at this; exact this
  have hps : sortedChain pre := by
    have := findSplit_pre_sorted (k := k) hs; rwa [hsp] at this
  have hsuf : post.IsSuffix c := by
    have := findSplit_post_suffix (k := k) (c := c); rwa [hsp] at this
  have hpost : sortedChain post := sortedChain_of_suffix hsuf hs
  by_cases hf : foundAt k post = true
  · simp only [hf, if_pos rfl]
    exact sortedChain_pre_append_post hs hsp
  · simp only [if_neg hf]
    apply sortedChain_insert_mid hpre hps hpost
    intro m hm
    cases post with
    | nil => simp at hm
    | cons n rest =>
      rw [List.filter_cons] at hm
      have hhead := findSplit_post_head (by rw [hsp])
      rw [if_pos (by simp [hhead.1])] at hm
      simp only [foundAt] at hf
      rcases List.mem_cons.mp hm with rfl | hm'
      · rcases hcmp : strCompare m.key k with h1 | h2 | h3
        · exact absurd hcmp hhead.2
        · rw [hcmp] at hf; exact absurd rfl hf
        · exact strCompare_gt_iff.mp hcmp
      · exact findSplit_tail_gt hs hsp m hm'

theorem sortedChain_chainRemove {k : Key} {c : Chain} (hs : sortedChain c) :
    sortedChain (chainRemove k c).2 := by
  unfold chainRemove
  rcases hsp : findSplit k c with ⟨pre, post⟩
  have hpre : ∀ n ∈ pre, n.marked = false ∧ keyLt n.key k := by
    have := findSplit_pre_mem (k := k) (c := c); rw [hsp] at this; exact this
  have hps : sortedChain pre := by
    have := findSplit_pre_sorted (k := k) hs; rwa [hsp] at this
  have hsuf : post.IsSuffix c := by
    have := findSplit_post_suffix (k := k) (c := c); rwa [hsp] at this
  cases post with
  | nil => simpa using hps
  | cons n rest =>
    have hrest : sortedChain rest :=
      sortedChain_of_suffix (List.IsSuffix.trans ⟨[n], rfl⟩ hsuf) hs
    have htail := findSplit_tail_gt hs hsp
    by_cases he : strCompare n.key k = .eq
    · simp only [he, if_pos rfl]
      exact sortedChain_glue hpre hps hrest htail
    · simp only [if_neg he]
      exact sortedChain_pre_append_post hs hsp

theorem sortedChain_chainReplace {k : Key} {v : Val} {c : Chain} (hs : sortedChain c) :
    sortedChain (chainReplace k v c).2.1 := by
  unfold chainReplace
  rcases hsp : findSplit k c with ⟨pre, post⟩
  have hpre : ∀ n ∈ pre, n.marked = false ∧ keyLt n.key k := by
    have := findSplit_pre_mem (k := k) (c := c); rw [hsp] at this; exact this
  have hps : sortedChain pre := by
    have := findSplit_pre_sorted (k := k) hs; rwa [hsp] at this
  have hsuf : post.IsSuffix c := by
    have := findSplit_post_suffix (k := k) (c := c); rwa [hsp] at this
  cases post with
  | nil => simpa using hps
  | cons n rest =>
    have hrest : sortedChain rest :=
      sortedChain_of_suffix (List.IsSuffix.trans ⟨[n], rfl⟩ hsuf) hs
    have htail := findSplit_tail_gt hs hsp
    by_cases he : strCompare n.key k = .eq
    · simp only [he, if_pos rfl]
      exact sortedChain_insert_mid hpre hps hrest htail
    · simp only [if_neg he]
      exact sortedChain_pre_append_post hs hsp

/-! ### Result characterisation at chain level -/

/-- `put` returns exactly the value `get` observes on the same chain. -/
theorem chainPut_fst (k : Key) (v : Val) (c : Chain) :
    (chainPut k v c).1 = chainGet k c := by
  unfold chainPut chainGet
  rcases findSplit k c with ⟨pre, post⟩
  cases post with
  | nil => simp
  | cons n rest =>
    by_cases he : strCompare n.key k = .eq <;> simp [he]

/-- After `put`, the chain maps the key to the new value. -/
theorem chainGet_chainPut (k : Key) (v : Val) (c : Chain) :
    chainGet k (chainPut k v c).2 = some v := by
  unfold chainPut
  rcases hsp : findSplit k c with ⟨pre, post⟩
  have hpre : ∀ n ∈ pre, n.marked = false ∧ keyLt n.key k := by
    have := findSplit_pre_mem (k := k) (c := c); rw [hsp] at this; exact this
  have hstop : ∀ t : Chain,
      chainGet k (pre ++ (⟨k, v, false⟩ : PNode) :: t) = some v := by
    intro t
    unfold chainGet
    rw [findSplit_append_stop hpre rfl (by rw [strCompare_self]; intro h; cases h)]
    simp [strCompare_self]
  cases post with
  | nil => simpa using hstop []
  | cons n rest =>
    by_cases he : strCompare n.key k = .eq
    · simp only [he, if_pos rfl]
      exact hstop rest
    · simp only [if_neg he]
      exact hstop (n :: rest)

/-- After a successful `insert`, the chain maps the key to the new value. -/
theorem chainGet_chainInsert (k : Key) (v : Val) (c : Chain)
    (hf : foundAt k (findSplit k c).2 = false) :
    chainGet k (chainInsert k v c).2.1 = some v := by
  unfold chainInsert
  rcases hsp : findSplit k c with ⟨pre, post⟩
  rw [hsp] at hf
  have hpre : ∀ n ∈ pre, n.marked = false ∧ keyLt n.key k := by
    have := findSplit_pre_mem (k := k) (c := c); rw [hsp] at this; exact this
  simp only [hf, Bool.false_eq_true, if_false]
  unfold chainGet
  rw [findSplit_append_stop hpre rfl (by rw [strCompare_self]; intro h; cases h)]
  simp [strCompare_self]

/-- `insert` fails exactly when the traversal finds the key. -/
theorem chainInsert_fst (k : Key) (v : Val) (c : Chain) :
    (chainInsert k v c).1 = !(foundAt k (findSplit k c).2) := by
  unfold chainInsert
  rcases findSplit k c with ⟨pre, post⟩
  by_cases hf : foundAt k post = true <;> simp [hf]

/-- `remove` returns the found node's value, or `none`. -/
theorem chainRemove_fst_none (k : Key) (c : Chain)
    (hf : foundAt k (findSplit k c).2 = false) :
    (chainRemove k c).1 = none := by
  unfold chainRemove
  rcases hsp : findSplit k c with ⟨pre, post⟩
  rw [hsp] at hf
  cases post with
  | nil => simp
  | cons n rest =>
    simp only [foundAt] at hf
    have : ¬ strCompare n.key k = .eq := by
      intro h; rw [h] at hf; cases hf
    simp [this]

theorem chainRemove_fst_get (k : Key) (c : Chain) :
    (chainRemove k c).1 = chainGet k c := by
  unfold chainRemove chainGet
  rcases findSplit k c with ⟨pre, post⟩
  cases post with
  | nil => simp
  | cons n rest =>
    by_cases he : strCompare n.key k = .eq <;> simp [he]

theorem chainGet_none_of_not_mem {k : Key} {c : Chain} (h : ¬ memChain k c) :
    chainGet k c = none := by
  unfold chainGet
  rcases hsp : findSplit k c with ⟨pre, post⟩
  cases post with
  | nil => simp
  | cons n rest =>
    by_cases he : strCompare n.key k = .eq
    · exfalso
      apply h
      have hhead := findSplit_post_head (by rw [hsp])
      have hsuf : (n :: rest).IsSuffix c := by
        have := findSplit_post_suffix (k := k) (c := c); rwa [hsp] at this
      exact ⟨n, hsuf.subset (List.mem_cons_self n rest), hhead.1, strCompare_eq_iff.mp he⟩
    · simp [he]

/-- After removing key `k` from a sorted chain, no unmarked node carries `k`. -/
theorem not_memChain_chainRemove {k : Key} {c : Chain} (hs : sortedChain c) :
    ¬ memChain k (chainRemove k c).2 := by
  unfold chainRemove
  rcases hsp : findSplit k c with ⟨pre, post⟩
  have hpre : ∀ n ∈ pre, n.marked = false ∧ keyLt n.key k := by
    have := findSplit_pre_mem (k := k) (c := c); rw [hsp] at this; exact this
  have hprek : ∀ n ∈ pre, n.key ≠ k := by
    intro n hn he
    have := (hpre n hn).2
    rw [he] at this
    exact keyLt_irrefl k this
  cases post with
  | nil =>
    intro ⟨n, hn, _, hnk⟩
    exact hprek n (by simpa using hn) hnk
  | cons n rest =>
    have htail := findSplit_tail_gt hs hsp
    have htailk : ∀ m ∈ rest, m.marked = false → m.key ≠ k := by
      intro m hm hmm he
      have : m ∈ rest.filter (fun x => !x.marked) := List.mem_filter.mpr ⟨hm, by simp [hmm]⟩
      have := htail m this
      rw [he] at this
      exact keyLt_irrefl k this
    by_cases he : strCompare n.key k = .eq
    · simp only [he, if_pos rfl]
      intro ⟨m, hm, hmm, hmk⟩
      rcases List.mem_append.mp hm with h1 | h2
      · exact hprek m h1 hmk
      · exact htailk m h2 hmm hmk
    · simp only [if_neg he]
      intro ⟨m, hm, hmm, hmk⟩
      rcases List.mem_append.mp hm with h1 | h2
      · exact hprek m h1 hmk
      · rcases List.mem_cons.mp h2 with rfl | h3
        · exact he (by rw [hmk, strCompare_self])
        · exact htailk m h3 hmm hmk

/-! ### Table-level plumbing -/

theorem PHT.bucketIdx_lt {ht : PHT} (h : ht.WF) (k : Key) :
    ht.bucketIdx k < ht.buckets.length := by
  rw [h.2]
  exact Nat.mod_lt _ h.1

theorem PHT.chainAt_mem {ht : PHT} (h : ht.WF) (k : Key) : ht.chainAt k ∈ ht.buckets := by
  unfold PHT.chainAt
  have hl := PHT.bucketIdx_lt h k
  rw [List.getD_eq_getElem?_getD, List.getElem?_eq_getElem hl]
  exact List.getElem_mem hl

theorem PHT.wf_set {ht : PHT} (h : ht.WF) (i : Nat) (c : Chain) :
    (PHT.mk ht.idxSize ht.hashFn (ht.buckets.set i c)).WF :=
  ⟨h.1, by rw [List.length_set]; exact h.2⟩

theorem PHT.chainAt_set_self {ht : PHT} (h : ht.WF) (k : Key) (c : Chain) :
    (PHT.mk ht.idxSize ht.hashFn (ht.buckets.set (ht.bucketIdx k) c)).chainAt k = c := by
  unfold PHT.chainAt PHT.bucketIdx
  simp only
  have hl := PHT.bucketIdx_lt h k
  unfold PHT.bucketIdx at hl
  rw [List.getD_eq_getElem?_getD, List.getElem?_set_self]
  · rfl
  · simpa using hl

theorem PHT.set_chainAt_self {ht : PHT} (h : ht.WF) (k : Key) :
    ht.buckets.set (ht.bucketIdx k) (ht.chainAt k) = ht.buckets := by
  have hl := PHT.bucketIdx_lt h k
  unfold PHT.chainAt
  rw [List.getD_eq_getElem?_getD, List.getElem?_eq_getElem hl]
  apply List.ext_getElem
  · simp
  · intro j h1 h2
    by_cases hij : ht.bucketIdx k = j
    · subst hij; simp
    · rw [List.getElem_set_ne hij]

theorem PHT.sortedAll_set {ht : PHT} (hs : ht.sortedAll) {i : Nat} {c : Chain}
    (hc : sortedChain c) :
    (PHT.mk ht.idxSize ht.hashFn (ht.buckets.set i c)).sortedAll := by
  intro ch hch
  rcases List.mem_or_eq_of_mem_set hch with h1 | h2
  · exact hs ch h1
  · rw [h2]; exact hc

theorem PHT.sorted_chainAt {ht : PHT} (h : ht.WF) (hs : ht.sortedAll) (k : Key) :
    sortedChain (ht.chainAt k) :=
  hs _ (PHT.chainAt_mem h k)

/-! ### Claim theorems for the hash table's sequential functional behaviour -/

/-- C2: `put(k,v)` returns the value previously bound to `k` (or none) and
always leaves `(k,v)` installed; hence `put(k,v1); put(k,v2)` leaves `k`
bound to `v2` and a subsequent `get(k)` returns `v2`. -/
theorem put_previous_and_install (ht : PHT) (k : Key) (v v1 v2 : Val) (h : ht.WF) :
    (ht.put k v).1 = ht.get k
    ∧ ((ht.put k v).2).get k = some v
    ∧ ((((ht.put k v1).2).put k v2).2).get k = some v2 := by
  have hinst : ∀ (ht' : PHT), ht'.WF → ∀ w, ((ht'.put k w).2).get k = some w := by
    intro ht' h' w
    show chainGet k (((ht'.put k w).2).chainAt k) = some w
    have : ((ht'.put k w).2).chainAt k = (chainPut k w (ht'.chainAt k)).2 :=
      PHT.chainAt_set_self h' k _
    rw [this]
    exact chainGet_chainPut k w _
  refine ⟨chainPut_fst k v _, hinst ht h v, ?_⟩
  exact hinst ((ht.put k v1).2) (PHT.wf_set h _ _) v2

/-- C3: logical absence is reported as a typed absent value or boolean false:
`get` on a missing key returns none, `insert` on a present key returns false,
`remove` on an absent key returns none; sequentially,
`insert(k,v); insert(k,v)` yields `(true, false)` and, with `k` present,
`remove(k); remove(k)` yields `(some v, none)`. -/
theorem absence_reporting (ht : PHT) (k : Key) (v : Val) (h : ht.WF) (hs : ht.sortedAll) :
    (¬ ht.memKey k → ht.get k = none)
    ∧ (ht.memKey k → (ht.insert k v).1 = false)
    ∧ (¬ ht.memKey k → (ht.remove k).1 = none)
    ∧ (¬ ht.memKey k → (ht.insert k v).1 = true ∧ (((ht.insert k v).2.1).insert k v).1 = false)
    ∧ (∀ v0, ht.get k = some v0 →
        (ht.remove k).1 = some v0 ∧ (((ht.remove k).2).remove k).1 = none) := by
  have hsc : sortedChain (ht.chainAt k) := PHT.sorted_chainAt h hs k
  have hfound := sorted_found_iff (k := k) hsc
  refine ⟨?_, ?_, ?_, ?_, ?_⟩
  · intro hm
    exact chainGet_none_of_not_mem hm
  · intro hm
    show (chainInsert k v (ht.chainAt k)).1 = false
    rw [chainInsert_fst, hfound.mpr hm]
    rfl
  · intro hm
    show (chainRemove k (ht.chainAt k)).1 = none
    apply chainRemove_fst_none
    rcases hb : foundAt k (findSplit k (ht.chainAt k)).2 with _ | _
    · rfl
    · exact absurd (hfound.mp hb) hm
  · intro hm
    have hnf : foundAt k (findSplit k (ht.chainAt k)).2 = false := by
      rcases hb : foundAt k (findSplit k (ht.chainAt k)).2 with _ | _
      · rfl
      · exact absurd (hfound.mp hb) hm
    constructor
    · show (chainInsert k v (ht.chainAt k)).1 = true
      rw [chainInsert_fst, hnf]
      rfl
    · show (chainInsert k v ((((ht.insert k v)).2.1).chainAt k)).1 = false
      have hch : (((ht.insert k v)).2.1).chainAt k = (chainInsert k v (ht.chainAt k)).2.1 :=
        PHT.chainAt_set_self h k _
      rw [hch, chainInsert_fst]
      -- the freshly inserted node is found by the second traversal
      unfold chainInsert
      rcases hsp : findSplit k (ht.chainAt k) with ⟨pre, post⟩
      rw [hsp] at hnf
      have hpre : ∀ n ∈ pre, n.marked = false ∧ keyLt n.key k := by
        have := findSplit_pre_mem (k := k) (c := ht.chainAt k); rw [hsp] at this; exact this
      simp only [hnf, Bool.false_eq_true, if_false]
      rw [findSplit_append_stop hpre rfl (by rw [strCompare_self]; intro hx; cases hx)]
      show (!foundAt k ((⟨k, v, false⟩ : PNode) :: post)) = false
      have hfk : foundAt k ((⟨k, v, false⟩ : PNode) :: post) = true := by
        show (strCompare k k == Ordering.eq) = true
        rw [strCompare_self]
        rfl
      rw [hfk]
      rfl
  · intro v0 hv0
    constructor
    · show (chainRemove k (ht.chainAt k)).1 = some v0
      rw [chainRemove_fst_get]
      exact hv0
    · show (chainRemove k (((ht.remove k).2).chainAt k)).1 = none
      have hch : (((ht.remove k)).2).chainAt k = (chainRemove k (ht.chainAt k)).2 :=
        PHT.chainAt_set_self h k _
      rw [hch, chainRemove_fst_get]
      exact chainGet_none_of_not_mem (not_memChain_chainRemove hsc)

/-- C4: in every bucket chain the keys of unmarked nodes are strictly
ascending in byte-lexicographic order, and every operation — the `findNode`
traversal's physical cleanup, `put`, `insert`, `remove`, `replace` — preserves
this invariant. -/
theorem chain_order_invariant (ht : PHT) (k : Key) (v : Val) (h : ht.WF) (hs : ht.sortedAll) :
    (∀ c ∈ ht.buckets, sortedChain ((findSplit k c).1 ++ (findSplit k c).2))
    ∧ ((ht.put k v).2).sortedAll
    ∧ ((ht.insert k v).2.1).sortedAll
    ∧ ((ht.remove k).2).sortedAll
    ∧ ((ht.replace k v).2.1).sortedAll := by
  have hsc : sortedChain (ht.chainAt k) := PHT.sorted_chainAt h hs k
  refine ⟨?_, ?_, ?_, ?_, ?_⟩
  · intro c hc
    exact sortedChain_pre_append_post (hs c hc) rfl
  · exact PHT.sortedAll_set hs (sortedChain_chainPut hsc)
  · exact PHT.sortedAll_set hs (sortedChain_chainInsert hsc)
  · exact PHT.sortedAll_set hs (sortedChain_chainRemove hsc)
  · exact PHT.sortedAll_set hs (sortedChain_chainReplace hsc)

/-- C10: when a mutation reports logical failure — `insert` on a present key
or `replace` on an absent key — the table is left unchanged and the
tentatively allocated node is deallocated before returning. -/
theorem failed_mutation_unchanged (ht : PHT) (k : Key) (v : Val) (h : ht.WF)
    (hs : ht.sortedAll) (hnm : ht.noMarks) :
    (ht.memKey k → ht.insert k v = (false, ht, true))
    ∧ (¬ ht.memKey k → ht.replace k v = (none, ht, true)) := by
  have hsc : sortedChain (ht.chainAt k) := PHT.sorted_chainAt h hs k
  have hfound := sorted_found_iff (k := k) hsc
  have hnmc : ∀ n ∈ ht.chainAt k, n.marked = false :=
    fun n hn => hnm _ (PHT.chainAt_mem h k) n hn
  have hclean : (findSplit k (ht.chainAt k)).1 ++ (findSplit k (ht.chainAt k)).2
      = ht.chainAt k := findSplit_nomarks hnmc
  constructor
  · intro hm
    have hf : foundAt k (findSplit k (ht.chainAt k)).2 = true := hfound.mpr hm
    have hchain : chainInsert k v (ht.chainAt k) = (false, ht.chainAt k, true) := by
      unfold chainInsert
      rcases hsp : findSplit k (ht.chainAt k) with ⟨pre, post⟩
      rw [hsp] at hf hclean
      simp [hf, hclean]
    have hstep : ht.insert k v
        = ((chainInsert k v (ht.chainAt k)).1,
           PHT.mk ht.idxSize ht.hashFn
             (ht.buckets.set (ht.bucketIdx k) (chainInsert k v (ht.chainAt k)).2.1),
           (chainInsert k v (ht.chainAt k)).2.2) := rfl
    rw [hstep, hchain]
    show (false, PHT.mk ht.idxSize ht.hashFn
      (ht.buckets.set (ht.bucketIdx k) (ht.chainAt k)), true) = (false, ht, true)
    rw [PHT.set_chainAt_self h k]
  · intro hm
    have hf : foundAt k (findSplit k (ht.chainAt k)).2 = false := by
      rcases hb : foundAt k (findSplit k (ht.chainAt k)).2 with _ | _
      · rfl
      · exact absurd (hfound.mp hb) hm
    have hchain : chainReplace k v (ht.chainAt k) = (none, ht.chainAt k, true) := by
      unfold chainReplace
      rcases hsp : findSplit k (ht.chainAt k) with ⟨pre, post⟩
      rw [hsp] at hf hclean
      cases post with
      | nil => simpa using hclean
      | cons n rest =>
        simp only [foundAt] at hf
        have hne : ¬ strCompare n.key k = .eq := by
          intro hx; rw [hx] at hf; cases hf
        simp [hne, hclean]
    have hstep : ht.replace k v
        = ((chainReplace k v (ht.chainAt k)).1,
           PHT.mk ht.idxSize ht.hashFn
             (ht.buckets.set (ht.bucketIdx k) (chainReplace k v (ht.chainAt k)).2.1),
           (chainReplace k v (ht.chainAt k)).2.2) := rfl
    rw [hstep, hchain]
    show (none, PHT.mk ht.idxSize ht.hashFn
      (ht.buckets.set (ht.bucketIdx k) (ht.chainAt k)), true) = (none, ht, true)
    rw [PHT.set_chainAt_self h k]

/-! ### Concrete example tables for witnesses -/

/-- A one-bucket table holding the single pair `[1] ↦ [2]`. -/
def htEx : PHT :=
  { idxSize := 1, hashFn := fun _ => 0, buckets := [[⟨[1], [2], false⟩]] }

theorem htEx_wf : htEx.WF := ⟨by decide, rfl⟩

theorem htEx_sorted : htEx.sortedAll := by
  intro c hc
  rcases List.mem_singleton.mp hc with rfl
  unfold sortedChain
  decide

theorem htEx_nomarks : htEx.noMarks := by
  intro c hc
  rcases List.mem_singleton.mp hc with rfl
  decide

theorem htEx_mem : htEx.memKey [1] := by
  refine ⟨⟨[1], [2], false⟩, ?_, rfl, rfl⟩
  show _ ∈ htEx.buckets.getD (htEx.bucketIdx [1]) []
  decide

theorem htEx_notmem : ¬ htEx.memKey [9] := by
  intro ⟨n, hn, _, hk⟩
  have : n ∈ ([⟨[1], [2], false⟩] : Chain) := hn
  rcases List.mem_singleton.mp this with rfl
  simp at hk

theorem put_previous_and_install_witness :
    htEx.WF
    ∧ ((htEx.put [1] [7]).1 = htEx.get [1]
      ∧ ((htEx.put [1] [7]).2).get [1] = some [7]
      ∧ ((((htEx.put [1] [7]).2).put [1] [8]).2).get [1] = some [8]) :=
  ⟨htEx_wf, put_previous_and_install htEx [1] [7] [7] [8] htEx_wf⟩

theorem absence_reporting_witness :
    htEx.WF ∧ htEx.sortedAll
    ∧ ((¬ htEx.memKey [9] → htEx.get [9] = none)
      ∧ (htEx.memKey [9] → (htEx.insert [9] [3]).1 = false)
      ∧ (¬ htEx.memKey [9] → (htEx.remove [9]).1 = none)
      ∧ (¬ htEx.memKey [9] → (htEx.insert [9] [3]).1 = true
          ∧ (((htEx.insert [9] [3]).2.1).insert [9] [3]).1 = false)
      ∧ (∀ v0, htEx.get [9] = some v0 →
          (htEx.remove [9]).1 = some v0 ∧ (((htEx.remove [9]).2).remove [9]).1 = none)) :=
  ⟨htEx_wf, htEx_sorted, absence_reporting htEx [9] [3] htEx_wf htEx_sorted⟩

theorem chain_order_invariant_witness :
    htEx.WF ∧ htEx.sortedAll
    ∧ ((∀ c ∈ htEx.buckets, sortedChain ((findSplit [0] c).1 ++ (findSplit [0] c).2))
      ∧ ((htEx.put [0] [1]).2).sortedAll
      ∧ ((htEx.insert [0] [1]).2.1).sortedAll
      ∧ ((htEx.remove [0]).2).sortedAll
      ∧ ((htEx.replace [0] [1]).2.1).sortedAll) :=
  ⟨htEx_wf, htEx_sorted, chain_order_invariant htEx [0] [1] htEx_wf htEx_sorted⟩

theorem failed_mutation_unchanged_witness :
    htEx.WF ∧ htEx.sortedAll ∧ htEx.noMarks
    ∧ ((htEx.memKey [1] → htEx.insert [1] [9] = (false, htEx, true))
      ∧ (¬ htEx.memKey [1] → htEx.replace [1] [9] = (none, htEx, true))) :=
  ⟨htEx_wf, htEx_sorted, htEx_nomarks,
    failed_mutation_unchanged htEx [1] [9] htEx_wf htEx_sorted htEx_nomarks⟩

/-! ## TGraph: sequential model of the transient lock-based graph

Vertex ids index a fixed array of cache-aligned `VertexMeta` slots
`{idxToVertex, vertexLocks, vertexSeqs}`.  Locks serialise the operations; in
the sequential embedding they have no observable effect, so a slot is just the
optional vertex object plus the sequence number.  The two relation sets use
`(src, dest)` as the key (`RelationHash` / `RelationEqual`), which we model as
lists searched and deduplicated under that equality. -/

structure Relation where
  src : Nat
  dest : Nat
  weight : Int
  deriving DecidableEq, Repr

abbrev RSet := List Relation

/-- `RelationEqual`: two relations are the same set element when their
`(src, dest)` pairs agree. -/
def relEqB (a b : Relation) : Bool := a.src == b.src && a.dest == b.dest

/-- `has_relation`: set lookup by `(src, dest)`. -/
def has_relation (s : RSet) (r : Relation) : Bool := s.any (fun x => relEqB x r)

/-- `unordered_set::insert`: no-op returning `false` when an element with the
same key is present. -/
def rset_insert (s : RSet) (r : Relation) : RSet × Bool :=
  if has_relation s r then (s, false) else (s ++ [r], true)

/-- `remove_relation`: erase and return the stored element matching `r`'s
key, without deallocating it. -/
def remove_relation (s : RSet) (r : Relation) : Option Relation × RSet :=
  match s with
  | [] => (none, [])
  | x :: rest =>
    if relEqB x r then (some x, rest)
    else
      let (f, rest') := remove_relation rest r
      (f, x :: rest')

structure Vertex where
  id : Nat
  lbl : Nat
  adjacency_list : RSet
  dest_list : RSet
  deriving DecidableEq, Repr

structure VertexMeta where
  idxToVertex : Option Vertex
  vertexSeqs : Nat
  deriving DecidableEq, Repr

instance : Inhabited VertexMeta := ⟨⟨none, 0⟩⟩

structure TG where
  vMeta : List VertexMeta
  deriving DecidableEq, Repr

def TG.meta (g : TG) (i : Nat) : VertexMeta := g.vMeta.getD i default

def TG.vertex (g : TG) (i : Nat) : Option Vertex := (g.meta i).idxToVertex

def TG.seq (g : TG) (i : Nat) : Nat := (g.meta i).vertexSeqs

/-- `source(idx)`: the adjacency set of the vertex at `idx` (empty when the
vertex is absent; the C++ would dereference null there, but every call site
guards on presence first). -/
def TG.adj (g : TG) (i : Nat) : RSet :=
  match g.vertex i with
  | some v => v.adjacency_list
  | none => []

/-- `destination(idx)`: the incoming set of the vertex at `idx`. -/
def TG.destL (g : TG) (i : Nat) : RSet :=
  match g.vertex i with
  | some v => v.dest_list
  | none => []

def TG.setMeta (g : TG) (i : Nat) (m : VertexMeta) : TG := ⟨g.vMeta.set i m⟩

def TG.setVertex (g : TG) (i : Nat) (v? : Option Vertex) : TG :=
  g.setMeta i ⟨v?, (g.meta i).vertexSeqs⟩

/-- `inc_seq(idx)`. -/
def TG.incSeq (g : TG) (i : Nat) : TG :=
  g.setMeta i ⟨(g.meta i).idxToVertex, (g.meta i).vertexSeqs + 1⟩

def TG.updateVertex (g : TG) (i : Nat) (f : Vertex → Vertex) : TG :=
  match g.vertex i with
  | some v => g.setVertex i (some (f v))
  | none => g

def TG.updAdj (g : TG) (i : Nat) (f : RSet → RSet) : TG :=
  g.updateVertex i (fun v => { v with adjacency_list := f v.adjacency_list })

def TG.updDest (g : TG) (i : Nat) (f : RSet → RSet) : TG :=
  g.updateVertex i (fun v => { v with dest_list := f v.dest_list })

/-- `add_edge(src, dest, weight)`, source lines 528–580. -/
def TG.add_edge (g : TG) (src dest : Nat) (weight : Int) : Bool × TG :=
  if src = dest then (false, g)
  else
    let r : Relation := ⟨src, dest, weight⟩
    if g.vertex src = none ∨ g.vertex dest = none then (false, g)
    else if has_relation (g.adj src) r then (false, g)
    else
      let (s1, ret1) := rset_insert (g.adj src) r
      let g1 := g.updAdj src (fun _ => s1)
      let (s2, _) := rset_insert (g1.destL dest) r
      let g2 := g1.updDest dest (fun _ => s2)
      if ret1 then (true, (g2.incSeq src).incSeq dest) else (false, g2)

/-- `remove_edge(src, dest)`, source lines 605–636. -/
def TG.remove_edge (g : TG) (src dest : Nat) : Bool × TG :=
  if src = dest then (false, g)
  else if g.vertex src ≠ none ∧ g.vertex dest ≠ none then
    let r : Relation := ⟨src, dest, -1⟩
    let ret1 := (remove_relation (g.adj src) r).1
    let g1 := g.updAdj src (fun _ => (remove_relation (g.adj src) r).2)
    let g2 := g1.updDest dest (fun _ => (remove_relation (g1.destL dest) r).2)
    if ret1.isSome then (true, (g2.incSeq src).incSeq dest) else (false, g2)
  else (false, g)

/-- The body of `add_vertex`'s release loop: `inc_seq(*u)` guarded by
`vertex(vid) != nullptr && vertex(*u) != nullptr` (source lines 673–676). -/
def bumpStep (vid : Nat) (h : TG) (u : Nat) : TG :=
  if h.vertex vid ≠ none ∧ h.vertex u ≠ none then h.incSeq u else h

/-- The body of `add_vertex`'s edge-population loop (source lines 662–668). -/
def avInsStep (vid : Nat) (h : TG) (u : Nat) : TG :=
  if h.vertex u = none then h
  else if u = vid then h
  else
    let r : Relation := ⟨vid, u, -1⟩
    let h1 := h.updAdj vid (fun s => (rset_insert s r).1)
    h1.updDest u (fun s => (rset_insert s r).1)

/-- `add_vertex(vid)`, source lines 638–681.  The randomly sampled, sorted and
deduplicated working set (which always contains `vid`) is passed in as `vec`;
everything after the sampling is modelled faithfully, including the
sequence-number bump loop that runs on the failure path as well. -/
def TG.add_vertex (g : TG) (vid : Nat) (vec : List Nat) : Bool × TG :=
  if g.vertex vid = none then
    let g1 := g.setVertex vid (some ⟨vid, vid, [], []⟩)
    let g2 := vec.foldl (avInsStep vid) g1
    (true, vec.reverse.foldl (bumpStep vid) g2)
  else
    (false, vec.reverse.foldl (bumpStep vid) g)

/-- Sorted insertion, the building block of the sort below. -/
def insSorted (a : Nat) : List Nat → List Nat
  | [] => [a]
  | b :: t => if a ≤ b then a :: b :: t else b :: insSorted a t

/-- `std::sort` (any comparison sort — modelled as insertion sort) followed
by `std::unique` on the sorted result. -/
def sortDedup (l : List Nat) : List Nat := (l.foldr insSorted []).dedup

/-- Step 3 of `remove_vertex`: for every collected neighbor, erase the
`(other, vid)` relation from `other`'s adjacency set and `(vid, other)` from
`other`'s incoming set.  `none` models the `std::abort()` taken when a
collected neighbor no longer relates to `vid` in either direction. -/
def rv_phase3 (vid : Nat) : List Nat → TG → Option TG
  | [], h => some h
  | other :: rest, h =>
    if other = vid then rv_phase3 vid rest h
    else
      let rsrc : Relation := ⟨other, vid, -1⟩
      let rdst : Relation := ⟨vid, other, -1⟩
      if has_relation (h.adj other) rsrc = false ∧ has_relation (h.destL other) rdst = false then
        none
      else
        let (_, s1) := remove_relation (h.adj other) rsrc
        let h1 := h.updAdj other (fun _ => s1)
        let (_, s2) := remove_relation (h1.destL other) rdst
        let h2 := h1.updDest other (fun _ => s2)
        rv_phase3 vid rest h2

/-- Steps 3–4 of `remove_vertex`: neighbor cleanup, clearing both of `vid`'s
sets, destroying the vertex object, and bumping every touched sequence
number (in release order). -/
def rv_commit (g : TG) (vid : Nat) (vertices : List Nat) : Option TG :=
  match rv_phase3 vid vertices g with
  | none => none
  | some h =>
    let h1 := h.updAdj vid (fun _ => [])
    let h2 := h1.updDest vid (fun _ => [])
    let h3 := h2.setVertex vid none
    some (vertices.reverse.foldl (fun h u => h.incSeq u) h3)

/-- `remove_vertex(vid)`, source lines 683–787.  `interf` supplies the state
transformation performed by other threads in the window where `vid`'s lock is
released between the scan phase and the commit phase (the sequential
execution is `interf = []`); `fuel` bounds the `startOver` restarts.  `none`
models nontermination or `std::abort()`. -/
def TG.remove_vertex : Nat → List (TG → TG) → TG → Nat → Option (Bool × TG)
  | 0, _, _, _ => none
  | fuel + 1, interf, g, vid =>
    match g.vertex vid with
    | none => some (false, g)
    | some vtx =>
      let s0 := g.seq vid
      let vertices :=
        sortDedup ((vtx.adjacency_list.map (·.dest)) ++ (vtx.dest_list.map (·.src)) ++ [vid])
      let g' := (interf.headD id) g
      if vertices.any (fun u => decide (g'.vertex u = none) && (g'.seq vid == s0)) then
        none
      else if g'.seq vid ≠ s0 then
        TG.remove_vertex fuel interf.tail g' vid
      else
        (rv_commit g' vid vertices).map (fun h => (true, h))

/-! ### Graph invariants -/

/-- `(a, b)` occurs in the set under the `(src, dest)` key. -/
def inSet (s : RSet) (a b : Nat) : Prop := ∃ r ∈ s, r.src = a ∧ r.dest = b

instance inSetDecidable (s : RSet) (a b : Nat) : Decidable (inSet s a b) := by
  unfold inSet; infer_instance

/-- C5's symmetry: an edge is in the source's adjacency set iff it is in the
destination's incoming set. -/
def TG.Sym (g : TG) : Prop :=
  ∀ a b : Nat, inSet (g.adj a) a b ↔ inSet (g.destL b) a b

/-- Every relation stored in an adjacency set names its owner as source. -/
def TG.SrcOk (g : TG) : Prop := ∀ u : Nat, ∀ r ∈ g.adj u, r.src = u

/-- Every relation stored in an incoming set names its owner as destination. -/
def TG.DestOk (g : TG) : Prop := ∀ u : Nat, ∀ r ∈ g.destL u, r.dest = u

/-- Sets hold at most one relation per `(src, dest)` key (guaranteed by
`unordered_set` with `RelationEqual`). -/
def nodupRel (s : RSet) : Prop :=
  s.Pairwise (fun a b => ¬ (a.src = b.src ∧ a.dest = b.dest))

def TG.NodupOk (g : TG) : Prop := ∀ u : Nat, nodupRel (g.adj u) ∧ nodupRel (g.destL u)

/-- The conjunction of the structural graph invariants. -/
def TG.Inv (g : TG) : Prop := g.Sym ∧ g.SrcOk ∧ g.DestOk ∧ g.NodupOk

/-! ### TGraph plumbing -/

theorem TG.vertex_some_lt {g : TG} {i : Nat} {v : Vertex} (h : g.vertex i = some v) :
    i < g.vMeta.length := by
  by_contra hge
  have hle : g.vMeta.length ≤ i := Nat.le_of_not_lt hge
  unfold TG.vertex TG.meta at h
  rw [List.getD_eq_getElem?_getD, List.getElem?_eq_none hle] at h
  simp at h

theorem TG.length_setMeta (g : TG) (i : Nat) (m : VertexMeta) :
    (g.setMeta i m).vMeta.length = g.vMeta.length := by
  unfold TG.setMeta
  simp

theorem TG.meta_setMeta_self {g : TG} {i : Nat} (m : VertexMeta) (h : i < g.vMeta.length) :
    (g.setMeta i m).meta i = m := by
  unfold TG.setMeta TG.meta
  simp only
  rw [List.getD_eq_getElem?_getD, List.getElem?_set_self]
  · rfl
  · simpa using h

theorem TG.meta_setMeta_ne {g : TG} {i j : Nat} (m : VertexMeta) (h : j ≠ i) :
    (g.setMeta i m).meta j = g.meta j := by
  unfold TG.setMeta TG.meta
  simp only
  rw [List.getD_eq_getElem?_getD, List.getElem?_set_ne (fun he => h he.symm),
    ← List.getD_eq_getElem?_getD]

theorem TG.adj_congr {g g' : TG} {j : Nat} (h : g.vertex j = g'.vertex j) :
    g.adj j = g'.adj j := by
  unfold TG.adj
  rw [h]

theorem TG.destL_congr {g g' : TG} {j : Nat} (h : g.vertex j = g'.vertex j) :
    g.destL j = g'.destL j := by
  unfold TG.destL
  rw [h]

/-- Setting a slot back to its current contents is the identity (in range or
out of range alike when the slot index is in range). -/
theorem TG.setMeta_self {g : TG} {i : Nat} (h : i < g.vMeta.length) :
    g.setMeta i (g.meta i) = g := by
  unfold TG.setMeta TG.meta
  rw [List.getD_eq_getElem?_getD, List.getElem?_eq_getElem h]
  show TG.mk (g.vMeta.set i g.vMeta[i]) = g
  congr 1
  apply List.ext_getElem
  · simp
  · intro j h1 h2
    by_cases hij : i = j
    · subst hij; simp
    · rw [List.getElem_set_ne hij]

/-! Accessor behaviour of the four state updates. -/

theorem TG.vertex_incSeq (g : TG) (i j : Nat) : (g.incSeq i).vertex j = g.vertex j := by
  unfold TG.incSeq TG.vertex
  by_cases hij : j = i
  · subst hij
    by_cases hl : j < g.vMeta.length
    · rw [TG.meta_setMeta_self _ hl]
    · unfold TG.setMeta TG.meta
      simp only
      rw [List.getD_eq_getElem?_getD, List.getElem?_eq_none (by simpa using Nat.le_of_not_lt hl),
        List.getD_eq_getElem?_getD,
        List.getElem?_eq_none (by simpa [List.length_set] using Nat.le_of_not_lt hl)]
  · rw [TG.meta_setMeta_ne _ hij]

theorem TG.seq_incSeq_self {g : TG} {i : Nat} (h : i < g.vMeta.length) :
    (g.incSeq i).seq i = g.seq i + 1 := by
  unfold TG.incSeq TG.seq
  rw [TG.meta_setMeta_self _ h]

theorem TG.seq_incSeq_ne (g : TG) {i j : Nat} (h : j ≠ i) :
    (g.incSeq i).seq j = g.seq j := by
  unfold TG.incSeq TG.seq
  rw [TG.meta_setMeta_ne _ h]

theorem TG.seq_incSeq_le (g : TG) (i j : Nat) : g.seq j ≤ (g.incSeq i).seq j := by
  by_cases hij : j = i
  · subst hij
    by_cases hl : j < g.vMeta.length
    · rw [TG.seq_incSeq_self hl]; omega
    · unfold TG.incSeq TG.seq TG.setMeta TG.meta
      simp only
      rw [List.getD_eq_getElem?_getD,
        List.getElem?_eq_none (by simpa [List.length_set] using Nat.le_of_not_lt hl),
        List.getD_eq_getElem?_getD, List.getElem?_eq_none (by simpa using Nat.le_of_not_lt hl)]
  · rw [TG.seq_incSeq_ne _ hij]

theorem TG.meta_incSeq_ne (g : TG) {i j : Nat} (h : j ≠ i) :
    (g.incSeq i).meta j = g.meta j := TG.meta_setMeta_ne _ h

theorem TG.seq_updateVertex (g : TG) (i : Nat) (f : Vertex → Vertex) (j : Nat) :
    (g.updateVertex i f).seq j = g.seq j := by
  unfold TG.updateVertex
  cases hv : g.vertex i with
  | none => rfl
  | some v =>
    unfold TG.setVertex TG.seq
    by_cases hij : j = i
    · subst hij
      rw [TG.meta_setMeta_self _ (TG.vertex_some_lt hv)]
    · rw [TG.meta_setMeta_ne _ hij]

theorem TG.vertex_updateVertex_ne (g : TG) (i : Nat) (f : Vertex → Vertex) {j : Nat}
    (h : j ≠ i) : (g.updateVertex i f).vertex j = g.vertex j := by
  unfold TG.updateVertex
  cases hv : g.vertex i with
  | none => rfl
  | some v =>
    unfold TG.setVertex TG.vertex
    rw [TG.meta_setMeta_ne _ h]

theorem TG.meta_updateVertex_ne (g : TG) (i : Nat) (f : Vertex → Vertex) {j : Nat}
    (h : j ≠ i) : (g.updateVertex i f).meta j = g.meta j := by
  unfold TG.updateVertex
  cases hv : g.vertex i with
  | none => rfl
  | some v => exact TG.meta_setMeta_ne _ h

theorem TG.vertex_updateVertex_self {g : TG} {i : Nat} {v : Vertex} (f : Vertex → Vertex)
    (h : g.vertex i = some v) : (g.updateVertex i f).vertex i = some (f v) := by
  unfold TG.updateVertex
  rw [h]
  unfold TG.setVertex TG.vertex
  rw [TG.meta_setMeta_self _ (TG.vertex_some_lt h)]

theorem TG.vertex_updateVertex_none {g : TG} {i : Nat} (f : Vertex → Vertex)
    (h : g.vertex i = none) : g.updateVertex i f = g := by
  unfold TG.updateVertex
  rw [h]

theorem TG.adj_updAdj_self {g : TG} {i : Nat} {v : Vertex} (f : RSet → RSet)
    (h : g.vertex i = some v) : (g.updAdj i f).adj i = f (g.adj i) := by
  unfold TG.updAdj
  unfold TG.adj
  rw [TG.vertex_updateVertex_self _ h, h]

theorem TG.destL_updAdj_self {g : TG} {i : Nat} {v : Vertex} (f : RSet → RSet)
    (h : g.vertex i = some v) : (g.updAdj i f).destL i = g.destL i := by
  unfold TG.updAdj
  unfold TG.destL
  rw [TG.vertex_updateVertex_self _ h, h]

theorem TG.adj_updDest_self {g : TG} {i : Nat} {v : Vertex} (f : RSet → RSet)
    (h : g.vertex i = some v) : (g.updDest i f).adj i = g.adj i := by
  unfold TG.updDest
  unfold TG.adj
  rw [TG.vertex_updateVertex_self _ h, h]

theorem TG.destL_updDest_self {g : TG} {i : Nat} {v : Vertex} (f : RSet → RSet)
    (h : g.vertex i = some v) : (g.updDest i f).destL i = f (g.destL i) := by
  unfold TG.updDest
  unfold TG.destL
  rw [TG.vertex_updateVertex_self _ h, h]

theorem TG.adj_updateVertex_ne (g : TG) (i : Nat) (f : Vertex → Vertex) {j : Nat}
    (h : j ≠ i) : (g.updateVertex i f).adj j = g.adj j :=
  TG.adj_congr (TG.vertex_updateVertex_ne g i f h)

theorem TG.destL_updateVertex_ne (g : TG) (i : Nat) (f : Vertex → Vertex) {j : Nat}
    (h : j ≠ i) : (g.updateVertex i f).destL j = g.destL j :=
  TG.destL_congr (TG.vertex_updateVertex_ne g i f h)

theorem TG.adj_incSeq (g : TG) (i j : Nat) : (g.incSeq i).adj j = g.adj j :=
  TG.adj_congr (TG.vertex_incSeq g i j)

theorem TG.destL_incSeq (g : TG) (i j : Nat) : (g.incSeq i).destL j = g.destL j :=
  TG.destL_congr (TG.vertex_incSeq g i j)

/-! Syntactic wrappers for the two set-updating operations. -/

theorem TG.vertex_updAdj_ne (g : TG) (i : Nat) (f : RSet → RSet) {j : Nat} (h : j ≠ i) :
    (g.updAdj i f).vertex j = g.vertex j := TG.vertex_updateVertex_ne g i _ h

theorem TG.vertex_updDest_ne (g : TG) (i : Nat) (f : RSet → RSet) {j : Nat} (h : j ≠ i) :
    (g.updDest i f).vertex j = g.vertex j := TG.vertex_updateVertex_ne g i _ h

theorem TG.adj_updAdj_ne (g : TG) (i : Nat) (f : RSet → RSet) {j : Nat} (h : j ≠ i) :
    (g.updAdj i f).adj j = g.adj j := TG.adj_updateVertex_ne g i _ h

theorem TG.adj_updDest_ne (g : TG) (i : Nat) (f : RSet → RSet) {j : Nat} (h : j ≠ i) :
    (g.updDest i f).adj j = g.adj j := TG.adj_updateVertex_ne g i _ h

theorem TG.destL_updAdj_ne (g : TG) (i : Nat) (f : RSet → RSet) {j : Nat} (h : j ≠ i) :
    (g.updAdj i f).destL j = g.destL j := TG.destL_updateVertex_ne g i _ h

theorem TG.destL_updDest_ne (g : TG) (i : Nat) (f : RSet → RSet) {j : Nat} (h : j ≠ i) :
    (g.updDest i f).destL j = g.destL j := TG.destL_updateVertex_ne g i _ h

theorem TG.meta_updAdj_ne (g : TG) (i : Nat) (f : RSet → RSet) {j : Nat} (h : j ≠ i) :
    (g.updAdj i f).meta j = g.meta j := TG.meta_updateVertex_ne g i _ h

theorem TG.meta_updDest_ne (g : TG) (i : Nat) (f : RSet → RSet) {j : Nat} (h : j ≠ i) :
    (g.updDest i f).meta j = g.meta j := TG.meta_updateVertex_ne g i _ h

theorem TG.seq_updAdj (g : TG) (i : Nat) (f : RSet → RSet) (j : Nat) :
    (g.updAdj i f).seq j = g.seq j := TG.seq_updateVertex g i _ j

theorem TG.seq_updDest (g : TG) (i : Nat) (f : RSet → RSet) (j : Nat) :
    (g.updDest i f).seq j = g.seq j := TG.seq_updateVertex g i _ j

theorem TG.vertex_updAdj_self {g : TG} {i : Nat} {v : Vertex} (f : RSet → RSet)
    (h : g.vertex i = some v) :
    (g.updAdj i f).vertex i = some { v with adjacency_list := f v.adjacency_list } :=
  TG.vertex_updateVertex_self _ h

theorem TG.vertex_updDest_self {g : TG} {i : Nat} {v : Vertex} (f : RSet → RSet)
    (h : g.vertex i = some v) :
    (g.updDest i f).vertex i = some { v with dest_list := f v.dest_list } :=
  TG.vertex_updateVertex_self _ h

theorem TG.length_updateVertex (g : TG) (i : Nat) (f : Vertex → Vertex) :
    (g.updateVertex i f).vMeta.length = g.vMeta.length := by
  unfold TG.updateVertex
  cases g.vertex i with
  | none => rfl
  | some v => exact TG.length_setMeta g i _

theorem TG.length_updAdj (g : TG) (i : Nat) (f : RSet → RSet) :
    (g.updAdj i f).vMeta.length = g.vMeta.length := TG.length_updateVertex g i _

theorem TG.length_updDest (g : TG) (i : Nat) (f : RSet → RSet) :
    (g.updDest i f).vMeta.length = g.vMeta.length := TG.length_updateVertex g i _

/-! ### Relation-set lemmas -/

theorem relEqB_iff {a b : Relation} : relEqB a b = true ↔ (a.src = b.src ∧ a.dest = b.dest) := by
  unfold relEqB
  simp

theorem has_relation_iff {s : RSet} {a b : Nat} {w : Int} :
    has_relation s ⟨a, b, w⟩ = true ↔ inSet s a b := by
  unfold has_relation inSet
  rw [List.any_eq_true]
  constructor
  · intro ⟨x, hx, he⟩
    exact ⟨x, hx, relEqB_iff.mp he⟩
  · intro ⟨x, hx, he⟩
    exact ⟨x, hx, relEqB_iff.mpr he⟩

theorem mem_rset_insert {s : RSet} {r x : Relation} (h : x ∈ (rset_insert s r).1) :
    x ∈ s ∨ x = r := by
  unfold rset_insert at h
  by_cases hh : has_relation s r = true
  · rw [if_pos hh] at h; exact Or.inl h
  · rw [if_neg hh] at h
    rcases List.mem_append.mp h with h1 | h2
    · exact Or.inl h1
    · exact Or.inr (List.mem_singleton.mp h2)

theorem inSet_rset_insert {s : RSet} {r : Relation} {a b : Nat} :
    inSet (rset_insert s r).1 a b ↔ (inSet s a b ∨ (r.src = a ∧ r.dest = b)) := by
  unfold rset_insert
  by_cases hh : has_relation s r = true
  · rw [if_pos hh]
    constructor
    · exact Or.inl
    · intro h
      rcases h with h1 | h2
      · exact h1
      · have : inSet s r.src r.dest := by
          have : has_relation s ⟨r.src, r.dest, r.weight⟩ = true := hh
          exact has_relation_iff.mp this
        rw [h2.1, h2.2] at this
        exact this
  · rw [if_neg hh]
    unfold inSet
    constructor
    · intro ⟨x, hx, hp⟩
      rcases List.mem_append.mp hx with h1 | h2
      · exact Or.inl ⟨x, h1, hp⟩
      · rcases List.mem_singleton.mp h2 with rfl
        exact Or.inr hp
    · intro h
      rcases h with ⟨x, hx, hp⟩ | hp
      · exact ⟨x, List.mem_append.mpr (Or.inl hx), hp⟩
      · exact ⟨r, List.mem_append.mpr (Or.inr (List.mem_singleton.mpr rfl)), hp⟩

theorem nodup_rset_insert {s : RSet} {r : Relation} (h : nodupRel s) :
    nodupRel (rset_insert s r).1 := by
  unfold rset_insert
  by_cases hh : has_relation s r = true
  · rw [if_pos hh]; exact h
  · rw [if_neg hh]
    unfold nodupRel
    rw [List.pairwise_append]
    refine ⟨h, by simp [nodupRel], ?_⟩
    intro x hx y hy
    rcases List.mem_singleton.mp hy with rfl
    intro ⟨h1, h2⟩
    apply hh
    unfold has_relation
    rw [List.any_eq_true]
    exact ⟨x, hx, relEqB_iff.mpr ⟨h1, h2⟩⟩

theorem remove_relation_sub {s : RSet} {r x : Relation}
    (h : x ∈ (remove_relation s r).2) : x ∈ s := by
  induction s with
  | nil => simp [remove_relation] at h
  | cons y rest ih =>
    unfold remove_relation at h
    by_cases he : relEqB y r = true
    · rw [if_pos he] at h
      exact List.mem_cons_of_mem y h
    · rw [if_neg he] at h
      simp only [List.mem_cons] at h ⊢
      rcases h with rfl | h2
      · exact Or.inl rfl
      · exact Or.inr (ih h2)

theorem mem_remove_relation {s : RSet} {r x : Relation} (hx : x ∈ s)
    (hne : relEqB x r = false) : x ∈ (remove_relation s r).2 := by
  induction s with
  | nil => simp at hx
  | cons y rest ih =>
    unfold remove_relation
    rcases List.mem_cons.mp hx with rfl | h2
    · rw [if_neg (by rw [hne]; intro hc; cases hc)]
      exact List.mem_cons_self x _
    · by_cases he : relEqB y r = true
      · rw [if_pos he]; exact h2
      · rw [if_neg he]
        exact List.mem_cons_of_mem y (ih h2)

theorem nodup_remove_relation {s : RSet} {r : Relation} (h : nodupRel s) :
    nodupRel (remove_relation s r).2 := by
  induction s with
  | nil => simpa [remove_relation] using h
  | cons y rest ih =>
    unfold remove_relation
    unfold nodupRel at h
    rw [List.pairwise_cons] at h
    by_cases he : relEqB y r = true
    · rw [if_pos he]; exact h.2
    · rw [if_neg he]
      unfold nodupRel
      rw [List.pairwise_cons]
      exact ⟨fun x hx => h.1 x (remove_relation_sub hx), ih h.2⟩

theorem not_inSet_remove_relation {s : RSet} {x y : Nat} {w : Int} (h : nodupRel s) :
    ¬ inSet (remove_relation s ⟨x, y, w⟩).2 x y := by
  induction s with
  | nil => intro ⟨r', hr', _⟩; simp [remove_relation] at hr'
  | cons z rest ih =>
    unfold nodupRel at h
    rw [List.pairwise_cons] at h
    unfold remove_relation
    by_cases he : relEqB z ⟨x, y, w⟩ = true
    · rw [if_pos he]
      intro ⟨r', hr', hp⟩
      have hz := relEqB_iff.mp he
      exact h.1 r' hr' (by simp at hz; simp [hz, hp])
    · rw [if_neg he]
      intro ⟨r', hr', hp⟩
      rcases List.mem_cons.mp hr' with rfl | h2
      · apply he
        apply relEqB_iff.mpr
        simpa using hp
      · exact ih h.2 ⟨r', h2, hp⟩

theorem inSet_remove_relation_iff {s : RSet} {x y a b : Nat} {w : Int} (h : nodupRel s) :
    inSet (remove_relation s ⟨x, y, w⟩).2 a b
      ↔ (inSet s a b ∧ ¬ (a = x ∧ b = y)) := by
  constructor
  · intro ⟨r', hr', hp⟩
    refine ⟨⟨r', remove_relation_sub hr', hp⟩, ?_⟩
    intro ⟨rfl, rfl⟩
    exact not_inSet_remove_relation h ⟨r', hr', hp⟩
  · intro ⟨⟨r', hr', hp⟩, hne⟩
    refine ⟨r', mem_remove_relation hr' ?_, hp⟩
    rcases hb : relEqB r' ⟨x, y, w⟩ with _ | _
    · rfl
    · exfalso
      have := relEqB_iff.mp hb
      simp at this
      exact hne ⟨by rw [← hp.1, this.1], by rw [← hp.2, this.2]⟩

theorem remove_relation_none {s : RSet} {r : Relation}
    (h : (remove_relation s r).1 = none) : (remove_relation s r).2 = s := by
  induction s with
  | nil => rfl
  | cons y rest ih =>
    unfold remove_relation at h ⊢
    by_cases he : relEqB y r = true
    · rw [if_pos he] at h; cases h
    · rw [if_neg he] at h ⊢
      simp only at h ⊢
      rw [ih h]

theorem remove_relation_isSome {s : RSet} {r : Relation} :
    (remove_relation s r).1.isSome = has_relation s r := by
  induction s with
  | nil => rfl
  | cons y rest ih =>
    unfold remove_relation has_relation
    by_cases he : relEqB y r = true
    · rw [if_pos he]
      simp [he]
    · rw [if_neg he]
      simp only [List.any_cons]
      rw [Bool.eq_false_iff.mpr he]
      simpa using ih

/-! ### `add_edge` / `remove_edge` state characterisation -/

theorem add_edge_success {g : TG} {s d : Nat} {w : Int} {vs vd : Vertex}
    (hsd : s ≠ d) (hvs : g.vertex s = some vs) (hvd : g.vertex d = some vd)
    (hnr : has_relation (g.adj s) ⟨s, d, w⟩ = false) :
    (g.add_edge s d w).1 = true
    ∧ (g.add_edge s d w).2.adj s = g.adj s ++ [⟨s, d, w⟩]
    ∧ (g.add_edge s d w).2.destL d = (rset_insert (g.destL d) ⟨s, d, w⟩).1
    ∧ (∀ j, j ≠ s → (g.add_edge s d w).2.adj j = g.adj j)
    ∧ (∀ j, j ≠ d → (g.add_edge s d w).2.destL j = g.destL j)
    ∧ (g.add_edge s d w).2.seq s = g.seq s + 1
    ∧ (g.add_edge s d w).2.seq d = g.seq d + 1
    ∧ (∀ j, j ≠ s → j ≠ d → (g.add_edge s d w).2.meta j = g.meta j)
    ∧ (∀ j, ((g.add_edge s d w).2.vertex j = none ↔ g.vertex j = none)) := by
  have hvsd : ¬ (g.vertex s = none ∨ g.vertex d = none) := by
    intro hc
    rcases hc with hc | hc
    · rw [hvs] at hc; cases hc
    · rw [hvd] at hc; cases hc
  have hr : rset_insert (g.adj s) ⟨s, d, w⟩ = (g.adj s ++ [⟨s, d, w⟩], true) := by
    unfold rset_insert
    rw [if_neg (by rw [hnr]; intro hc; cases hc)]
  have hF : g.add_edge s d w =
      (true, (((g.updAdj s (fun _ => g.adj s ++ [⟨s, d, w⟩])).updDest d
        (fun _ => (rset_insert ((g.updAdj s
          (fun _ => g.adj s ++ [⟨s, d, w⟩])).destL d) ⟨s, d, w⟩).1)).incSeq s).incSeq d) := by
    unfold TG.add_edge
    rw [if_neg hsd, if_neg hvsd, if_neg (by rw [hnr]; intro hc; cases hc), hr]
    rfl
  rw [hF]
  set g1 := g.updAdj s (fun _ => g.adj s ++ [⟨s, d, w⟩]) with hg1
  have hg1vs : g1.vertex s = some { vs with adjacency_list := g.adj s ++ [⟨s, d, w⟩] } := by
    rw [hg1]
    exact TG.vertex_updateVertex_self _ hvs
  have hg1vd : g1.vertex d = some vd := by
    rw [hg1, TG.vertex_updAdj_ne _ _ _ (Ne.symm hsd)]
    exact hvd
  have hg1destd : g1.destL d = g.destL d := by
    rw [hg1]
    exact TG.destL_updAdj_ne _ _ _ (Ne.symm hsd)
  set s2 := (rset_insert (g1.destL d) ⟨s, d, w⟩).1 with hs2
  set g2 := g1.updDest d (fun _ => s2) with hg2
  have hg2vs : g2.vertex s = some { vs with adjacency_list := g.adj s ++ [⟨s, d, w⟩] } := by
    rw [hg2, TG.vertex_updDest_ne _ _ _ hsd]
    exact hg1vs
  have hg2vd : g2.vertex d = some { vd with dest_list := s2 } := by
    rw [hg2]
    exact TG.vertex_updateVertex_self _ hg1vd
  have hg2adjs : g2.adj s = g.adj s ++ [⟨s, d, w⟩] := by
    rw [hg2, TG.adj_updDest_ne _ _ _ hsd, hg1]
    exact TG.adj_updAdj_self _ hvs
  have hg2destd : g2.destL d = (rset_insert (g.destL d) ⟨s, d, w⟩).1 := by
    rw [hg2, TG.destL_updDest_self _ hg1vd, hs2, hg1destd]
  have hg2adj_ne : ∀ j, j ≠ s → g2.adj j = g.adj j := by
    intro j hj
    by_cases hjd : j = d
    · subst hjd
      rw [hg2, TG.adj_updDest_self _ hg1vd, hg1, TG.adj_updAdj_ne _ _ _ hj]
    · rw [hg2, TG.adj_updDest_ne _ _ _ hjd, hg1, TG.adj_updAdj_ne _ _ _ hj]
  have hg2dest_ne : ∀ j, j ≠ d → g2.destL j = g.destL j := by
    intro j hj
    by_cases hjs : j = s
    · subst hjs
      rw [hg2, TG.destL_updDest_ne _ _ _ hj, hg1, TG.destL_updAdj_self _ hvs]
    · rw [hg2, TG.destL_updDest_ne _ _ _ hj, hg1, TG.destL_updAdj_ne _ _ _ hjs]
  have hg2meta_ne : ∀ j, j ≠ s → j ≠ d → g2.meta j = g.meta j := by
    intro j hjs hjd
    rw [hg2, TG.meta_updDest_ne _ _ _ hjd, hg1, TG.meta_updAdj_ne _ _ _ hjs]
  have hg2seq : ∀ j, g2.seq j = g.seq j := by
    intro j
    rw [hg2, TG.seq_updDest, hg1, TG.seq_updAdj]
  have hlen_s : s < g2.vMeta.length := TG.vertex_some_lt hg2vs
  have hF2 : ∀ j, ((g2.incSeq s).incSeq d).vertex j = g2.vertex j := by
    intro j
    rw [TG.vertex_incSeq, TG.vertex_incSeq]
  have hFadj : ∀ j, ((g2.incSeq s).incSeq d).adj j = g2.adj j := by
    intro j
    rw [TG.adj_incSeq, TG.adj_incSeq]
  have hFdest : ∀ j, ((g2.incSeq s).incSeq d).destL j = g2.destL j := by
    intro j
    rw [TG.destL_incSeq, TG.destL_incSeq]
  refine ⟨rfl, ?_, ?_, ?_, ?_, ?_, ?_, ?_, ?_⟩
  · rw [hFadj, hg2adjs]
  · rw [hFdest, hg2destd]
  · intro j hj
    rw [hFadj, hg2adj_ne j hj]
  · intro j hj
    rw [hFdest, hg2dest_ne j hj]
  · show ((g2.incSeq s).incSeq d).seq s = g.seq s + 1
    rw [TG.seq_incSeq_ne _ hsd, TG.seq_incSeq_self hlen_s, hg2seq]
  · show ((g2.incSeq s).incSeq d).seq d = g.seq d + 1
    have hlen_d : d < (g2.incSeq s).vMeta.length := by
      apply TG.vertex_some_lt (v := { vd with dest_list := s2 })
      rw [TG.vertex_incSeq]
      exact hg2vd
    rw [TG.seq_incSeq_self hlen_d, TG.seq_incSeq_ne _ (Ne.symm hsd), hg2seq]
  · intro j hjs hjd
    show ((g2.incSeq s).incSeq d).meta j = g.meta j
    rw [TG.meta_incSeq_ne _ hjd, TG.meta_incSeq_ne _ hjs, hg2meta_ne j hjs hjd]
  · intro j
    rw [hF2]
    by_cases hjs : j = s
    · subst hjs
      rw [hg2vs, hvs]
      simp
    · by_cases hjd : j = d
      · subst hjd
        rw [hg2vd, hvd]
        simp
      · rw [show g2.vertex j = g.vertex j from by
          unfold TG.vertex
          rw [hg2meta_ne j hjs hjd]]

theorem inSet_append_single {s : RSet} {r : Relation} {a b : Nat} :
    inSet (s ++ [r]) a b ↔ (inSet s a b ∨ (r.src = a ∧ r.dest = b)) := by
  unfold inSet
  constructor
  · intro ⟨x, hx, hp⟩
    rcases List.mem_append.mp hx with h1 | h2
    · exact Or.inl ⟨x, h1, hp⟩
    · rcases List.mem_singleton.mp h2 with rfl
      exact Or.inr hp
  · intro h
    rcases h with ⟨x, hx, hp⟩ | hp
    · exact ⟨x, List.mem_append.mpr (Or.inl hx), hp⟩
    · exact ⟨r, List.mem_append.mpr (Or.inr (List.mem_singleton.mpr rfl)), hp⟩

theorem add_edge_self_loop (g : TG) (s : Nat) (w : Int) : g.add_edge s s w = (false, g) := by
  unfold TG.add_edge
  rw [if_pos rfl]

theorem add_edge_fail (g : TG) {s d : Nat} {w : Int} (hsd : s ≠ d)
    (h : (g.vertex s = none ∨ g.vertex d = none) ∨ has_relation (g.adj s) ⟨s, d, w⟩ = true) :
    g.add_edge s d w = (false, g) := by
  unfold TG.add_edge
  rw [if_neg hsd]
  by_cases hnull : g.vertex s = none ∨ g.vertex d = none
  · rw [if_pos hnull]
  · rw [if_neg hnull]
    rcases h with h1 | h2
    · exact absurd h1 hnull
    · rw [if_pos h2]

theorem remove_edge_self_loop (g : TG) (s : Nat) : g.remove_edge s s = (false, g) := by
  unfold TG.remove_edge
  rw [if_pos rfl]

theorem remove_edge_absent (g : TG) {s d : Nat} (hsd : s ≠ d)
    (h : ¬ (g.vertex s ≠ none ∧ g.vertex d ≠ none)) :
    g.remove_edge s d = (false, g) := by
  unfold TG.remove_edge
  rw [if_neg hsd, if_neg h]

theorem remove_edge_success {g : TG} {s d : Nat} {vs vd : Vertex}
    (hsd : s ≠ d) (hvs : g.vertex s = some vs) (hvd : g.vertex d = some vd)
    (hrel : has_relation (g.adj s) ⟨s, d, -1⟩ = true) :
    (g.remove_edge s d).1 = true
    ∧ (g.remove_edge s d).2.adj s = (remove_relation (g.adj s) ⟨s, d, -1⟩).2
    ∧ (g.remove_edge s d).2.destL d = (remove_relation (g.destL d) ⟨s, d, -1⟩).2
    ∧ (∀ j, j ≠ s → (g.remove_edge s d).2.adj j = g.adj j)
    ∧ (∀ j, j ≠ d → (g.remove_edge s d).2.destL j = g.destL j)
    ∧ (g.remove_edge s d).2.seq s = g.seq s + 1
    ∧ (g.remove_edge s d).2.seq d = g.seq d + 1
    ∧ (∀ j, j ≠ s → j ≠ d → (g.remove_edge s d).2.meta j = g.meta j)
    ∧ (∀ j, ((g.remove_edge s d).2.vertex j = none ↔ g.vertex j = none)) := by
  have hboth : g.vertex s ≠ none ∧ g.vertex d ≠ none := by
    constructor
    · rw [hvs]; intro hc; cases hc
    · rw [hvd]; intro hc; cases hc
  have hIs : (remove_relation (g.adj s) ⟨s, d, -1⟩).1.isSome = true := by
    rw [remove_relation_isSome]; exact hrel
  have hF : g.remove_edge s d =
      (true, (((g.updAdj s (fun _ => (remove_relation (g.adj s) ⟨s, d, -1⟩).2)).updDest d
        (fun _ => (remove_relation ((g.updAdj s
          (fun _ => (remove_relation (g.adj s) ⟨s, d, -1⟩).2)).destL d) ⟨s, d, -1⟩).2)).incSeq
            s).incSeq d) := by
    unfold TG.remove_edge
    rw [if_neg hsd, if_pos hboth]
    rw [if_pos hIs]
  rw [hF]
  set g1 := g.updAdj s (fun _ => (remove_relation (g.adj s) ⟨s, d, -1⟩).2) with hg1
  have hg1vs : g1.vertex s
      = some { vs with adjacency_list := (remove_relation (g.adj s) ⟨s, d, -1⟩).2 } := by
    rw [hg1]
    exact TG.vertex_updateVertex_self _ hvs
  have hg1vd : g1.vertex d = some vd := by
    rw [hg1, TG.vertex_updAdj_ne _ _ _ (Ne.symm hsd)]
    exact hvd
  have hg1destd : g1.destL d = g.destL d := by
    rw [hg1]
    exact TG.destL_updAdj_ne _ _ _ (Ne.symm hsd)
  set s2 := (remove_relation (g1.destL d) ⟨s, d, -1⟩).2 with hs2
  set g2 := g1.updDest d (fun _ => s2) with hg2
  have hg2vs : g2.vertex s
      = some { vs with adjacency_list := (remove_relation (g.adj s) ⟨s, d, -1⟩).2 } := by
    rw [hg2, TG.vertex_updDest_ne _ _ _ hsd]
    exact hg1vs
  have hg2vd : g2.vertex d = some { vd with dest_list := s2 } := by
    rw [hg2]
    exact TG.vertex_updateVertex_self _ hg1vd
  have hg2adjs : g2.adj s = (remove_relation (g.adj s) ⟨s, d, -1⟩).2 := by
    rw [hg2, TG.adj_updDest_ne _ _ _ hsd, hg1]
    exact TG.adj_updAdj_self _ hvs
  have hg2destd : g2.destL d = (remove_relation (g.destL d) ⟨s, d, -1⟩).2 := by
    rw [hg2, TG.destL_updDest_self _ hg1vd, hs2, hg1destd]
  have hg2adj_ne : ∀ j, j ≠ s → g2.adj j = g.adj j := by
    intro j hj
    by_cases hjd : j = d
    · subst hjd
      rw [hg2, TG.adj_updDest_self _ hg1vd, hg1, TG.adj_updAdj_ne _ _ _ hj]
    · rw [hg2, TG.adj_updDest_ne _ _ _ hjd, hg1, TG.adj_updAdj_ne _ _ _ hj]
  have hg2dest_ne : ∀ j, j ≠ d → g2.destL j = g.destL j := by
    intro j hj
    by_cases hjs : j = s
    · subst hjs
      rw [hg2, TG.destL_updDest_ne _ _ _ hj, hg1, TG.destL_updAdj_self _ hvs]
    · rw [hg2, TG.destL_updDest_ne _ _ _ hj, hg1, TG.destL_updAdj_ne _ _ _ hjs]
  have hg2meta_ne : ∀ j, j ≠ s → j ≠ d → g2.meta j = g.meta j := by
    intro j hjs hjd
    rw [hg2, TG.meta_updDest_ne _ _ _ hjd, hg1, TG.meta_updAdj_ne _ _ _ hjs]
  have hg2seq : ∀ j, g2.seq j = g.seq j := by
    intro j
    rw [hg2, TG.seq_updDest, hg1, TG.seq_updAdj]
  have hlen_s : s < g2.vMeta.length := TG.vertex_some_lt hg2vs
  have hFv : ∀ j, ((g2.incSeq s).incSeq d).vertex j = g2.vertex j := by
    intro j
    rw [TG.vertex_incSeq, TG.vertex_incSeq]
  have hFadj : ∀ j, ((g2.incSeq s).incSeq d).adj j = g2.adj j := by
    intro j
    rw [TG.adj_incSeq, TG.adj_incSeq]
  have hFdest : ∀ j, ((g2.incSeq s).incSeq d).destL j = g2.destL j := by
    intro j
    rw [TG.destL_incSeq, TG.destL_incSeq]
  refine ⟨rfl, ?_, ?_, ?_, ?_, ?_, ?_, ?_, ?_⟩
  · rw [hFadj, hg2adjs]
  · rw [hFdest, hg2destd]
  · intro j hj
    rw [hFadj, hg2adj_ne j hj]
  · intro j hj
    rw [hFdest, hg2dest_ne j hj]
  · show ((g2.incSeq s).incSeq d).seq s = g.seq s + 1
    rw [TG.seq_incSeq_ne _ hsd, TG.seq_incSeq_self hlen_s, hg2seq]
  · show ((g2.incSeq s).incSeq d).seq d = g.seq d + 1
    have hlen_d : d < (g2.incSeq s).vMeta.length := by
      apply TG.vertex_some_lt (v := { vd with dest_list := s2 })
      rw [TG.vertex_incSeq]
      exact hg2vd
    rw [TG.seq_incSeq_self hlen_d, TG.seq_incSeq_ne _ (Ne.symm hsd), hg2seq]
  · intro j hjs hjd
    show ((g2.incSeq s).incSeq d).meta j = g.meta j
    rw [TG.meta_incSeq_ne _ hjd, TG.meta_incSeq_ne _ hjs, hg2meta_ne j hjs hjd]
  · intro j
    rw [hFv]
    by_cases hjs : j = s
    · subst hjs
      rw [hg2vs, hvs]
      simp
    · by_cases hjd : j = d
      · subst hjd
        rw [hg2vd, hvd]
        simp
      · rw [show g2.vertex j = g.vertex j from by
          unfold TG.vertex
          rw [hg2meta_ne j hjs hjd]]

/-- Failed `remove_edge` (the key is in neither set, given the symmetry
invariant): the state is returned unchanged. -/
theorem remove_edge_notfound {g : TG} {s d : Nat} {vs vd : Vertex}
    (hsd : s ≠ d) (hvs : g.vertex s = some vs) (hvd : g.vertex d = some vd)
    (hsym : g.Sym)
    (hrel : has_relation (g.adj s) ⟨s, d, -1⟩ = false) :
    g.remove_edge s d = (false, g) := by
  have hboth : g.vertex s ≠ none ∧ g.vertex d ≠ none := by
    constructor
    · rw [hvs]; intro hc; cases hc
    · rw [hvd]; intro hc; cases hc
  have h1none : (remove_relation (g.adj s) ⟨s, d, -1⟩).1 = none := by
    have : (remove_relation (g.adj s) ⟨s, d, -1⟩).1.isSome = false := by
      rw [remove_relation_isSome]; exact hrel
    rcases hr : (remove_relation (g.adj s) ⟨s, d, -1⟩).1 with _ | x
    · rfl
    · rw [hr] at this; cases this
  have h1eq : (remove_relation (g.adj s) ⟨s, d, -1⟩).2 = g.adj s := remove_relation_none h1none
  have hdnone : has_relation (g.destL d) ⟨s, d, -1⟩ = false := by
    rcases hb : has_relation (g.destL d) ⟨s, d, -1⟩ with _ | _
    · rfl
    · exfalso
      have : inSet (g.destL d) s d := has_relation_iff.mp hb
      have : inSet (g.adj s) s d := (hsym s d).mpr this
      rw [← has_relation_iff (w := -1)] at this
      rw [hrel] at this
      cases this
  have h2none : (remove_relation (g.destL d) ⟨s, d, -1⟩).1 = none := by
    have : (remove_relation (g.destL d) ⟨s, d, -1⟩).1.isSome = false := by
      rw [remove_relation_isSome]; exact hdnone
    rcases hr : (remove_relation (g.destL d) ⟨s, d, -1⟩).1 with _ | x
    · rfl
    · rw [hr] at this; cases this
  have h2eq : (remove_relation (g.destL d) ⟨s, d, -1⟩).2 = g.destL d :=
    remove_relation_none h2none
  -- with both removals no-ops, the two vertex updates write back the
  -- existing vertex objects, leaving the state unchanged
  have hg1 : g.updAdj s (fun _ => (remove_relation (g.adj s) ⟨s, d, -1⟩).2) = g := by
    rw [h1eq]
    unfold TG.updAdj TG.updateVertex
    rw [hvs]
    show g.setVertex s (some { vs with adjacency_list := g.adj s }) = g
    have hadj : g.adj s = vs.adjacency_list := by
      unfold TG.adj
      rw [hvs]
    rw [hadj]
    show g.setMeta s ⟨some vs, (g.meta s).vertexSeqs⟩ = g
    have hproj : (g.meta s).idxToVertex = some vs := hvs
    have hms : g.meta s = ⟨some vs, (g.meta s).vertexSeqs⟩ := by
      rw [← hproj]
    rw [← hms]
    exact TG.setMeta_self (TG.vertex_some_lt hvs)
  have hF : g.remove_edge s d = (false,
      (g.updAdj s (fun _ => (remove_relation (g.adj s) ⟨s, d, -1⟩).2)).updDest d
        (fun _ => (remove_relation ((g.updAdj s
          (fun _ => (remove_relation (g.adj s) ⟨s, d, -1⟩).2)).destL d) ⟨s, d, -1⟩).2)) := by
    unfold TG.remove_edge
    rw [if_neg hsd, if_pos hboth]
    rw [if_neg (by rw [h1none]; intro hc; cases hc)]
  rw [hF, hg1, h2eq]
  have hg2 : g.updDest d (fun _ => g.destL d) = g := by
    unfold TG.updDest TG.updateVertex
    rw [hvd]
    show g.setVertex d (some { vd with dest_list := g.destL d }) = g
    have hdl : g.destL d = vd.dest_list := by
      unfold TG.destL
      rw [hvd]
    rw [hdl]
    show g.setMeta d ⟨some vd, (g.meta d).vertexSeqs⟩ = g
    have hproj : (g.meta d).idxToVertex = some vd := hvd
    have hmd : g.meta d = ⟨some vd, (g.meta d).vertexSeqs⟩ := by
      rw [← hproj]
    rw [← hmd]
    exact TG.setMeta_self (TG.vertex_some_lt hvd)
  rw [hg2]

/-- C7: `add_edge(s, d, w)` returns false when either endpoint is absent, the
edge already exists in the source adjacency set, or `s = d`; otherwise it
inserts the relation into both the source adjacency set and the destination
incoming set, bumps both sequence numbers, and returns true. -/
theorem add_edge_spec (g : TG) (s d : Nat) (w : Int) (hsym : g.Sym) :
    (s = d → g.add_edge s d w = (false, g))
    ∧ ((g.vertex s = none ∨ g.vertex d = none) → g.add_edge s d w = (false, g))
    ∧ (inSet (g.adj s) s d → g.add_edge s d w = (false, g))
    ∧ (∀ vs vd, s ≠ d → g.vertex s = some vs → g.vertex d = some vd →
        ¬ inSet (g.adj s) s d →
        (g.add_edge s d w).1 = true
        ∧ (⟨s, d, w⟩ : Relation) ∈ (g.add_edge s d w).2.adj s
        ∧ (⟨s, d, w⟩ : Relation) ∈ (g.add_edge s d w).2.destL d
        ∧ (g.add_edge s d w).2.seq s = g.seq s + 1
        ∧ (g.add_edge s d w).2.seq d = g.seq d + 1) := by
  refine ⟨?_, ?_, ?_, ?_⟩
  · intro h
    subst h
    exact add_edge_self_loop g s w
  · intro h
    by_cases hsd : s = d
    · subst hsd
      exact add_edge_self_loop g s w
    · exact add_edge_fail g hsd (Or.inl h)
  · intro h
    by_cases hsd : s = d
    · subst hsd
      exact add_edge_self_loop g s w
    · exact add_edge_fail g hsd (Or.inr (has_relation_iff.mpr h))
  · intro vs vd hsd hvs hvd hnin
    have hnr : has_relation (g.adj s) ⟨s, d, w⟩ = false := by
      rcases hb : has_relation (g.adj s) ⟨s, d, w⟩ with _ | _
      · rfl
      · exact absurd (has_relation_iff.mp hb) hnin
    obtain ⟨h1, h2, h3, _, _, h6, h7, _, _⟩ := add_edge_success hsd hvs hvd hnr
    refine ⟨h1, ?_, ?_, h6, h7⟩
    · rw [h2]
      exact List.mem_append.mpr (Or.inr (List.mem_singleton.mpr rfl))
    · rw [h3]
      have hnd : has_relation (g.destL d) ⟨s, d, w⟩ = false := by
        rcases hb : has_relation (g.destL d) ⟨s, d, w⟩ with _ | _
        · rfl
        · exfalso
          exact hnin ((hsym s d).mpr (has_relation_iff.mp hb))
      unfold rset_insert
      rw [if_neg (by rw [hnd]; intro hc; cases hc)]
      exact List.mem_append.mpr (Or.inr (List.mem_singleton.mpr rfl))

theorem add_edge_sym {g : TG} (hsym : g.Sym) (s d : Nat) (w : Int) :
    ((g.add_edge s d w).2).Sym := by
  by_cases hsd : s = d
  · subst hsd
    rw [add_edge_self_loop]
    exact hsym
  by_cases hnull : g.vertex s = none ∨ g.vertex d = none
  · rw [add_edge_fail g hsd (Or.inl hnull)]
    exact hsym
  by_cases hrel : has_relation (g.adj s) ⟨s, d, w⟩ = true
  · rw [add_edge_fail g hsd (Or.inr hrel)]
    exact hsym
  push_neg at hnull
  obtain ⟨vs, hvs⟩ := Option.ne_none_iff_exists'.mp hnull.1
  obtain ⟨vd, hvd⟩ := Option.ne_none_iff_exists'.mp hnull.2
  have hnr : has_relation (g.adj s) ⟨s, d, w⟩ = false := Bool.eq_false_iff.mpr hrel
  obtain ⟨_, h2, h3, h4, h5, _, _, _, _⟩ := add_edge_success hsd hvs hvd hnr
  intro a b
  by_cases has : a = s
  · subst has
    by_cases hbd : b = d
    · subst hbd
      rw [h2, h3]
      constructor
      · intro _
        rw [inSet_rset_insert]
        exact Or.inr ⟨rfl, rfl⟩
      · intro _
        rw [inSet_append_single]
        exact Or.inr ⟨rfl, rfl⟩
    · rw [h2, h5 b hbd, inSet_append_single]
      constructor
      · intro hin
        rcases hin with hin | ⟨_, hdb⟩
        · exact (hsym a b).mp hin
        · exact absurd hdb.symm hbd
      · intro hin
        exact Or.inl ((hsym a b).mpr hin)
  · by_cases hbd : b = d
    · subst hbd
      rw [h4 a has, h3, inSet_rset_insert]
      constructor
      · intro hin
        exact Or.inl ((hsym a b).mp hin)
      · intro hin
        rcases hin with hin | ⟨hsa, _⟩
        · exact (hsym a b).mpr hin
        · exact absurd hsa.symm has
    · rw [h4 a has, h5 b hbd]
      exact hsym a b

theorem remove_edge_sym {g : TG} (hsym : g.Sym) (hnd : g.NodupOk) (s d : Nat) :
    ((g.remove_edge s d).2).Sym := by
  by_cases hsd : s = d
  · subst hsd
    rw [remove_edge_self_loop]
    exact hsym
  by_cases hnull : ¬ (g.vertex s ≠ none ∧ g.vertex d ≠ none)
  · rw [remove_edge_absent g hsd hnull]
    exact hsym
  push_neg at hnull
  obtain ⟨vs, hvs⟩ := Option.ne_none_iff_exists'.mp hnull.1
  obtain ⟨vd, hvd⟩ := Option.ne_none_iff_exists'.mp hnull.2
  by_cases hrel : has_relation (g.adj s) ⟨s, d, -1⟩ = true
  · obtain ⟨_, h2, h3, h4, h5, _, _, _, _⟩ := remove_edge_success hsd hvs hvd hrel
    intro a b
    by_cases has : a = s
    · subst has
      by_cases hbd : b = d
      · subst hbd
        rw [h2, h3, inSet_remove_relation_iff (hnd a).1, inSet_remove_relation_iff (hnd b).2]
        simp
      · rw [h2, h5 b hbd, inSet_remove_relation_iff (hnd a).1]
        constructor
        · intro h
          exact (hsym a b).mp h.1
        · intro h
          exact ⟨(hsym a b).mpr h, by intro ⟨_, hc⟩; exact hbd hc⟩
    · by_cases hbd : b = d
      · subst hbd
        rw [h4 a has, h3, inSet_remove_relation_iff (hnd b).2]
        constructor
        · intro h
          exact ⟨(hsym a b).mp h, by intro ⟨hc, _⟩; exact has hc⟩
        · intro h
          exact (hsym a b).mpr h.1
      · rw [h4 a has, h5 b hbd]
        exact hsym a b
  · rw [remove_edge_notfound hsd hvs hvd hsym (Bool.eq_false_iff.mpr hrel)]
    exact hsym

/-! ### `setVertex` accessors and fold lemmas for `add_vertex` -/

theorem TG.vertex_setVertex_self {g : TG} {i : Nat} (v? : Option Vertex)
    (h : i < g.vMeta.length) : (g.setVertex i v?).vertex i = v? := by
  unfold TG.setVertex TG.vertex
  rw [TG.meta_setMeta_self _ h]

theorem TG.vertex_setVertex_ne (g : TG) (i : Nat) (v? : Option Vertex) {j : Nat} (h : j ≠ i) :
    (g.setVertex i v?).vertex j = g.vertex j := by
  unfold TG.setVertex TG.vertex
  rw [TG.meta_setMeta_ne _ h]

theorem TG.meta_setVertex_ne (g : TG) (i : Nat) (v? : Option Vertex) {j : Nat} (h : j ≠ i) :
    (g.setVertex i v?).meta j = g.meta j := TG.meta_setMeta_ne _ h

theorem TG.seq_setVertex (g : TG) (i : Nat) (v? : Option Vertex) (j : Nat) :
    (g.setVertex i v?).seq j = g.seq j := by
  by_cases hij : j = i
  · subst hij
    by_cases hl : j < g.vMeta.length
    · unfold TG.setVertex TG.seq
      rw [TG.meta_setMeta_self _ hl]
    · unfold TG.setVertex TG.seq TG.setMeta TG.meta
      simp only
      rw [List.getD_eq_getElem?_getD,
        List.getElem?_eq_none (by simpa [List.length_set] using Nat.le_of_not_lt hl),
        List.getD_eq_getElem?_getD, List.getElem?_eq_none (by simpa using Nat.le_of_not_lt hl)]
  · unfold TG.setVertex TG.seq
    rw [TG.meta_setMeta_ne _ hij]

theorem TG.vertex_none_updateVertex (g : TG) (i : Nat) (f : Vertex → Vertex) (j : Nat) :
    ((g.updateVertex i f).vertex j = none ↔ g.vertex j = none) := by
  unfold TG.updateVertex
  cases hv : g.vertex i with
  | none => exact Iff.rfl
  | some v =>
    by_cases hij : j = i
    · subst hij
      rw [show (g.setVertex j (some (f v))).vertex j = some (f v) from
          TG.vertex_setVertex_self _ (TG.vertex_some_lt hv), hv]
      simp
    · rw [TG.vertex_setVertex_ne _ _ _ hij]

theorem TG.vertex_none_updAdj (g : TG) (i : Nat) (f : RSet → RSet) (j : Nat) :
    ((g.updAdj i f).vertex j = none ↔ g.vertex j = none) :=
  TG.vertex_none_updateVertex g i _ j

theorem TG.vertex_none_updDest (g : TG) (i : Nat) (f : RSet → RSet) (j : Nat) :
    ((g.updDest i f).vertex j = none ↔ g.vertex j = none) :=
  TG.vertex_none_updateVertex g i _ j

/-! Bump-loop lemmas (`bumpStep`). -/

theorem bumpStep_vertex (vid : Nat) (h : TG) (u j : Nat) :
    (bumpStep vid h u).vertex j = h.vertex j := by
  unfold bumpStep
  by_cases hc : h.vertex vid ≠ none ∧ h.vertex u ≠ none
  · rw [if_pos hc, TG.vertex_incSeq]
  · rw [if_neg hc]

theorem bumpfold_vertex (vid : Nat) (l : List Nat) (g : TG) (j : Nat) :
    (l.foldl (bumpStep vid) g).vertex j = g.vertex j := by
  induction l generalizing g with
  | nil => rfl
  | cons u rest ih =>
    rw [List.foldl_cons, ih, bumpStep_vertex]

theorem bumpStep_seq_le (vid : Nat) (h : TG) (u j : Nat) :
    h.seq j ≤ (bumpStep vid h u).seq j := by
  unfold bumpStep
  by_cases hc : h.vertex vid ≠ none ∧ h.vertex u ≠ none
  · rw [if_pos hc]
    exact TG.seq_incSeq_le h u j
  · rw [if_neg hc]

theorem bumpfold_seq_le (vid : Nat) (l : List Nat) (g : TG) (j : Nat) :
    g.seq j ≤ (l.foldl (bumpStep vid) g).seq j := by
  induction l generalizing g with
  | nil => exact Nat.le_refl _
  | cons u rest ih =>
    rw [List.foldl_cons]
    exact Nat.le_trans (bumpStep_seq_le vid g u j) (ih _)

theorem bumpStep_seq_ne (vid : Nat) (h : TG) (u : Nat) {j : Nat} (hj : j ≠ u) :
    (bumpStep vid h u).seq j = h.seq j := by
  unfold bumpStep
  by_cases hc : h.vertex vid ≠ none ∧ h.vertex u ≠ none
  · rw [if_pos hc, TG.seq_incSeq_ne _ hj]
  · rw [if_neg hc]

theorem bumpStep_meta_ne (vid : Nat) (h : TG) (u : Nat) {j : Nat} (hj : j ≠ u) :
    (bumpStep vid h u).meta j = h.meta j := by
  unfold bumpStep
  by_cases hc : h.vertex vid ≠ none ∧ h.vertex u ≠ none
  · rw [if_pos hc, TG.meta_incSeq_ne _ hj]
  · rw [if_neg hc]

theorem bumpfold_seq_notmem (vid : Nat) (l : List Nat) (g : TG) {j : Nat} (hj : j ∉ l) :
    (l.foldl (bumpStep vid) g).seq j = g.seq j := by
  induction l generalizing g with
  | nil => rfl
  | cons u rest ih =>
    have hju : j ≠ u := fun hc => hj (by rw [hc]; exact List.mem_cons_self u rest)
    rw [List.foldl_cons, ih _ (fun hc => hj (List.mem_cons_of_mem u hc)),
      bumpStep_seq_ne vid g u hju]

theorem bumpfold_meta_notmem (vid : Nat) (l : List Nat) (g : TG) {j : Nat} (hj : j ∉ l) :
    (l.foldl (bumpStep vid) g).meta j = g.meta j := by
  induction l generalizing g with
  | nil => rfl
  | cons u rest ih =>
    have hju : j ≠ u := fun hc => hj (by rw [hc]; exact List.mem_cons_self u rest)
    rw [List.foldl_cons, ih _ (fun hc => hj (List.mem_cons_of_mem u hc)),
      bumpStep_meta_ne vid g u hju]

theorem bumpfold_seq_mem (vid : Nat) {l : List Nat} {g : TG} {j : Nat}
    (hnd : l.Nodup) (hj : j ∈ l) (hvid : g.vertex vid ≠ none) (hvj : g.vertex j ≠ none) :
    (l.foldl (bumpStep vid) g).seq j = g.seq j + 1 := by
  induction l generalizing g with
  | nil => simp at hj
  | cons u rest ih =>
    rw [List.foldl_cons]
    rcases List.mem_cons.mp hj with rfl | hmem
    · have hrest : j ∉ rest := (List.nodup_cons.mp hnd).1
      rw [bumpfold_seq_notmem vid rest _ hrest]
      unfold bumpStep
      rw [if_pos ⟨hvid, hvj⟩]
      obtain ⟨v, hv⟩ := Option.ne_none_iff_exists'.mp hvj
      exact TG.seq_incSeq_self (TG.vertex_some_lt hv)
    · have hju : j ≠ u := by
        intro hc
        subst hc
        exact (List.nodup_cons.mp hnd).1 hmem
      rw [ih (List.nodup_cons.mp hnd).2 hmem
        (by rw [bumpStep_vertex]; exact hvid) (by rw [bumpStep_vertex]; exact hvj),
        bumpStep_seq_ne vid g u hju]

/-! Edge-population-loop lemmas (`avInsStep`). -/

theorem avInsStep_seq (vid : Nat) (h : TG) (u j : Nat) :
    (avInsStep vid h u).seq j = h.seq j := by
  unfold avInsStep
  by_cases hn : h.vertex u = none
  · rw [if_pos hn]
  · rw [if_neg hn]
    by_cases hu : u = vid
    · rw [if_pos hu]
    · rw [if_neg hu]
      simp only
      rw [TG.seq_updDest, TG.seq_updAdj]

theorem avfold_seq (vid : Nat) (l : List Nat) (g : TG) (j : Nat) :
    (l.foldl (avInsStep vid) g).seq j = g.seq j := by
  induction l generalizing g with
  | nil => rfl
  | cons u rest ih =>
    rw [List.foldl_cons, ih, avInsStep_seq]

theorem avInsStep_vertex_none (vid : Nat) (h : TG) (u j : Nat) :
    ((avInsStep vid h u).vertex j = none ↔ h.vertex j = none) := by
  unfold avInsStep
  by_cases hn : h.vertex u = none
  · rw [if_pos hn]
  · rw [if_neg hn]
    by_cases hu : u = vid
    · rw [if_pos hu]
    · rw [if_neg hu]
      simp only
      rw [TG.vertex_none_updDest, TG.vertex_none_updAdj]

theorem avfold_vertex_none (vid : Nat) (l : List Nat) (g : TG) (j : Nat) :
    ((l.foldl (avInsStep vid) g).vertex j = none ↔ g.vertex j = none) := by
  induction l generalizing g with
  | nil => exact Iff.rfl
  | cons u rest ih =>
    rw [List.foldl_cons, ih, avInsStep_vertex_none]

theorem avInsStep_meta_ne (vid : Nat) (h : TG) (u : Nat) {j : Nat}
    (hjv : j ≠ vid) (hju : j ≠ u) : (avInsStep vid h u).meta j = h.meta j := by
  unfold avInsStep
  by_cases hn : h.vertex u = none
  · rw [if_pos hn]
  · rw [if_neg hn]
    by_cases hu : u = vid
    · rw [if_pos hu]
    · rw [if_neg hu]
      simp only
      rw [TG.meta_updDest_ne _ _ _ hju, TG.meta_updAdj_ne _ _ _ hjv]

theorem avfold_meta_notmem (vid : Nat) (l : List Nat) (g : TG) {j : Nat}
    (hjv : j ≠ vid) (hj : j ∉ l) : (l.foldl (avInsStep vid) g).meta j = g.meta j := by
  induction l generalizing g with
  | nil => rfl
  | cons u rest ih =>
    have hju : j ≠ u := fun hc => hj (by rw [hc]; exact List.mem_cons_self u rest)
    rw [List.foldl_cons, ih _ (fun hc => hj (List.mem_cons_of_mem u hc)),
      avInsStep_meta_ne vid g u hjv hju]

theorem TG.sym_of_sets_eq {g g' : TG} (hadj : ∀ j, g'.adj j = g.adj j)
    (hdest : ∀ j, g'.destL j = g.destL j) (hs : g.Sym) : g'.Sym := by
  intro a b
  rw [hadj a, hdest b]
  exact hs a b

theorem TG.sym_of_vertex_eq {g g' : TG} (h : ∀ j, g'.vertex j = g.vertex j) (hs : g.Sym) :
    g'.Sym :=
  TG.sym_of_sets_eq (fun j => TG.adj_congr (h j)) (fun j => TG.destL_congr (h j)) hs

theorem avInsStep_sym {vid : Nat} {h : TG} {vv : Vertex} (hvid : h.vertex vid = some vv)
    (hsym : h.Sym) (u : Nat) : (avInsStep vid h u).Sym := by
  unfold avInsStep
  by_cases hn : h.vertex u = none
  · rw [if_pos hn]; exact hsym
  rw [if_neg hn]
  by_cases hu : u = vid
  · rw [if_pos hu]; exact hsym
  rw [if_neg hu]
  simp only
  obtain ⟨vu, hvu⟩ := Option.ne_none_iff_exists'.mp hn
  set r : Relation := ⟨vid, u, -1⟩ with hr
  set h1 := h.updAdj vid (fun s => (rset_insert s r).1) with hh1
  have h1vu : h1.vertex u = some vu := by
    rw [hh1, TG.vertex_updAdj_ne _ _ _ hu]
    exact hvu
  have h1destu : h1.destL u = h.destL u := by
    rw [hh1]
    exact TG.destL_updAdj_ne _ _ _ hu
  set h2 := h1.updDest u (fun s => (rset_insert s r).1) with hh2
  have hadjvid : h2.adj vid = (rset_insert (h.adj vid) r).1 := by
    rw [hh2, TG.adj_updDest_ne _ _ _ (fun hc => hu hc.symm), hh1]
    exact TG.adj_updAdj_self _ hvid
  have hadj_ne : ∀ j, j ≠ vid → h2.adj j = h.adj j := by
    intro j hj
    by_cases hju : j = u
    · subst hju
      rw [hh2, TG.adj_updDest_self _ h1vu, hh1, TG.adj_updAdj_ne _ _ _ hj]
    · rw [hh2, TG.adj_updDest_ne _ _ _ hju, hh1, TG.adj_updAdj_ne _ _ _ hj]
  have hdestu : h2.destL u = (rset_insert (h.destL u) r).1 := by
    rw [hh2, TG.destL_updDest_self _ h1vu, h1destu]
  have hdest_ne : ∀ j, j ≠ u → h2.destL j = h.destL j := by
    intro j hj
    by_cases hjv : j = vid
    · subst hjv
      rw [hh2, TG.destL_updDest_ne _ _ _ hj, hh1, TG.destL_updAdj_self _ hvid]
    · rw [hh2, TG.destL_updDest_ne _ _ _ hj, hh1, TG.destL_updAdj_ne _ _ _ hjv]
  intro a b
  by_cases hav : a = vid
  · subst hav
    by_cases hbu : b = u
    · subst hbu
      rw [hadjvid, hdestu, inSet_rset_insert, inSet_rset_insert]
      constructor
      · intro _; exact Or.inr ⟨rfl, rfl⟩
      · intro _; exact Or.inr ⟨rfl, rfl⟩
    · rw [hadjvid, hdest_ne b hbu, inSet_rset_insert]
      constructor
      · intro hin
        rcases hin with hin | ⟨_, hub⟩
        · exact (hsym a b).mp hin
        · exact absurd hub.symm hbu
      · intro hin
        exact Or.inl ((hsym a b).mpr hin)
  · by_cases hbu : b = u
    · subst hbu
      rw [hadj_ne a hav, hdestu, inSet_rset_insert]
      constructor
      · intro hin
        exact Or.inl ((hsym a b).mp hin)
      · intro hin
        rcases hin with hin | ⟨hva, _⟩
        · exact (hsym a b).mpr hin
        · exact absurd hva.symm hav
    · rw [hadj_ne a hav, hdest_ne b hbu]
      exact hsym a b

theorem avfold_sym {vid : Nat} (l : List Nat) {g : TG} {vv : Vertex}
    (hvid : g.vertex vid = some vv) (hsym : g.Sym) :
    (l.foldl (avInsStep vid) g).Sym := by
  induction l generalizing g vv with
  | nil => exact hsym
  | cons u rest ih =>
    rw [List.foldl_cons]
    have hpres : (avInsStep vid g u).vertex vid ≠ none := by
      rw [Ne, avInsStep_vertex_none, hvid]
      intro hc; cases hc
    obtain ⟨vv', hvv'⟩ := Option.ne_none_iff_exists'.mp hpres
    exact ih hvv' (avInsStep_sym hvid hsym u)

theorem add_vertex_sym {g : TG} (hsym : g.Sym) (vid : Nat) (vec : List Nat)
    (hlt : vid < g.vMeta.length) : ((g.add_vertex vid vec).2).Sym := by
  unfold TG.add_vertex
  by_cases hv : g.vertex vid = none
  · rw [if_pos hv]
    simp only
    apply TG.sym_of_vertex_eq (fun j => bumpfold_vertex vid _ _ j)
    have hg1v : (g.setVertex vid (some ⟨vid, vid, [], []⟩)).vertex vid
        = some ⟨vid, vid, [], []⟩ := TG.vertex_setVertex_self _ hlt
    apply avfold_sym vec hg1v
    apply TG.sym_of_sets_eq (g := g) ?_ ?_ hsym
    · intro j
      by_cases hj : j = vid
      · subst hj
        unfold TG.adj
        rw [hg1v, hv]
      · exact TG.adj_congr (TG.vertex_setVertex_ne _ _ _ hj)
    · intro j
      by_cases hj : j = vid
      · subst hj
        unfold TG.destL
        rw [hg1v, hv]
      · exact TG.destL_congr (TG.vertex_setVertex_ne _ _ _ hj)
  · rw [if_neg hv]
    exact TG.sym_of_vertex_eq (fun j => bumpfold_vertex vid _ _ j) hsym

/-! ### `remove_vertex` phase-3 characterisation -/

theorem vertex_some_of_inSet_adj {g : TG} {u a b : Nat} (h : inSet (g.adj u) a b) :
    ∃ vo, g.vertex u = some vo := by
  unfold TG.adj at h
  cases hv : g.vertex u with
  | none =>
    rw [hv] at h
    obtain ⟨r, hr, _⟩ := h
    simp at hr
  | some vo => exact ⟨vo, rfl⟩

theorem vertex_some_of_inSet_destL {g : TG} {u a b : Nat} (h : inSet (g.destL u) a b) :
    ∃ vo, g.vertex u = some vo := by
  unfold TG.destL at h
  cases hv : g.vertex u with
  | none =>
    rw [hv] at h
    obtain ⟨r, hr, _⟩ := h
    simp at hr
  | some vo => exact ⟨vo, rfl⟩

/-- State characterisation of one iteration of `remove_vertex`'s step 3:
both removals target the same slot `other`. -/
theorem rv_step_chr {g : TG} {other vid : Nat} {vo : Vertex}
    (hvo : g.vertex other = some vo) :
    ((g.updAdj other (fun _ => (remove_relation (g.adj other) ⟨other, vid, -1⟩).2)).updDest
        other (fun _ => (remove_relation ((g.updAdj other
          (fun _ => (remove_relation (g.adj other) ⟨other, vid, -1⟩).2)).destL other)
            ⟨vid, other, -1⟩).2)).adj other
      = (remove_relation (g.adj other) ⟨other, vid, -1⟩).2
    ∧ (∀ j, j ≠ other →
        ((g.updAdj other (fun _ => (remove_relation (g.adj other) ⟨other, vid, -1⟩).2)).updDest
          other (fun _ => (remove_relation ((g.updAdj other
            (fun _ => (remove_relation (g.adj other) ⟨other, vid, -1⟩).2)).destL other)
              ⟨vid, other, -1⟩).2)).adj j = g.adj j)
    ∧ ((g.updAdj other (fun _ => (remove_relation (g.adj other) ⟨other, vid, -1⟩).2)).updDest
        other (fun _ => (remove_relation ((g.updAdj other
          (fun _ => (remove_relation (g.adj other) ⟨other, vid, -1⟩).2)).destL other)
            ⟨vid, other, -1⟩).2)).destL other
      = (remove_relation (g.destL other) ⟨vid, other, -1⟩).2
    ∧ (∀ j, j ≠ other →
        ((g.updAdj other (fun _ => (remove_relation (g.adj other) ⟨other, vid, -1⟩).2)).updDest
          other (fun _ => (remove_relation ((g.updAdj other
            (fun _ => (remove_relation (g.adj other) ⟨other, vid, -1⟩).2)).destL other)
              ⟨vid, other, -1⟩).2)).destL j = g.destL j)
    ∧ (∀ j,
        ((g.updAdj other (fun _ => (remove_relation (g.adj other) ⟨other, vid, -1⟩).2)).updDest
          other (fun _ => (remove_relation ((g.updAdj other
            (fun _ => (remove_relation (g.adj other) ⟨other, vid, -1⟩).2)).destL other)
              ⟨vid, other, -1⟩).2)).seq j = g.seq j)
    ∧ (∀ j,
        (((g.updAdj other (fun _ => (remove_relation (g.adj other) ⟨other, vid, -1⟩).2)).updDest
          other (fun _ => (remove_relation ((g.updAdj other
            (fun _ => (remove_relation (g.adj other) ⟨other, vid, -1⟩).2)).destL other)
              ⟨vid, other, -1⟩).2)).vertex j = none ↔ g.vertex j = none))
    ∧ (∀ j, j ≠ other →
        ((g.updAdj other (fun _ => (remove_relation (g.adj other) ⟨other, vid, -1⟩).2)).updDest
          other (fun _ => (remove_relation ((g.updAdj other
            (fun _ => (remove_relation (g.adj other) ⟨other, vid, -1⟩).2)).destL other)
              ⟨vid, other, -1⟩).2)).meta j = g.meta j)
    ∧ ((g.updAdj other (fun _ => (remove_relation (g.adj other) ⟨other, vid, -1⟩).2)).updDest
        other (fun _ => (remove_relation ((g.updAdj other
          (fun _ => (remove_relation (g.adj other) ⟨other, vid, -1⟩).2)).destL other)
            ⟨vid, other, -1⟩).2)).vMeta.length = g.vMeta.length := by
  set h1 := g.updAdj other (fun _ => (remove_relation (g.adj other) ⟨other, vid, -1⟩).2)
    with hh1
  have h1vo : h1.vertex other
      = some { vo with adjacency_list := (remove_relation (g.adj other) ⟨other, vid, -1⟩).2 } := by
    rw [hh1]
    exact TG.vertex_updateVertex_self _ hvo
  have h1dest : h1.destL other = g.destL other := by
    rw [hh1]
    exact TG.destL_updAdj_self _ hvo
  set h2 := h1.updDest other (fun _ => (remove_relation (h1.destL other) ⟨vid, other, -1⟩).2)
    with hh2
  refine ⟨?_, ?_, ?_, ?_, ?_, ?_, ?_, ?_⟩
  · rw [hh2, TG.adj_updDest_self _ h1vo, hh1, TG.adj_updAdj_self _ hvo]
  · intro j hj
    rw [hh2, TG.adj_updDest_ne _ _ _ hj, hh1, TG.adj_updAdj_ne _ _ _ hj]
  · rw [hh2, TG.destL_updDest_self _ h1vo, h1dest]
  · intro j hj
    rw [hh2, TG.destL_updDest_ne _ _ _ hj, hh1, TG.destL_updAdj_ne _ _ _ hj]
  · intro j
    rw [hh2, TG.seq_updDest, hh1, TG.seq_updAdj]
  · intro j
    rw [hh2, TG.vertex_none_updDest, hh1, TG.vertex_none_updAdj]
  · intro j hj
    rw [hh2, TG.meta_updDest_ne _ _ _ hj, hh1, TG.meta_updAdj_ne _ _ _ hj]
  · rw [hh2, TG.length_updDest, hh1, TG.length_updAdj]

/-- Full characterisation of `remove_vertex`'s step 3 over the collected
neighbor list: it succeeds (no `std::abort`), erases exactly the
`(other, vid)` / `(vid, other)` relations from each listed neighbor's sets,
and touches nothing else. -/
theorem rv_phase3_spec (vid : Nat) (l : List Nat) (g : TG)
    (hsrc : g.SrcOk) (hdst : g.DestOk) (hnd : g.NodupOk) (hl : l.Nodup)
    (habort : ∀ u ∈ l, u ≠ vid → inSet (g.adj u) u vid ∨ inSet (g.destL u) vid u) :
    ∃ h, rv_phase3 vid l g = some h
      ∧ (∀ j, h.seq j = g.seq j)
      ∧ (∀ j, (h.vertex j = none ↔ g.vertex j = none))
      ∧ (∀ j a b, inSet (h.adj j) a b ↔
          (inSet (g.adj j) a b ∧ ¬(j ∈ l ∧ j ≠ vid ∧ a = j ∧ b = vid)))
      ∧ (∀ j a b, inSet (h.destL j) a b ↔
          (inSet (g.destL j) a b ∧ ¬(j ∈ l ∧ j ≠ vid ∧ a = vid ∧ b = j)))
      ∧ h.SrcOk ∧ h.DestOk ∧ h.NodupOk
      ∧ (∀ j, j ∉ l → h.meta j = g.meta j)
      ∧ h.vMeta.length = g.vMeta.length := by
  induction l generalizing g with
  | nil =>
    refine ⟨g, rfl, fun _ => rfl, fun _ => Iff.rfl, ?_, ?_, hsrc, hdst, hnd, fun _ _ => rfl, rfl⟩
    · intro j a b
      simp
    · intro j a b
      simp
  | cons other rest ih =>
    have hl2 := (List.nodup_cons.mp hl).2
    have hoth : other ∉ rest := (List.nodup_cons.mp hl).1
    by_cases hov : other = vid
    · subst hov
      have hskip : rv_phase3 other (other :: rest) g = rv_phase3 other rest g := by
        simp only [rv_phase3, if_true]
      obtain ⟨h, heq, hseq, hvn, hadj, hdest, hsrc', hdst', hnd', hmeta, hlen⟩ :=
        ih g hsrc hdst hnd hl2 (fun u hu => habort u (List.mem_cons_of_mem _ hu))
      refine ⟨h, by rw [hskip]; exact heq, hseq, hvn, ?_, ?_, hsrc', hdst', hnd', ?_, hlen⟩
      · intro j a b
        rw [hadj j a b]
        constructor
        · rintro ⟨h1, h2⟩
          exact ⟨h1, fun ⟨hm, hne, ha, hb⟩ =>
            h2 ⟨(List.mem_cons.mp hm).resolve_left hne, hne, ha, hb⟩⟩
        · rintro ⟨h1, h2⟩
          exact ⟨h1, fun ⟨hm, hne, ha, hb⟩ => h2 ⟨List.mem_cons_of_mem _ hm, hne, ha, hb⟩⟩
      · intro j a b
        rw [hdest j a b]
        constructor
        · rintro ⟨h1, h2⟩
          exact ⟨h1, fun ⟨hm, hne, ha, hb⟩ =>
            h2 ⟨(List.mem_cons.mp hm).resolve_left hne, hne, ha, hb⟩⟩
        · rintro ⟨h1, h2⟩
          exact ⟨h1, fun ⟨hm, hne, ha, hb⟩ => h2 ⟨List.mem_cons_of_mem _ hm, hne, ha, hb⟩⟩
      · intro j hj
        exact hmeta j (fun hc => hj (List.mem_cons_of_mem _ hc))
    · have hab := habort other (List.mem_cons_self _ _) hov
      obtain ⟨vo, hvo⟩ : ∃ vo, g.vertex other = some vo := by
        rcases hab with h1 | h1
        · exact vertex_some_of_inSet_adj h1
        · exact vertex_some_of_inSet_destL h1
      have hguard : ¬ (has_relation (g.adj other) ⟨other, vid, -1⟩ = false
          ∧ has_relation (g.destL other) ⟨vid, other, -1⟩ = false) := by
        rintro ⟨hg1, hg2⟩
        rcases hab with h1 | h1
        · rw [← has_relation_iff (w := -1), hg1] at h1; cases h1
        · rw [← has_relation_iff (w := -1), hg2] at h1; cases h1
      set h2 := (g.updAdj other
            (fun _ => (remove_relation (g.adj other) ⟨other, vid, -1⟩).2)).updDest
          other (fun _ => (remove_relation ((g.updAdj other
            (fun _ => (remove_relation (g.adj other) ⟨other, vid, -1⟩).2)).destL other)
              ⟨vid, other, -1⟩).2) with hh2
      obtain ⟨c1, c2, c3, c4, c5, c6, c7, c8⟩ := @rv_step_chr g other vid vo hvo
      rw [← hh2] at c1 c2 c3 c4 c5 c6 c7 c8
      have hstep : rv_phase3 vid (other :: rest) g = rv_phase3 vid rest h2 := by
        simp only [rv_phase3]
        rw [if_neg hov, if_neg hguard, hh2]
      have hsub_adj : ∀ j, ∀ x ∈ h2.adj j, x ∈ g.adj j := by
        intro j x hx
        by_cases hj : j = other
        · subst hj
          rw [c1] at hx
          exact remove_relation_sub hx
        · rw [c2 j hj] at hx
          exact hx
      have hsub_dest : ∀ j, ∀ x ∈ h2.destL j, x ∈ g.destL j := by
        intro j x hx
        by_cases hj : j = other
        · subst hj
          rw [c3] at hx
          exact remove_relation_sub hx
        · rw [c4 j hj] at hx
          exact hx
      have hsrc2 : h2.SrcOk := fun u r hr => hsrc u r (hsub_adj u r hr)
      have hdst2 : h2.DestOk := fun u r hr => hdst u r (hsub_dest u r hr)
      have hnd2 : h2.NodupOk := by
        intro u
        constructor
        · by_cases hj : u = other
          · subst hj
            rw [c1]
            exact nodup_remove_relation (hnd u).1
          · rw [c2 u hj]
            exact (hnd u).1
        · by_cases hj : u = other
          · subst hj
            rw [c3]
            exact nodup_remove_relation (hnd u).2
          · rw [c4 u hj]
            exact (hnd u).2
      have habort2 : ∀ u ∈ rest, u ≠ vid →
          inSet (h2.adj u) u vid ∨ inSet (h2.destL u) vid u := by
        intro u hu hne
        have hune : u ≠ other := fun he => hoth (he ▸ hu)
        rw [c2 u hune, c4 u hune]
        exact habort u (List.mem_cons_of_mem _ hu) hne
      obtain ⟨h, heq, hseq, hvn, hadj, hdest, hsrc', hdst', hnd', hmeta, hlen⟩ :=
        ih h2 hsrc2 hdst2 hnd2 hl2 habort2
      refine ⟨h, by rw [hstep]; exact heq, ?_, ?_, ?_, ?_, hsrc', hdst', hnd', ?_,
        by rw [hlen, c8]⟩
      · intro j
        rw [hseq j, c5 j]
      · intro j
        rw [hvn j, c6 j]
      · intro j a b
        rw [hadj j a b]
        by_cases hj : j = other
        · subst hj
          rw [c1, inSet_remove_relation_iff (hnd j).1]
          constructor
          · rintro ⟨⟨hin, hno⟩, -⟩
            exact ⟨hin, fun ⟨_, _, ha, hb⟩ => hno ⟨ha, hb⟩⟩
          · rintro ⟨hin, hno⟩
            refine ⟨⟨hin, fun ⟨ha, hb⟩ =>
              hno ⟨List.mem_cons_self _ _, hov, ha, hb⟩⟩, ?_⟩
            rintro ⟨hmem, -, -, -⟩
            exact hoth hmem
        · rw [c2 j hj]
          constructor
          · rintro ⟨hin, hno⟩
            exact ⟨hin, fun ⟨hm, hne, ha, hb⟩ =>
              hno ⟨(List.mem_cons.mp hm).resolve_left hj, hne, ha, hb⟩⟩
          · rintro ⟨hin, hno⟩
            exact ⟨hin, fun ⟨hm, hne, ha, hb⟩ => hno ⟨List.mem_cons_of_mem _ hm, hne, ha, hb⟩⟩
      · intro j a b
        rw [hdest j a b]
        by_cases hj : j = other
        · subst hj
          rw [c3, inSet_remove_relation_iff (hnd j).2]
          constructor
          · rintro ⟨⟨hin, hno⟩, -⟩
            exact ⟨hin, fun ⟨_, _, ha, hb⟩ => hno ⟨ha, hb⟩⟩
          · rintro ⟨hin, hno⟩
            refine ⟨⟨hin, fun ⟨ha, hb⟩ =>
              hno ⟨List.mem_cons_self _ _, hov, ha, hb⟩⟩, ?_⟩
            rintro ⟨hmem, -, -, -⟩
            exact hoth hmem
        · rw [c4 j hj]
          constructor
          · rintro ⟨hin, hno⟩
            exact ⟨hin, fun ⟨hm, hne, ha, hb⟩ =>
              hno ⟨(List.mem_cons.mp hm).resolve_left hj, hne, ha, hb⟩⟩
          · rintro ⟨hin, hno⟩
            exact ⟨hin, fun ⟨hm, hne, ha, hb⟩ => hno ⟨List.mem_cons_of_mem _ hm, hne, ha, hb⟩⟩
      · intro j hj
        rw [hmeta j (fun hc => hj (List.mem_cons_of_mem _ hc)),
          c7 j (fun hc => hj (by rw [hc]; exact List.mem_cons_self _ _))]

/-! ### Release-loop (`inc_seq` fold) lemmas and lengths -/

theorem TG.length_incSeq (g : TG) (i : Nat) : (g.incSeq i).vMeta.length = g.vMeta.length :=
  TG.length_setMeta g i _

theorem TG.length_setVertex (g : TG) (i : Nat) (v? : Option Vertex) :
    (g.setVertex i v?).vMeta.length = g.vMeta.length :=
  TG.length_setMeta g i _

theorem incfold_vertex (l : List Nat) (g : TG) (j : Nat) :
    (l.foldl TG.incSeq g).vertex j = g.vertex j := by
  induction l generalizing g with
  | nil => rfl
  | cons u rest ih =>
    rw [List.foldl_cons, ih, TG.vertex_incSeq]

theorem incfold_length (l : List Nat) (g : TG) :
    (l.foldl TG.incSeq g).vMeta.length = g.vMeta.length := by
  induction l generalizing g with
  | nil => rfl
  | cons u rest ih =>
    rw [List.foldl_cons, ih, TG.length_incSeq]

theorem incfold_seq_le (l : List Nat) (g : TG) (j : Nat) :
    g.seq j ≤ (l.foldl TG.incSeq g).seq j := by
  induction l generalizing g with
  | nil => exact Nat.le_refl _
  | cons u rest ih =>
    rw [List.foldl_cons]
    exact Nat.le_trans (TG.seq_incSeq_le g u j) (ih _)

theorem incfold_seq_notmem (l : List Nat) (g : TG) {j : Nat} (hj : j ∉ l) :
    (l.foldl TG.incSeq g).seq j = g.seq j := by
  induction l generalizing g with
  | nil => rfl
  | cons u rest ih =>
    have hju : j ≠ u := fun hc => hj (by rw [hc]; exact List.mem_cons_self u rest)
    rw [List.foldl_cons, ih _ (fun hc => hj (List.mem_cons_of_mem u hc)),
      TG.seq_incSeq_ne _ hju]

theorem incfold_meta_notmem (l : List Nat) (g : TG) {j : Nat} (hj : j ∉ l) :
    (l.foldl TG.incSeq g).meta j = g.meta j := by
  induction l generalizing g with
  | nil => rfl
  | cons u rest ih =>
    have hju : j ≠ u := fun hc => hj (by rw [hc]; exact List.mem_cons_self u rest)
    rw [List.foldl_cons, ih _ (fun hc => hj (List.mem_cons_of_mem u hc)),
      TG.meta_incSeq_ne _ hju]

theorem incfold_seq_mem {l : List Nat} {g : TG} {j : Nat}
    (hnd : l.Nodup) (hj : j ∈ l) (hlt : j < g.vMeta.length) :
    (l.foldl TG.incSeq g).seq j = g.seq j + 1 := by
  induction l generalizing g with
  | nil => simp at hj
  | cons u rest ih =>
    rw [List.foldl_cons]
    rcases List.mem_cons.mp hj with rfl | hmem
    · have hrest : j ∉ rest := (List.nodup_cons.mp hnd).1
      rw [incfold_seq_notmem rest _ hrest, TG.seq_incSeq_self hlt]
    · have hju : j ≠ u := by
        intro hc
        subst hc
        exact (List.nodup_cons.mp hnd).1 hmem
      rw [ih (List.nodup_cons.mp hnd).2 hmem (by rw [TG.length_incSeq]; exact hlt),
        TG.seq_incSeq_ne _ hju]

theorem incfold_adj (l : List Nat) (g : TG) (j : Nat) :
    (l.foldl TG.incSeq g).adj j = g.adj j :=
  TG.adj_congr (incfold_vertex l g j)

theorem incfold_destL (l : List Nat) (g : TG) (j : Nat) :
    (l.foldl TG.incSeq g).destL j = g.destL j :=
  TG.destL_congr (incfold_vertex l g j)

/-! ### `rv_commit` characterisation -/

theorem rv_commit_spec (vid : Nat) (vertices : List Nat) (g : TG) {vtx : Vertex}
    (hv : g.vertex vid = some vtx)
    (hsrc : g.SrcOk) (hdst : g.DestOk) (hnd : g.NodupOk) (hnl : vertices.Nodup)
    (hvidmem : vid ∈ vertices)
    (hvlt : ∀ u ∈ vertices, u < g.vMeta.length)
    (habort : ∀ u ∈ vertices, u ≠ vid → inSet (g.adj u) u vid ∨ inSet (g.destL u) vid u) :
    ∃ f, rv_commit g vid vertices = some f
      ∧ (∀ j, (f.vertex j = none ↔ (g.vertex j = none ∨ j = vid)))
      ∧ (∀ j a b, inSet (f.adj j) a b ↔
          (inSet (g.adj j) a b ∧ j ≠ vid ∧ ¬(j ∈ vertices ∧ a = j ∧ b = vid)))
      ∧ (∀ j a b, inSet (f.destL j) a b ↔
          (inSet (g.destL j) a b ∧ j ≠ vid ∧ ¬(j ∈ vertices ∧ a = vid ∧ b = j)))
      ∧ (∀ j, j ∈ vertices → f.seq j = g.seq j + 1)
      ∧ (∀ j, j ∉ vertices → f.meta j = g.meta j)
      ∧ (∀ j, g.seq j ≤ f.seq j)
      ∧ f.SrcOk ∧ f.DestOk := by
  obtain ⟨h, heq, hseq, hvn, hadj, hdest, hsrc', hdst', hnd', hmeta, hlen⟩ :=
    rv_phase3_spec vid vertices g hsrc hdst hnd hnl habort
  have hvh : h.vertex vid ≠ none := by
    rw [Ne, hvn vid, hv]
    intro hc
    cases hc
  obtain ⟨vtx', hv'⟩ := Option.ne_none_iff_exists'.mp hvh
  set h1 := h.updAdj vid (fun _ => []) with hh1
  have h1v : h1.vertex vid = some { vtx' with adjacency_list := [] } := by
    rw [hh1]
    exact TG.vertex_updateVertex_self _ hv'
  set h2 := h1.updDest vid (fun _ => []) with hh2
  have h2v : h2.vertex vid = some { vtx' with adjacency_list := [], dest_list := [] } := by
    rw [hh2]
    exact TG.vertex_updateVertex_self _ h1v
  set h3 := h2.setVertex vid none with hh3
  have hlt2 : vid < h2.vMeta.length := TG.vertex_some_lt h2v
  have h3v : h3.vertex vid = none := by
    rw [hh3]
    exact TG.vertex_setVertex_self _ hlt2
  have h3v_ne : ∀ j, j ≠ vid → h3.vertex j = h.vertex j := by
    intro j hj
    rw [hh3, TG.vertex_setVertex_ne _ _ _ hj, hh2, TG.vertex_updDest_ne _ _ _ hj,
      hh1, TG.vertex_updAdj_ne _ _ _ hj]
  have h3adj_ne : ∀ j, j ≠ vid → h3.adj j = h.adj j := by
    intro j hj
    exact TG.adj_congr (h3v_ne j hj)
  have h3dest_ne : ∀ j, j ≠ vid → h3.destL j = h.destL j := by
    intro j hj
    exact TG.destL_congr (h3v_ne j hj)
  have h3adj_vid : h3.adj vid = [] := by
    unfold TG.adj
    rw [h3v]
  have h3dest_vid : h3.destL vid = [] := by
    unfold TG.destL
    rw [h3v]
  have h3seq : ∀ j, h3.seq j = g.seq j := by
    intro j
    rw [hh3, TG.seq_setVertex, hh2, TG.seq_updDest, hh1, TG.seq_updAdj, hseq]
  have h3meta_ne : ∀ j, j ≠ vid → h3.meta j = h.meta j := by
    intro j hj
    rw [hh3, TG.meta_setVertex_ne _ _ _ hj, hh2, TG.meta_updDest_ne _ _ _ hj,
      hh1, TG.meta_updAdj_ne _ _ _ hj]
  have h3len : h3.vMeta.length = g.vMeta.length := by
    rw [hh3, TG.length_setVertex, hh2, TG.length_updDest, hh1, TG.length_updAdj, hlen]
  have hceq : rv_commit g vid vertices
      = some (vertices.reverse.foldl TG.incSeq h3) := by
    unfold rv_commit
    rw [heq]
  refine ⟨vertices.reverse.foldl TG.incSeq h3, hceq, ?_, ?_, ?_, ?_, ?_, ?_, ?_, ?_⟩
  · intro j
    rw [incfold_vertex]
    by_cases hj : j = vid
    · subst hj
      rw [h3v]
      simp
    · rw [h3v_ne j hj]
      rw [hvn j]
      simp [hj]
  · intro j a b
    rw [TG.adj_congr (incfold_vertex vertices.reverse h3 j)]
    by_cases hj : j = vid
    · subst hj
      rw [h3adj_vid]
      constructor
      · intro ⟨r, hr, _⟩
        simp at hr
      · rintro ⟨-, hc, -⟩
        exact absurd rfl hc
    · rw [h3adj_ne j hj, hadj j a b]
      constructor
      · rintro ⟨hin, hno⟩
        exact ⟨hin, hj, fun ⟨hm, ha, hb⟩ => hno ⟨hm, hj, ha, hb⟩⟩
      · rintro ⟨hin, -, hno⟩
        exact ⟨hin, fun ⟨hm, _, ha, hb⟩ => hno ⟨hm, ha, hb⟩⟩
  · intro j a b
    rw [TG.destL_congr (incfold_vertex vertices.reverse h3 j)]
    by_cases hj : j = vid
    · subst hj
      rw [h3dest_vid]
      constructor
      · intro ⟨r, hr, _⟩
        simp at hr
      · rintro ⟨-, hc, -⟩
        exact absurd rfl hc
    · rw [h3dest_ne j hj, hdest j a b]
      constructor
      · rintro ⟨hin, hno⟩
        exact ⟨hin, hj, fun ⟨hm, ha, hb⟩ => hno ⟨hm, hj, ha, hb⟩⟩
      · rintro ⟨hin, -, hno⟩
        exact ⟨hin, fun ⟨hm, _, ha, hb⟩ => hno ⟨hm, ha, hb⟩⟩
  · intro j hj
    rw [incfold_seq_mem (List.nodup_reverse.mpr hnl) (List.mem_reverse.mpr hj)
      (by rw [h3len]; exact hvlt j hj), h3seq]
  · intro j hj
    have hjv : j ≠ vid := fun hc => hj (hc ▸ hvidmem)
    rw [incfold_meta_notmem _ _ (fun hc => hj (List.mem_reverse.mp hc)),
      h3meta_ne j hjv, hmeta j hj]
  · intro j
    calc g.seq j = h3.seq j := (h3seq j).symm
    _ ≤ _ := incfold_seq_le _ _ _
  · intro u r hr
    rw [TG.adj_congr (incfold_vertex vertices.reverse h3 u)] at hr
    by_cases hu : u = vid
    · subst hu
      rw [h3adj_vid] at hr
      simp at hr
    · rw [h3adj_ne u hu] at hr
      exact hsrc' u r hr
  · intro u r hr
    rw [TG.destL_congr (incfold_vertex vertices.reverse h3 u)] at hr
    by_cases hu : u = vid
    · subst hu
      rw [h3dest_vid] at hr
      simp at hr
    · rw [h3dest_ne u hu] at hr
      exact hdst' u r hr

/-! ### `remove_vertex` top-level reduction -/

theorem TG.seq_congr {g g' : TG} {j : Nat} (h : g'.meta j = g.meta j) : g'.seq j = g.seq j := by
  unfold TG.seq
  rw [h]

theorem TG.vertex_congr {g g' : TG} {j : Nat} (h : g'.meta j = g.meta j) :
    g'.vertex j = g.vertex j := by
  unfold TG.vertex
  rw [h]

theorem mem_insSorted {a x : Nat} {l : List Nat} : a ∈ insSorted x l ↔ (a = x ∨ a ∈ l) := by
  induction l with
  | nil => simp [insSorted]
  | cons b t ih =>
    unfold insSorted
    by_cases hxb : x ≤ b
    · rw [if_pos hxb]
      simp
    · rw [if_neg hxb]
      simp only [List.mem_cons, ih]
      tauto

theorem mem_sortDedup {l : List Nat} {a : Nat} : a ∈ sortDedup l ↔ a ∈ l := by
  unfold sortDedup
  rw [List.mem_dedup]
  induction l with
  | nil => simp
  | cons b t ih =>
    rw [List.foldr_cons, mem_insSorted, List.mem_cons, ih]

theorem nodup_sortDedup (l : List Nat) : (sortDedup l).Nodup := List.nodup_dedup _

/-- The working set collected by `remove_vertex`'s scan phase. -/
def rvWorkSet (vtx : Vertex) (vid : Nat) : List Nat :=
  sortDedup ((vtx.adjacency_list.map (fun r => r.dest))
    ++ (vtx.dest_list.map (fun r => r.src)) ++ [vid])

theorem rvWorkSet_mem_vid (vtx : Vertex) (vid : Nat) : vid ∈ rvWorkSet vtx vid := by
  unfold rvWorkSet
  rw [mem_sortDedup]
  simp

/-- Every vertex related to `vid` (in either direction) is in the working
set, given the structural invariants. -/
theorem rvWorkSet_cover {g : TG} {vid : Nat} {vtx : Vertex} (hv : g.vertex vid = some vtx) :
    (∀ u, inSet (g.adj vid) vid u → u ∈ rvWorkSet vtx vid)
    ∧ (∀ u, inSet (g.destL vid) u vid → u ∈ rvWorkSet vtx vid) := by
  have hadj : g.adj vid = vtx.adjacency_list := by
    unfold TG.adj
    rw [hv]
  have hdl : g.destL vid = vtx.dest_list := by
    unfold TG.destL
    rw [hv]
  constructor
  · intro u ⟨r, hr, _, hrd⟩
    unfold rvWorkSet
    rw [mem_sortDedup]
    rw [hadj] at hr
    refine List.mem_append.mpr (Or.inl (List.mem_append.mpr (Or.inl ?_)))
    exact List.mem_map.mpr ⟨r, hr, hrd⟩
  · intro u ⟨r, hr, hrs, _⟩
    unfold rvWorkSet
    rw [mem_sortDedup]
    rw [hdl] at hr
    refine List.mem_append.mpr (Or.inl (List.mem_append.mpr (Or.inr ?_)))
    exact List.mem_map.mpr ⟨r, hr, hrs⟩

/-- Under the invariants, every non-`vid` member of the working set still
relates to `vid` in at least one direction. -/
theorem rvWorkSet_habort {g : TG} {vid : Nat} {vtx : Vertex} (hv : g.vertex vid = some vtx)
    (hsym : g.Sym) (hsrc : g.SrcOk) (hdst : g.DestOk) :
    ∀ u ∈ rvWorkSet vtx vid, u ≠ vid →
      inSet (g.adj u) u vid ∨ inSet (g.destL u) vid u := by
  have hadj : g.adj vid = vtx.adjacency_list := by
    unfold TG.adj
    rw [hv]
  have hdl : g.destL vid = vtx.dest_list := by
    unfold TG.destL
    rw [hv]
  intro u hu hune
  unfold rvWorkSet at hu
  rw [mem_sortDedup] at hu
  rcases List.mem_append.mp hu with h1 | h2
  · rcases List.mem_append.mp h1 with ha | hb
    · obtain ⟨r, hr, hrd⟩ := List.mem_map.mp ha
      have hrs : r.src = vid := hsrc vid r (by rw [hadj]; exact hr)
      have : inSet (g.adj vid) vid u := ⟨r, by rw [hadj]; exact hr, hrs, hrd⟩
      exact Or.inr ((hsym vid u).mp this)
    · obtain ⟨r, hr, hrs⟩ := List.mem_map.mp hb
      have hrd : r.dest = vid := hdst vid r (by rw [hdl]; exact hr)
      have : inSet (g.destL vid) u vid := ⟨r, by rw [hdl]; exact hr, hrs, hrd⟩
      exact Or.inl ((hsym u vid).mpr this)
  · rcases List.mem_singleton.mp h2 with rfl
    exact absurd rfl hune

theorem rvWorkSet_lt {g : TG} {vid : Nat} {vtx : Vertex} (hv : g.vertex vid = some vtx)
    (hsym : g.Sym) (hsrc : g.SrcOk) (hdst : g.DestOk) :
    ∀ u ∈ rvWorkSet vtx vid, u < g.vMeta.length := by
  intro u hu
  by_cases hue : u = vid
  · subst hue
    exact TG.vertex_some_lt hv
  · rcases rvWorkSet_habort hv hsym hsrc hdst u hu hue with h1 | h1
    · obtain ⟨vo, hvo⟩ := vertex_some_of_inSet_adj h1
      exact TG.vertex_some_lt hvo
    · obtain ⟨vo, hvo⟩ := vertex_some_of_inSet_destL h1
      exact TG.vertex_some_lt hvo

/-- With no interference, a `remove_vertex` call on a live vertex reduces to
its commit phase on the scan-phase working set. -/
theorem remove_vertex_eq_commit {g : TG} {vid : Nat} {vtx : Vertex} (fuel : Nat)
    (hv : g.vertex vid = some vtx) (hsym : g.Sym) (hsrc : g.SrcOk) (hdst : g.DestOk) :
    TG.remove_vertex (fuel + 1) [] g vid
      = (rv_commit g vid (rvWorkSet vtx vid)).map (fun h => (true, h)) := by
  have hany : (rvWorkSet vtx vid).any
      (fun u => decide ((([] : List (TG → TG)).headD id g).vertex u = none)
        && ((([] : List (TG → TG)).headD id g).seq vid == g.seq vid)) = false := by
    rw [List.any_eq_false]
    intro u hu
    have hvu : g.vertex u ≠ none := by
      by_cases hue : u = vid
      · subst hue
        rw [hv]
        intro hc
        cases hc
      · rcases rvWorkSet_habort hv hsym hsrc hdst u hu hue with h1 | h1
        · obtain ⟨vo, hvo⟩ := vertex_some_of_inSet_adj h1
          rw [hvo]
          intro hc
          cases hc
        · obtain ⟨vo, hvo⟩ := vertex_some_of_inSet_destL h1
          rw [hvo]
          intro hc
          cases hc
    show ¬ ((decide (g.vertex u = none) && (g.seq vid == g.seq vid)) = true)
    rw [decide_eq_false hvu]
    intro hc
    cases hc
  show (match g.vertex vid with
    | none => some (false, g)
    | some vtx =>
      if (rvWorkSet vtx vid).any
          (fun u => decide ((([] : List (TG → TG)).headD id g).vertex u = none)
            && ((([] : List (TG → TG)).headD id g).seq vid == g.seq vid)) = true then
        none
      else if (([] : List (TG → TG)).headD id g).seq vid ≠ g.seq vid then
        TG.remove_vertex fuel ([] : List (TG → TG)).tail ((([] : List (TG → TG)).headD id) g) vid
      else
        (rv_commit ((([] : List (TG → TG)).headD id) g) vid (rvWorkSet vtx vid)).map
          (fun h => (true, h)))
    = (rv_commit g vid (rvWorkSet vtx vid)).map (fun h => (true, h))
  rw [hv]
  simp only
  rw [if_neg (by rw [hany]; intro hc; cases hc), if_neg (fun hc => hc rfl)]
  rfl

theorem remove_vertex_absent {g : TG} {vid : Nat} (fuel : Nat) (interf : List (TG → TG))
    (hv : g.vertex vid = none) :
    TG.remove_vertex (fuel + 1) interf g vid = some (false, g) := by
  simp only [TG.remove_vertex]
  rw [hv]

theorem remove_vertex_sym {g : TG} (hInv : g.Inv) (fuel : Nat) (vid : Nat) {b : Bool} {g2 : TG}
    (h : TG.remove_vertex fuel [] g vid = some (b, g2)) : g2.Sym := by
  obtain ⟨hsym, hsrc, hdst, hnd⟩ := hInv
  cases fuel with
  | zero => cases h
  | succ fuel =>
    cases hv : g.vertex vid with
    | none =>
      rw [remove_vertex_absent fuel [] hv] at h
      have hp := Option.some.inj h
      have hg : g = g2 := congrArg Prod.snd hp
      rw [← hg]
      exact hsym
    | some vtx =>
      rw [remove_vertex_eq_commit fuel hv hsym hsrc hdst] at h
      obtain ⟨f, hf, hpair⟩ := Option.map_eq_some'.mp h
      have hfg2 : f = g2 := congrArg Prod.snd hpair
      rw [hfg2] at hf
      obtain ⟨f', hf', hvn, hadjI, hdestI, hseqm, hmeta, hseqle, hsrcF, hdstF⟩ :=
        rv_commit_spec vid (rvWorkSet vtx vid) g hv hsrc hdst hnd (nodup_sortDedup _)
          (rvWorkSet_mem_vid vtx vid) (rvWorkSet_lt hv hsym hsrc hdst)
          (rvWorkSet_habort hv hsym hsrc hdst)
      have hff : f' = g2 := by
        rw [hf'] at hf
        exact Option.some.inj hf
      rw [hff] at hadjI hdestI
      have hcov := rvWorkSet_cover hv
      intro a c
      rw [hadjI a a c, hdestI c a c]
      constructor
      · rintro ⟨hin, ha, hno⟩
        refine ⟨(hsym a c).mp hin, ?_, ?_⟩
        · intro hb2
          have hin' : inSet (g.destL vid) a vid := by
            rw [← hb2]
            exact (hsym a c).mp hin
          exact hno ⟨hcov.2 a hin', rfl, hb2⟩
        · rintro ⟨-, hav, -⟩
          exact ha hav
      · rintro ⟨hin, hb2, hno⟩
        refine ⟨(hsym a c).mpr hin, ?_, ?_⟩
        · intro ha
          have hin' : inSet (g.adj vid) vid c := by
            rw [← ha]
            exact (hsym a c).mpr hin
          exact hno ⟨hcov.1 c hin', ha, rfl⟩
        · rintro ⟨-, -, hbv⟩
          exact hb2 hbv

/-- After a successful (no-interference) `remove_vertex vid`, no relation with
source or destination `vid` remains in any set. -/
theorem remove_vertex_post {g : TG} (hInv : g.Inv) (fuel : Nat) (vid : Nat) {g2 : TG}
    (h : TG.remove_vertex fuel [] g vid = some (true, g2)) :
    ∀ j r, (r ∈ g2.adj j ∨ r ∈ g2.destL j) → r.src ≠ vid ∧ r.dest ≠ vid := by
  obtain ⟨hsym, hsrc, hdst, hnd⟩ := hInv
  cases fuel with
  | zero => cases h
  | succ fuel =>
    cases hv : g.vertex vid with
    | none =>
      rw [remove_vertex_absent fuel [] hv] at h
      have hp := congrArg Prod.fst (Option.some.inj h)
      cases hp
    | some vtx =>
      rw [remove_vertex_eq_commit fuel hv hsym hsrc hdst] at h
      obtain ⟨f, hf, hpair⟩ := Option.map_eq_some'.mp h
      have hfg2 : f = g2 := congrArg Prod.snd hpair
      rw [hfg2] at hf
      obtain ⟨f', hf', hvn, hadjI, hdestI, hseqm, hmeta, hseqle, hsrcF, hdstF⟩ :=
        rv_commit_spec vid (rvWorkSet vtx vid) g hv hsrc hdst hnd (nodup_sortDedup _)
          (rvWorkSet_mem_vid vtx vid) (rvWorkSet_lt hv hsym hsrc hdst)
          (rvWorkSet_habort hv hsym hsrc hdst)
      have hff : f' = g2 := by
        rw [hf'] at hf
        exact Option.some.inj hf
      rw [hff] at hadjI hdestI hsrcF hdstF
      have hcov := rvWorkSet_cover hv
      intro j r hr
      rcases hr with hr | hr
      · have hjr : r.src = j := hsrcF j r hr
        constructor
        · intro hc
          rw [hc] at hjr
          have hmem : inSet (g2.adj j) r.src r.dest := ⟨r, hr, rfl, rfl⟩
          rw [hadjI] at hmem
          exact hmem.2.1 hjr.symm
        · intro hc
          have hmem : inSet (g2.adj j) j r.dest := ⟨r, hr, hjr, rfl⟩
          rw [hadjI] at hmem
          obtain ⟨hin, hjv, hno⟩ := hmem
          rw [hc] at hin
          have hjV : j ∈ rvWorkSet vtx vid := hcov.2 j ((hsym j vid).mp hin)
          exact hno ⟨hjV, rfl, hc⟩
      · have hjr : r.dest = j := hdstF j r hr
        constructor
        · intro hc
          have hmem : inSet (g2.destL j) r.src j := ⟨r, hr, rfl, hjr⟩
          rw [hdestI] at hmem
          obtain ⟨hin, hjv, hno⟩ := hmem
          rw [hc] at hin
          have hjV : j ∈ rvWorkSet vtx vid := hcov.1 j ((hsym vid j).mpr hin)
          exact hno ⟨hjV, hc, rfl⟩
        · intro hc
          rw [hc] at hjr
          have hmem : inSet (g2.destL j) r.src vid := ⟨r, hr, rfl, hc⟩
          rw [hdestI] at hmem
          exact hmem.2.1 hjr.symm

/-! ### Concrete example graph for witnesses -/

/-- Two live vertices `0` and `1`, no edges, distinct sequence numbers. -/
def gEx : TG := ⟨[⟨some ⟨0, 0, [], []⟩, 3⟩, ⟨some ⟨1, 1, [], []⟩, 4⟩]⟩

theorem gEx_adj (a : Nat) : gEx.adj a = [] := by
  match a with
  | 0 => rfl
  | 1 => rfl
  | (n + 2) => rfl

theorem gEx_destL (a : Nat) : gEx.destL a = [] := by
  match a with
  | 0 => rfl
  | 1 => rfl
  | (n + 2) => rfl

theorem gEx_inv : gEx.Inv := by
  refine ⟨?_, ?_, ?_, ?_⟩
  · intro a b
    rw [gEx_adj, gEx_destL]
  · intro u r hr
    rw [gEx_adj] at hr
    simp at hr
  · intro u r hr
    rw [gEx_destL] at hr
    simp at hr
  · intro u
    rw [gEx_adj, gEx_destL]
    exact ⟨List.Pairwise.nil, List.Pairwise.nil⟩

/-- The state after `remove_vertex 0` on `gEx`. -/
def gEx2 : TG := ⟨[⟨none, 4⟩, ⟨some ⟨1, 1, [], []⟩, 4⟩]⟩

/-! ### Claim theorems for the graph -/

/-- C5: the edge-set symmetry — `(u,v)` in `u`'s adjacency set iff in `v`'s
incoming set — holds whenever no operation holds conflicting locks, and every
graph operation (`add_edge`, `remove_edge`, `add_vertex`, `remove_vertex`)
restores it before releasing its locks. -/
theorem edge_symmetry_restored (g : TG) (hInv : g.Inv) :
    (∀ a b, inSet (g.adj a) a b ↔ inSet (g.destL b) a b)
    ∧ (∀ s d w, ((g.add_edge s d w).2).Sym)
    ∧ (∀ s d, ((g.remove_edge s d).2).Sym)
    ∧ (∀ vid vec, vid < g.vMeta.length → ((g.add_vertex vid vec).2).Sym)
    ∧ (∀ fuel vid b g2, TG.remove_vertex fuel [] g vid = some (b, g2) → g2.Sym) := by
  obtain ⟨hsym, hsrc, hdst, hnd⟩ := hInv
  refine ⟨hsym, ?_, ?_, ?_, ?_⟩
  · intro s d w
    exact add_edge_sym hsym s d w
  · intro s d
    exact remove_edge_sym hsym hnd s d
  · intro vid vec hlt
    exact add_vertex_sym hsym vid vec hlt
  · intro fuel vid b g2 h
    exact remove_vertex_sym ⟨hsym, hsrc, hdst, hnd⟩ fuel vid h

theorem edge_symmetry_restored_witness :
    gEx.Inv ∧ ((gEx.add_edge 0 1 7).2).Sym ∧ ((gEx.remove_edge 0 1).2).Sym :=
  ⟨gEx_inv, (edge_symmetry_restored gEx gEx_inv).2.1 0 1 7,
    (edge_symmetry_restored gEx gEx_inv).2.2.1 0 1⟩

/-- C6: `remove_vertex` is two-phase with sequence-number validation — if the
sequence number observed after reacquiring the locks differs from the scan
snapshot, all locks are released and the operation restarts from the scan
phase — and whenever it returns true, no relation with source or destination
`v` remains in any adjacency or incoming set. -/
theorem remove_vertex_two_phase :
    (∀ (fuel : Nat) (interf : List (TG → TG)) (g : TG) (vid : Nat) (vtx : Vertex),
      g.vertex vid = some vtx →
      ((rvWorkSet vtx vid).any
        (fun u => decide ((interf.headD id g).vertex u = none)
          && ((interf.headD id g).seq vid == g.seq vid)) = false) →
      (interf.headD id g).seq vid ≠ g.seq vid →
      TG.remove_vertex (fuel + 1) interf g vid
        = TG.remove_vertex fuel interf.tail ((interf.headD id) g) vid)
    ∧ (∀ (g : TG), g.Inv → ∀ (fuel : Nat) (vid : Nat) (g2 : TG),
        TG.remove_vertex fuel [] g vid = some (true, g2) →
        ∀ j r, (r ∈ g2.adj j ∨ r ∈ g2.destL j) → r.src ≠ vid ∧ r.dest ≠ vid) := by
  constructor
  · intro fuel interf g vid vtx hv hany hneq
    show (match g.vertex vid with
      | none => some (false, g)
      | some vtx =>
        if (rvWorkSet vtx vid).any
            (fun u => decide ((interf.headD id g).vertex u = none)
              && ((interf.headD id g).seq vid == g.seq vid)) = true then
          none
        else if (interf.headD id g).seq vid ≠ g.seq vid then
          TG.remove_vertex fuel interf.tail ((interf.headD id) g) vid
        else
          (rv_commit ((interf.headD id) g) vid (rvWorkSet vtx vid)).map
            (fun h => (true, h)))
      = TG.remove_vertex fuel interf.tail ((interf.headD id) g) vid
    rw [hv]
    simp only
    rw [if_neg (by rw [hany]; intro hc; cases hc), if_pos hneq]
  · intro g hInv fuel vid g2 h
    exact remove_vertex_post hInv fuel vid h

theorem remove_vertex_two_phase_witness :
    gEx.Inv ∧ TG.remove_vertex 1 [] gEx 0 = some (true, gEx2)
    ∧ (∀ j r, (r ∈ gEx2.adj j ∨ r ∈ gEx2.destL j) → r.src ≠ 0 ∧ r.dest ≠ 0) := by
  have hrun : TG.remove_vertex 1 [] gEx 0 = some (true, gEx2) := by decide
  exact ⟨gEx_inv, hrun, remove_vertex_two_phase.2 gEx gEx_inv 1 0 gEx2 hrun⟩

/-! ### Sequence-number behaviour of each operation -/

theorem add_edge_seq (g : TG) (s d : Nat) (w : Int) (j : Nat) :
    g.seq j ≤ (g.add_edge s d w).2.seq j
    ∧ ((g.add_edge s d w).2.vertex j ≠ g.vertex j →
        g.seq j < (g.add_edge s d w).2.seq j) := by
  by_cases hsd : s = d
  · subst hsd
    rw [add_edge_self_loop]
    exact ⟨Nat.le_refl _, fun hc => absurd rfl hc⟩
  by_cases hnull : g.vertex s = none ∨ g.vertex d = none
  · rw [add_edge_fail g hsd (Or.inl hnull)]
    exact ⟨Nat.le_refl _, fun hc => absurd rfl hc⟩
  by_cases hrel : has_relation (g.adj s) ⟨s, d, w⟩ = true
  · rw [add_edge_fail g hsd (Or.inr hrel)]
    exact ⟨Nat.le_refl _, fun hc => absurd rfl hc⟩
  push_neg at hnull
  obtain ⟨vs, hvs⟩ := Option.ne_none_iff_exists'.mp hnull.1
  obtain ⟨vd, hvd⟩ := Option.ne_none_iff_exists'.mp hnull.2
  obtain ⟨-, -, -, -, -, h6, h7, h8, -⟩ :=
    add_edge_success hsd hvs hvd (Bool.eq_false_iff.mpr hrel)
  by_cases hjs : j = s
  · subst hjs
    rw [h6]
    exact ⟨Nat.le_succ _, fun _ => Nat.lt_succ_self _⟩
  by_cases hjd : j = d
  · subst hjd
    rw [h7]
    exact ⟨Nat.le_succ _, fun _ => Nat.lt_succ_self _⟩
  · have hm := h8 j hjs hjd
    rw [TG.seq_congr hm]
    exact ⟨Nat.le_refl _, fun hc => absurd (TG.vertex_congr hm) hc⟩

theorem remove_edge_seq (g : TG) (hsym : g.Sym) (s d : Nat) (j : Nat) :
    g.seq j ≤ (g.remove_edge s d).2.seq j
    ∧ ((g.remove_edge s d).2.vertex j ≠ g.vertex j →
        g.seq j < (g.remove_edge s d).2.seq j) := by
  by_cases hsd : s = d
  · subst hsd
    rw [remove_edge_self_loop]
    exact ⟨Nat.le_refl _, fun hc => absurd rfl hc⟩
  by_cases hnull : ¬ (g.vertex s ≠ none ∧ g.vertex d ≠ none)
  · rw [remove_edge_absent g hsd hnull]
    exact ⟨Nat.le_refl _, fun hc => absurd rfl hc⟩
  push_neg at hnull
  obtain ⟨vs, hvs⟩ := Option.ne_none_iff_exists'.mp hnull.1
  obtain ⟨vd, hvd⟩ := Option.ne_none_iff_exists'.mp hnull.2
  by_cases hrel : has_relation (g.adj s) ⟨s, d, -1⟩ = true
  · obtain ⟨-, -, -, -, -, h6, h7, h8, -⟩ := remove_edge_success hsd hvs hvd hrel
    by_cases hjs : j = s
    · subst hjs
      rw [h6]
      exact ⟨Nat.le_succ _, fun _ => Nat.lt_succ_self _⟩
    by_cases hjd : j = d
    · subst hjd
      rw [h7]
      exact ⟨Nat.le_succ _, fun _ => Nat.lt_succ_self _⟩
    · have hm := h8 j hjs hjd
      rw [TG.seq_congr hm]
      exact ⟨Nat.le_refl _, fun hc => absurd (TG.vertex_congr hm) hc⟩
  · rw [remove_edge_notfound hsd hvs hvd hsym (Bool.eq_false_iff.mpr hrel)]
    exact ⟨Nat.le_refl _, fun hc => absurd rfl hc⟩

theorem add_vertex_seq (g : TG) (vid : Nat) (vec : List Nat) (hmem : vid ∈ vec)
    (hvnd : vec.Nodup) (hlt : vid < g.vMeta.length) (j : Nat) :
    g.seq j ≤ (g.add_vertex vid vec).2.seq j
    ∧ ((g.add_vertex vid vec).2.vertex j ≠ g.vertex j →
        g.seq j < (g.add_vertex vid vec).2.seq j) := by
  unfold TG.add_vertex
  by_cases hv : g.vertex vid = none
  · rw [if_pos hv]
    simp only
    set g1 := g.setVertex vid (some ⟨vid, vid, [], []⟩) with hg1
    set g2 := vec.foldl (avInsStep vid) g1 with hg2
    have hg1v : g1.vertex vid = some ⟨vid, vid, [], []⟩ := by
      rw [hg1]
      exact TG.vertex_setVertex_self _ hlt
    have hg2seq : ∀ i, g2.seq i = g.seq i := by
      intro i
      rw [hg2, avfold_seq, hg1, TG.seq_setVertex]
    have hg2vid : g2.vertex vid ≠ none := by
      rw [hg2, Ne, avfold_vertex_none, hg1v]
      intro hc
      cases hc
    constructor
    · calc g.seq j = g2.seq j := (hg2seq j).symm
      _ ≤ _ := bumpfold_seq_le _ _ _ _
    · intro hchange
      rw [bumpfold_vertex] at hchange
      by_cases hj : j = vid
      · rw [hj, bumpfold_seq_mem vid (List.nodup_reverse.mpr hvnd) (List.mem_reverse.mpr hmem)
          hg2vid hg2vid, hg2seq]
        exact Nat.lt_succ_self _
      · by_cases hjvec : j ∈ vec
        · by_cases hjv : g.vertex j = none
          · exfalso
            apply hchange
            have hg1j : g1.vertex j = g.vertex j := by
              rw [hg1]
              exact TG.vertex_setVertex_ne _ _ _ hj
            have : g2.vertex j = none := by
              rw [hg2, avfold_vertex_none, hg1j]
              exact hjv
            rw [this, hjv]
          · rw [bumpfold_seq_mem vid (List.nodup_reverse.mpr hvnd) (List.mem_reverse.mpr hjvec)
              hg2vid ?_, hg2seq]
            · exact Nat.lt_succ_self _
            · rw [hg2, Ne, avfold_vertex_none, hg1]
              rw [TG.vertex_setVertex_ne _ _ _ hj]
              exact hjv
        · exfalso
          apply hchange
          have hg2m : g2.meta j = g.meta j := by
            rw [hg2, avfold_meta_notmem vid vec g1 hj hjvec, hg1,
              TG.meta_setVertex_ne _ _ _ hj]
          exact TG.vertex_congr hg2m
  · rw [if_neg hv]
    simp only
    refine ⟨bumpfold_seq_le _ _ _ _, ?_⟩
    intro hchange
    rw [bumpfold_vertex] at hchange
    exact absurd rfl hchange

theorem remove_vertex_seq {g : TG} (hInv : g.Inv) (fuel vid : Nat) {b : Bool} {g2 : TG}
    (h : TG.remove_vertex fuel [] g vid = some (b, g2)) (j : Nat) :
    g.seq j ≤ g2.seq j ∧ (g2.vertex j ≠ g.vertex j → g.seq j < g2.seq j) := by
  obtain ⟨hsym, hsrc, hdst, hnd⟩ := hInv
  cases fuel with
  | zero => cases h
  | succ fuel =>
    cases hv : g.vertex vid with
    | none =>
      rw [remove_vertex_absent fuel [] hv] at h
      have hg : g = g2 := congrArg Prod.snd (Option.some.inj h)
      rw [← hg]
      exact ⟨Nat.le_refl _, fun hc => absurd rfl hc⟩
    | some vtx =>
      rw [remove_vertex_eq_commit fuel hv hsym hsrc hdst] at h
      obtain ⟨f, hf, hpair⟩ := Option.map_eq_some'.mp h
      have hfg2 : f = g2 := congrArg Prod.snd hpair
      rw [hfg2] at hf
      obtain ⟨f', hf', hvn, hadjI, hdestI, hseqm, hmeta, hseqle, hsrcF, hdstF⟩ :=
        rv_commit_spec vid (rvWorkSet vtx vid) g hv hsrc hdst hnd (nodup_sortDedup _)
          (rvWorkSet_mem_vid vtx vid) (rvWorkSet_lt hv hsym hsrc hdst)
          (rvWorkSet_habort hv hsym hsrc hdst)
      have hff : f' = g2 := by
        rw [hf'] at hf
        exact Option.some.inj hf
      rw [hff] at hseqm hmeta hseqle
      refine ⟨hseqle j, ?_⟩
      intro hchange
      by_cases hjV : j ∈ rvWorkSet vtx vid
      · rw [hseqm j hjV]
        exact Nat.lt_succ_self _
      · exact absurd (TG.vertex_congr (hmeta j hjV)) hchange

theorem add_edge_spec_witness :
    gEx.Sym
    ∧ ((0 : Nat) ≠ 1 ∧ gEx.vertex 0 = some ⟨0, 0, [], []⟩
        ∧ gEx.vertex 1 = some ⟨1, 1, [], []⟩ ∧ ¬ inSet (gEx.adj 0) 0 1)
    ∧ ((gEx.add_edge 0 1 7).1 = true
        ∧ (⟨0, 1, 7⟩ : Relation) ∈ (gEx.add_edge 0 1 7).2.adj 0
        ∧ (⟨0, 1, 7⟩ : Relation) ∈ (gEx.add_edge 0 1 7).2.destL 1
        ∧ (gEx.add_edge 0 1 7).2.seq 0 = gEx.seq 0 + 1
        ∧ (gEx.add_edge 0 1 7).2.seq 1 = gEx.seq 1 + 1) :=
  ⟨gEx_inv.1, ⟨by decide, rfl, rfl, by decide⟩,
    (add_edge_spec gEx 0 1 7 gEx_inv.1).2.2.2 ⟨0, 0, [], []⟩ ⟨1, 1, [], []⟩
      (by decide) rfl rfl (by decide)⟩

/-- C8 refutation: a failed `add_vertex` on an already-present vertex bumps
the sequence number of every locked, existing vertex in its working set even
though neither any vertex object nor any relation changed. -/
theorem seq_bump_counterexample :
    (gEx.add_vertex 0 [0]).1 = false
    ∧ (gEx.add_vertex 0 [0]).2.vertex 0 = gEx.vertex 0
    ∧ (gEx.add_vertex 0 [0]).2.vertex 1 = gEx.vertex 1
    ∧ gEx.seq 0 = 3
    ∧ (gEx.add_vertex 0 [0]).2.seq 0 = 4 := by
  decide

/-- C8 (amended): each vertex's sequence number is monotone under every graph
operation, and every change to a vertex's object or relation sets strictly
increases its sequence number; a failed `add_vertex` may additionally bump
sequence numbers without any change. -/
theorem seq_monotone_and_change_bump (g : TG) (hInv : g.Inv) :
    (∀ s d w j, g.seq j ≤ (g.add_edge s d w).2.seq j
      ∧ ((g.add_edge s d w).2.vertex j ≠ g.vertex j →
          g.seq j < (g.add_edge s d w).2.seq j))
    ∧ (∀ s d j, g.seq j ≤ (g.remove_edge s d).2.seq j
      ∧ ((g.remove_edge s d).2.vertex j ≠ g.vertex j →
          g.seq j < (g.remove_edge s d).2.seq j))
    ∧ (∀ vid vec j, vid ∈ vec → vec.Nodup → vid < g.vMeta.length →
        g.seq j ≤ (g.add_vertex vid vec).2.seq j
        ∧ ((g.add_vertex vid vec).2.vertex j ≠ g.vertex j →
            g.seq j < (g.add_vertex vid vec).2.seq j))
    ∧ (∀ fuel vid (b : Bool) (g2 : TG) j, TG.remove_vertex fuel [] g vid = some (b, g2) →
        g.seq j ≤ g2.seq j ∧ (g2.vertex j ≠ g.vertex j → g.seq j < g2.seq j)) := by
  refine ⟨?_, ?_, ?_, ?_⟩
  · intro s d w j
    exact add_edge_seq g s d w j
  · intro s d j
    exact remove_edge_seq g hInv.1 s d j
  · intro vid vec j hmem hvnd hlt
    exact add_vertex_seq g vid vec hmem hvnd hlt j
  · intro fuel vid b g2 j h
    exact remove_vertex_seq hInv fuel vid h j

theorem seq_monotone_and_change_bump_witness :
    gEx.Inv
    ∧ (gEx.seq 0 ≤ (gEx.add_edge 0 1 7).2.seq 0
      ∧ ((gEx.add_edge 0 1 7).2.vertex 0 ≠ gEx.vertex 0 →
          gEx.seq 0 < (gEx.add_edge 0 1 7).2.seq 0))
    ∧ (gEx.seq 0 ≤ gEx2.seq 0 ∧ (gEx2.vertex 0 ≠ gEx.vertex 0 → gEx.seq 0 < gEx2.seq 0)) :=
  ⟨gEx_inv, (seq_monotone_and_change_bump gEx gEx_inv).1 0 1 7 0,
    (seq_monotone_and_change_bump gEx gEx_inv).2.2.2 1 0 true gEx2 0 (by decide)⟩

/-! ## Allocator failure behaviour (PHT)

`my_alloc<T>::allocate` (source lines 32–36) asks the persistent allocator
`RP_malloc` for memory and throws `std::bad_alloc` — propagating the failure
to the caller — when it returns null.  `Node::operator new` (source lines
59–68) instead prints an error and calls `exit(1)` itself.  The allocator's
reply is modelled as an `Option` address. -/

abbrev Ptr := Nat

inductive AllocOutcome
  | ok (p : Ptr)
  | thrownBadAlloc
  deriving DecidableEq, Repr

inductive NewOutcome
  | ok (p : Ptr)
  | exitProcess (code : Nat)
  deriving DecidableEq, Repr

/-- `my_alloc<T>::allocate`: null from `RP_malloc` becomes a thrown
`std::bad_alloc`, which unwinds to the caller. -/
def my_alloc_allocate (reply : Option Ptr) : AllocOutcome :=
  match reply with
  | some p => .ok p
  | none => .thrownBadAlloc

/-- `Node::operator new`: null from `RP_malloc` prints an error and calls
`exit(1)` inside the allocation function itself. -/
def node_operator_new (reply : Option Ptr) : NewOutcome :=
  match reply with
  | some p => .ok p
  | none => .exitProcess 1

/-- C9 counterexample: when the persistent allocator returns null inside
`Node::operator new`, the process exits with code 1 right there — the
failure is not propagated to the caller for it to decide. -/
theorem alloc_failure_counterexample :
    node_operator_new none = .exitProcess 1 ∧ node_operator_new none ≠ .ok 0 := by
  constructor
  · rfl
  · intro hc
    cases hc

/-- C9 (amended): a null reply from the allocator inside
`my_alloc::allocate` (string storage) throws `std::bad_alloc`, propagating
to the caller; a null reply inside `Node::operator new` (persistent node
allocation) terminates the process with `exit(1)` without returning to the
caller; a non-null reply is returned as the allocation in both. -/
theorem alloc_failure_behaviour :
    my_alloc_allocate none = .thrownBadAlloc
    ∧ node_operator_new none = .exitProcess 1
    ∧ (∀ p, my_alloc_allocate (some p) = .ok p)
    ∧ (∀ p, node_operator_new (some p) = .ok p) :=
  ⟨rfl, rfl, fun _ => rfl, fun _ => rfl⟩

/-! ## Persistence-ordering event traces (PHT)

Each PHT mutation is re-expressed as a generator of the sequence of
persistence-relevant events it performs — cacheline writebacks (`clwb`),
store fences (`sfence`) and compare-and-swaps — following the source's
control flow exactly.  Branch outcomes that depend on shared memory (whether
`curr` is null, its mark bit, the key comparison, the `prev` validation and
every CAS result) are decided by an oracle, so quantifying over all oracles
covers every interleaving an adversary can produce; `fuel` bounds the retry
loops, and `none` means the fuel ran out before the operation returned.

Locations are identifiers: `0` the null pointer, `1` the bucket head's
cacheline, `2`/`3` the fresh node's key/value data, `4` the fresh node
(`tmpNode`), and counter-allocated ids `≥ 5` for chain nodes discovered
during traversal.  A node id stands for the cacheline holding the node,
including its `next` field. -/

inductive PEvent
  | clwb (loc : Nat)
  | sfence
  | cas (loc : Nat) (refr : Nat) (fresh : Bool) (success : Bool)
  deriving DecidableEq, Repr

inductive OChoice
  | fnull
  | fnode (cmark : Bool) (cmp : Ordering) (prevValid : Bool) (casOk : Bool)
  | b (x : Bool)
  deriving Repr

/-- Pop a CAS outcome from the oracle (a mismatched entry reads as a failed
CAS, so every oracle denotes a legal execution). -/
def popB : List OChoice → Bool × List OChoice
  | .b x :: r => (x, r)
  | _ :: r => (false, r)
  | [] => (false, [])

/-- Is a store fence somewhere in the remaining trace? -/
def hasFence : List PEvent → Bool
  | [] => false
  | .sfence :: _ => true
  | _ :: r => hasFence r

/-- Is there a writeback of `loc` followed (later) by a store fence? -/
def hasClwbThenFence (loc : Nat) : List PEvent → Bool
  | [] => false
  | .clwb l :: r => (l == loc && hasFence r) || hasClwbThenFence loc r
  | _ :: r => hasClwbThenFence loc r

/-- C1's ordering contract over a trace, checked left to right: every
successful CAS whose published referent is a fresh/mutated node must have
been preceded by a writeback of that referent (`written` accumulates
written-back lines), and every successful CAS must be followed by a
writeback of the modified pointer's line and then a store fence before the
trace (the operation) ends. -/
def sealedFrom (written : List Nat) : List PEvent → Bool
  | [] => true
  | .clwb l :: r => sealedFrom (l :: written) r
  | .sfence :: r => sealedFrom written r
  | .cas loc refr fresh succ :: r =>
      (if succ then ((!fresh) || written.contains refr) && hasClwbThenFence loc r
       else true)
      && sealedFrom written r

def SealedAll (tr : List PEvent) : Prop := ∀ w, sealedFrom w tr = true

/-- One step of `findNode`'s inner traversal loop (source lines 308–336).
Returns the events, then `some (found, prev, curr, next)` on a `return` or
`none` on a `break` back to the outer retry loop, plus the remaining oracle
and id counter. -/
def findInner : Nat → List OChoice → Nat → Nat → Nat →
    Option (List PEvent × Option (Bool × Nat × Nat × Nat) × List OChoice × Nat)
  | 0, _, _, _, _ => none
  | fuel + 1, sched, cnt, p, c =>
    match sched with
    | .fnull :: s1 =>
      -- curr == nullptr: return false (line 309)
      some ([], some (false, p, 0, 0), s1, cnt)
    | .fnode cmark cmp prevValid casOk :: s1 =>
      -- next = curr->next.load(); clwb(curr) (lines 310–311)
      if prevValid = false then
        -- prev->ptr.load() != curr: break and retry (line 315)
        some ([.clwb c], none, s1, cnt + 1)
      else
        -- clwb(prev) (line 316)
        if cmark = false then
          match cmp with
          | .eq => some ([.clwb c, .clwb p, .sfence], some (true, p, c, cnt), s1, cnt + 1)
          | .gt => some ([.clwb c, .clwb p], some (false, p, c, cnt), s1, cnt + 1)
          | .lt =>
            match findInner fuel s1 (cnt + 1) c cnt with
            | none => none
            | some (ev, res, s2, cnt2) => some (.clwb c :: .clwb p :: ev, res, s2, cnt2)
        else
          -- marked: sfence; CAS(prev: curr → next) (lines 326–327)
          if casOk then
            match findInner fuel s1 (cnt + 1) p cnt with
            | none => none
            | some (ev, res, s2, cnt2) =>
              some (.clwb c :: .clwb p :: .sfence
                :: .cas p cnt false true :: .clwb p :: .sfence :: ev, res, s2, cnt2)
          else
            some ([.clwb c, .clwb p, .sfence, .cas p cnt false false], none, s1, cnt + 1)
    | .b _ :: s1 =>
      -- a mismatched oracle entry reads as a null curr
      some ([], some (false, p, 0, 0), s1, cnt)
    | [] =>
      -- an exhausted oracle reads as a null curr
      some ([], some (false, p, 0, 0), [], cnt)

/-- `findNode`'s outer retry loop (source lines 302–337): emit `clwb(prev)`
on the bucket head, then run the inner loop; a break restarts. -/
def findOuter : Nat → List OChoice → Nat →
    Option (List PEvent × Bool × Nat × Nat × Nat × List OChoice × Nat)
  | 0, _, _ => none
  | fuel + 1, sched, cnt =>
    match findInner (fuel + 1) sched (cnt + 1) 1 cnt with
    | none => none
    | some (ev, some (found, p, c, nx), s1, cnt1) =>
      some (.clwb 1 :: ev, found, p, c, nx, s1, cnt1)
    | some (ev, none, s1, cnt1) =>
      match findOuter fuel s1 cnt1 with
      | none => none
      | some (ev2, found, p, c, nx, s2, cnt2) =>
        some (.clwb 1 :: ev ++ ev2, found, p, c, nx, s2, cnt2)

/-- The mark-setting CAS loop `while(!curr->next.CAS(next, setMark(next)))`
(source line 161 / 277); `compare_exchange_strong` refreshes `next` on each
failure.  Returns the events and the final observed successor id. -/
def markLoop : Nat → List OChoice → Nat → Nat → Nat →
    Option (List PEvent × Nat × List OChoice × Nat)
  | 0, _, _, _, _ => none
  | fuel + 1, sched, cnt, c, nx =>
    let ok := (popB sched).1
    let s1 := (popB sched).2
    if ok then some ([.cas c nx false true], nx, s1, cnt)
    else
      match markLoop fuel s1 (cnt + 1) c cnt with
      | none => none
      | some (ev, nx2, s2, cnt2) => some (.cas c nx false false :: ev, nx2, s2, cnt2)

/-- `insert`'s retry loop (source lines 201–219). -/
def insertLoop : Nat → List OChoice → Nat →
    Option (List PEvent × Bool × List OChoice × Nat)
  | 0, _, _ => none
  | fuel + 1, sched, cnt =>
    match findOuter (fuel + 1) sched cnt with
    | none => none
    | some (fe, found, p, _, _, s1, cnt1) =>
      if found then
        -- key present: delete tmpNode; return false (lines 202–206)
        some (fe, false, s1, cnt1)
      else
        -- clwb(tmpNode); sfence; CAS(prev: curr → tmpNode) (lines 209–212)
        let ok := (popB s1).1
        let s2 := (popB s1).2
        if ok then
          -- clwb(prev); sfence; return true (lines 213–216)
          some (fe ++ [.clwb 4, .sfence, .cas p 4 true true, .clwb p, .sfence],
            true, s2, cnt1)
        else
          match insertLoop fuel s2 cnt1 with
          | none => none
          | some (ev2, res, s3, cnt3) =>
            some (fe ++ [.clwb 4, .sfence, .cas p 4 true false] ++ ev2, res, s3, cnt3)

/-- `insert` (source lines 192–223), including the node constructor's
writebacks of the key and value buffers (lines 55–58). -/
def insertTrace (fuel : Nat) (sched : List OChoice) : Option (List PEvent × Bool) :=
  match insertLoop fuel sched 5 with
  | none => none
  | some (ev, res, _, _) => some (.clwb 2 :: .clwb 3 :: ev, res)

/-- The shared replace path of `put` and `replace` once `findNode` reported
the key present and the cursor is `(p, c, nx)` (source lines 152–172 and
268–288): install `tmpNode` in front, then mark and splice out `curr`. -/
def replaceCore (fuel : Nat) (sched : List OChoice) (cnt : Nat) (p c nx : Nat) :
    Option (Option (List PEvent × List OChoice × Nat) × List PEvent × List OChoice × Nat) :=
  -- outer value: `none` in the first component means the installing CAS
  -- failed (events in the second component) and the caller's loop retries
  let ok := (popB sched).1
  let s1 := (popB sched).2
  if ok then
    match markLoop fuel s1 cnt c nx with
    | none => none
    | some (mev, nx2, s2, cnt2) =>
      let ok2 := (popB s2).1
      let s3 := (popB s2).2
      if ok2 then
        some (some ([.clwb 4, .sfence, .cas p 4 true true, .clwb p, .sfence] ++ mev
          ++ [.clwb c, .sfence, .cas 4 nx2 false true, .clwb 4, .sfence], s3, cnt2),
          [], s3, cnt2)
      else
        match findOuter fuel s3 cnt2 with
        | none => none
        | some (fe2, _, _, _, _, s4, cnt4) =>
          some (some ([.clwb 4, .sfence, .cas p 4 true true, .clwb p, .sfence] ++ mev
            ++ [.clwb c, .sfence, .cas 4 nx2 false false] ++ fe2, s4, cnt4),
            [], s4, cnt4)
  else
    some (none, [.clwb 4, .sfence, .cas p 4 true false], s1, cnt)

/-- `put`'s retry loop (source lines 150–186). -/
def putLoop : Nat → List OChoice → Nat → Option (List PEvent × List OChoice × Nat)
  | 0, _, _ => none
  | fuel + 1, sched, cnt =>
    match findOuter (fuel + 1) sched cnt with
    | none => none
    | some (fe, found, p, c, nx, s1, cnt1) =>
      if found then
        match replaceCore (fuel + 1) s1 cnt1 p c nx with
        | none => none
        | some (some (ev, s2, cnt2), _, _, _) => some (fe ++ ev, s2, cnt2)
        | some (none, ev0, s2, cnt2) =>
          match putLoop fuel s2 cnt2 with
          | none => none
          | some (ev2, s3, cnt3) => some (fe ++ ev0 ++ ev2, s3, cnt3)
      else
        let ok := (popB s1).1
        let s2 := (popB s1).2
        if ok then
          some (fe ++ [.clwb 4, .sfence, .cas p 4 true true, .clwb p, .sfence], s2, cnt1)
        else
          match putLoop fuel s2 cnt1 with
          | none => none
          | some (ev2, s3, cnt3) =>
            some (fe ++ [.clwb 4, .sfence, .cas p 4 true false] ++ ev2, s3, cnt3)

/-- `put` (source lines 141–190). -/
def putTrace (fuel : Nat) (sched : List OChoice) : Option (List PEvent) :=
  match putLoop fuel sched 5 with
  | none => none
  | some (ev, _, _) => some (.clwb 2 :: .clwb 3 :: ev)

/-- `replace`'s retry loop (source lines 267–295). -/
def replaceLoop : Nat → List OChoice → Nat → Option (List PEvent × List OChoice × Nat)
  | 0, _, _ => none
  | fuel + 1, sched, cnt =>
    match findOuter (fuel + 1) sched cnt with
    | none => none
    | some (fe, found, p, c, nx, s1, cnt1) =>
      if found then
        match replaceCore (fuel + 1) s1 cnt1 p c nx with
        | none => none
        | some (some (ev, s2, cnt2), _, _, _) => some (fe ++ ev, s2, cnt2)
        | some (none, ev0, s2, cnt2) =>
          match replaceLoop fuel s2 cnt2 with
          | none => none
          | some (ev2, s3, cnt3) => some (fe ++ ev0 ++ ev2, s3, cnt3)
      else
        -- key absent: delete tmpNode; return none (lines 290–294)
        some (fe, s1, cnt1)

/-- `replace` (source lines 258–299). -/
def replaceTrace (fuel : Nat) (sched : List OChoice) : Option (List PEvent) :=
  match replaceLoop fuel sched 5 with
  | none => none
  | some (ev, _, _) => some (.clwb 2 :: .clwb 3 :: ev)

/-- `remove`'s retry loop (source lines 232–252). -/
def removeLoop : Nat → List OChoice → Nat → Option (List PEvent × List OChoice × Nat)
  | 0, _, _ => none
  | fuel + 1, sched, cnt =>
    match findOuter (fuel + 1) sched cnt with
    | none => none
    | some (fe, found, p, c, nx, s1, cnt1) =>
      if found = false then
        some (fe, s1, cnt1)
      else
        -- res = curr->val; sfence; mark CAS (lines 237–239)
        let ok := (popB s1).1
        let s2 := (popB s1).2
        if ok = false then
          -- mark CAS failed: continue from the top (line 240)
          match removeLoop fuel s2 cnt1 with
          | none => none
          | some (ev2, s3, cnt3) =>
            some (fe ++ [.sfence, .cas c nx false false] ++ ev2, s3, cnt3)
        else
          -- clwb(curr); sfence; CAS(prev: curr → next) (lines 242–244)
          let ok2 := (popB s2).1
          let s3 := (popB s2).2
          if ok2 then
            some (fe ++ [.sfence, .cas c nx false true, .clwb c, .sfence,
              .cas p nx false true, .clwb p, .sfence], s3, cnt1)
          else
            match findOuter (fuel + 1) s3 cnt1 with
            | none => none
            | some (fe2, _, _, _, _, s4, cnt4) =>
              some (fe ++ [.sfence, .cas c nx false true, .clwb c, .sfence,
                .cas p nx false false] ++ fe2, s4, cnt4)

/-- `remove` (source lines 225–256); no node is allocated. -/
def removeTrace (fuel : Nat) (sched : List OChoice) : Option (List PEvent) :=
  match removeLoop fuel sched 5 with
  | none => none
  | some (ev, _, _) => some ev

/-! ### Sealedness: composition lemmas -/

theorem hasFence_append {a b : List PEvent} (h : hasFence a = true) :
    hasFence (a ++ b) = true := by
  induction a with
  | nil => cases h
  | cons e r ih =>
    cases e with
    | sfence => rfl
    | clwb l => exact ih h
    | cas loc refr fresh succ => exact ih h

theorem hasClwbThenFence_append {loc : Nat} {a b : List PEvent}
    (h : hasClwbThenFence loc a = true) : hasClwbThenFence loc (a ++ b) = true := by
  induction a with
  | nil => cases h
  | cons e r ih =>
    cases e with
    | clwb l =>
      have h' : ((l == loc && hasFence r) || hasClwbThenFence loc r) = true := h
      show ((l == loc && hasFence (r ++ b)) || hasClwbThenFence loc (r ++ b)) = true
      rw [Bool.or_eq_true] at h' ⊢
      rcases h' with h1 | h2
      · rw [Bool.and_eq_true] at h1
        exact Or.inl (by rw [Bool.and_eq_true]; exact ⟨h1.1, hasFence_append h1.2⟩)
      · exact Or.inr (ih h2)
    | sfence => exact ih h
    | cas loc' refr fresh succ => exact ih h

theorem sealedFrom_weaken {w w' : List Nat} {tr : List PEvent}
    (hw : ∀ x ∈ w, x ∈ w') (h : sealedFrom w tr = true) : sealedFrom w' tr = true := by
  induction tr generalizing w w' with
  | nil => rfl
  | cons e r ih =>
    cases e with
    | clwb l =>
      show sealedFrom (l :: w') r = true
      refine ih ?_ h
      intro x hx
      rcases List.mem_cons.mp hx with rfl | hx'
      · exact List.mem_cons_self _ _
      · exact List.mem_cons_of_mem _ (hw x hx')
    | sfence => exact ih hw h
    | cas loc refr fresh succ =>
      have h' : ((if succ = true then ((!fresh) || w.contains refr)
          && hasClwbThenFence loc r else true) && sealedFrom w r) = true := h
      rw [Bool.and_eq_true] at h'
      show ((if succ = true then ((!fresh) || w'.contains refr)
          && hasClwbThenFence loc r else true) && sealedFrom w' r) = true
      rw [Bool.and_eq_true]
      refine ⟨?_, ih hw h'.2⟩
      obtain ⟨h'1, -⟩ := h'
      cases succ with
      | false => rw [if_neg (by intro hc; cases hc)]
      | true =>
        rw [if_pos rfl] at h'1 ⊢
        rw [Bool.and_eq_true, Bool.or_eq_true] at h'1 ⊢
        obtain ⟨h1, h2⟩ := h'1
        refine ⟨?_, h2⟩
        rcases h1 with h1 | h1
        · exact Or.inl h1
        · exact Or.inr (List.elem_iff.mpr (hw refr (List.elem_iff.mp h1)))

/-- Locations written back by a trace. -/
def clwbs : List PEvent → List Nat
  | [] => []
  | .clwb l :: r => l :: clwbs r
  | _ :: r => clwbs r

theorem sealedFrom_append {a b : List PEvent} {w : List Nat}
    (ha : sealedFrom w a = true) (hb : sealedFrom (clwbs a ++ w) b = true) :
    sealedFrom w (a ++ b) = true := by
  induction a generalizing w with
  | nil => exact hb
  | cons e r ih =>
    cases e with
    | clwb l =>
      show sealedFrom (l :: w) (r ++ b) = true
      refine ih ha ?_
      refine sealedFrom_weaken ?_ hb
      intro x hx
      show x ∈ clwbs r ++ (l :: w)
      have : x ∈ l :: (clwbs r ++ w) := hx
      rcases List.mem_cons.mp this with rfl | hx'
      · exact List.mem_append.mpr (Or.inr (List.mem_cons_self _ _))
      · rcases List.mem_append.mp hx' with h1 | h2
        · exact List.mem_append.mpr (Or.inl h1)
        · exact List.mem_append.mpr (Or.inr (List.mem_cons_of_mem _ h2))
    | sfence => exact ih ha hb
    | cas loc refr fresh succ =>
      have ha' : ((if succ = true then ((!fresh) || w.contains refr)
          && hasClwbThenFence loc r else true) && sealedFrom w r) = true := ha
      rw [Bool.and_eq_true] at ha'
      show ((if succ = true then ((!fresh) || w.contains refr)
          && hasClwbThenFence loc (r ++ b) else true) && sealedFrom w (r ++ b)) = true
      rw [Bool.and_eq_true]
      refine ⟨?_, ih ha'.2 hb⟩
      obtain ⟨ha'1, -⟩ := ha'
      cases succ with
      | false => rw [if_neg (by intro hc; cases hc)]
      | true =>
        rw [if_pos rfl] at ha'1 ⊢
        rw [Bool.and_eq_true] at ha'1 ⊢
        exact ⟨ha'1.1, hasClwbThenFence_append ha'1.2⟩

theorem SealedAll_append {a b : List PEvent} (ha : SealedAll a) (hb : SealedAll b) :
    SealedAll (a ++ b) :=
  fun w => sealedFrom_append (ha w) (hb _)

theorem SealedAll_nil : SealedAll [] := fun _ => rfl

theorem SealedAll_clwb_cons {l : Nat} {r : List PEvent} (h : SealedAll r) :
    SealedAll (.clwb l :: r) := fun w => h (l :: w)

theorem SealedAll_sfence_cons {r : List PEvent} (h : SealedAll r) :
    SealedAll (.sfence :: r) := fun w => h w

theorem SealedAll_casFail_cons {loc refr : Nat} {fresh : Bool} {r : List PEvent}
    (h : SealedAll r) : SealedAll (.cas loc refr fresh false :: r) := by
  intro w
  show ((if (false : Bool) = true then _ else true) && sealedFrom w r) = true
  rw [if_neg (by intro hc; cases hc), Bool.true_and]
  exact h w

theorem hasClwbThenFence_self {loc : Nat} {r : List PEvent} :
    hasClwbThenFence loc (.clwb loc :: .sfence :: r) = true := by
  show ((loc == loc && hasFence (.sfence :: r)) || hasClwbThenFence loc (.sfence :: r)) = true
  rw [beq_self_eq_true]
  rfl

/-- A mark/splice CAS (publishing an already-persisted node, `fresh = false`)
immediately followed by a writeback of the CASed line and a fence is sealed. -/
theorem SealedAll_seal {loc refr : Nat} {r : List PEvent} (h : SealedAll r) :
    SealedAll (.cas loc refr false true :: .clwb loc :: .sfence :: r) := by
  intro w
  show (hasClwbThenFence loc (.clwb loc :: .sfence :: r) && sealedFrom (loc :: w) r) = true
  rw [hasClwbThenFence_self, Bool.true_and]
  exact h _

/-- A successful non-fresh CAS whose line is written back and fenced somewhere
later in the trace is sealed. -/
theorem SealedAll_casTrue_cons {loc refr : Nat} {rest : List PEvent}
    (hr : SealedAll rest) (hct : hasClwbThenFence loc rest = true) :
    SealedAll (.cas loc refr false true :: rest) := by
  intro w
  show (hasClwbThenFence loc rest && sealedFrom w rest) = true
  rw [hct, Bool.true_and]
  exact hr w

/-- The installing segment of `insert`/`put`/`replace`: write back the fresh
node (id 4), fence, publish it by CAS, write back the CASed line, fence. -/
theorem SealedAll_install {p : Nat} {r : List PEvent} (h : SealedAll r) :
    SealedAll (.clwb 4 :: .sfence :: .cas p 4 true true :: .clwb p :: .sfence :: r) := by
  intro w
  show (hasClwbThenFence p (.clwb p :: .sfence :: r)
      && sealedFrom (p :: (4 : Nat) :: w) r) = true
  rw [hasClwbThenFence_self, Bool.true_and]
  exact h _

/-! ### Sealedness of the generated traces -/

/-- Every trace emitted by `findNode`'s inner loop is sealed: the only
successful CAS it performs is the splice-out of a marked node (lines
326–327), which publishes an already-persistent successor and is followed at
once by `clwb(prev); sfence`. -/
theorem findInner_sealed {fuel : Nat} : ∀ {sched cnt p c ev res s cnt2},
    findInner fuel sched cnt p c = some (ev, res, s, cnt2) → SealedAll ev := by
  induction fuel with
  | zero =>
    intro sched cnt p c ev res s cnt2 h
    exact Option.noConfusion h
  | succ fuel ih =>
    intro sched cnt p c ev res s cnt2 h
    match sched with
    | [] =>
      have hev : ([] : List PEvent) = ev := congrArg (fun t => t.1) (Option.some.inj h)
      exact hev ▸ SealedAll_nil
    | .b x :: s1 =>
      have hev : ([] : List PEvent) = ev := congrArg (fun t => t.1) (Option.some.inj h)
      exact hev ▸ SealedAll_nil
    | .fnull :: s1 =>
      have hev : ([] : List PEvent) = ev := congrArg (fun t => t.1) (Option.some.inj h)
      exact hev ▸ SealedAll_nil
    | .fnode cmark cmp prevValid casOk :: s1 =>
      cases prevValid with
      | false =>
        have hev : [PEvent.clwb c] = ev := congrArg (fun t => t.1) (Option.some.inj h)
        exact hev ▸ SealedAll_clwb_cons SealedAll_nil
      | true =>
        cases cmark with
        | false =>
          cases cmp with
          | eq =>
            have hev : [PEvent.clwb c, .clwb p, .sfence] = ev :=
              congrArg (fun t => t.1) (Option.some.inj h)
            exact hev ▸ SealedAll_clwb_cons (SealedAll_clwb_cons
              (SealedAll_sfence_cons SealedAll_nil))
          | gt =>
            have hev : [PEvent.clwb c, .clwb p] = ev :=
              congrArg (fun t => t.1) (Option.some.inj h)
            exact hev ▸ SealedAll_clwb_cons (SealedAll_clwb_cons SealedAll_nil)
          | lt =>
            have h' : (match findInner fuel s1 (cnt + 1) c cnt with
                | none => none
                | some (ev, res, s2, cnt2) =>
                    some (PEvent.clwb c :: PEvent.clwb p :: ev, res, s2, cnt2))
                = some (ev, res, s, cnt2) := h
            rcases hrec : findInner fuel s1 (cnt + 1) c cnt with _ | ⟨ev1, res1, s1', c1'⟩
            · rw [hrec] at h'
              exact Option.noConfusion h'
            · rw [hrec] at h'
              have hev : PEvent.clwb c :: PEvent.clwb p :: ev1 = ev :=
                congrArg (fun t => t.1) (Option.some.inj h')
              exact hev ▸ SealedAll_clwb_cons (SealedAll_clwb_cons (ih hrec))
        | true =>
          cases casOk with
          | false =>
            have hev : [PEvent.clwb c, .clwb p, .sfence, .cas p cnt false false] = ev :=
              congrArg (fun t => t.1) (Option.some.inj h)
            exact hev ▸ SealedAll_clwb_cons (SealedAll_clwb_cons (SealedAll_sfence_cons
              (SealedAll_casFail_cons SealedAll_nil)))
          | true =>
            have h' : (match findInner fuel s1 (cnt + 1) p cnt with
                | none => none
                | some (ev, res, s2, cnt2) =>
                    some (PEvent.clwb c :: PEvent.clwb p :: PEvent.sfence
                      :: PEvent.cas p cnt false true :: PEvent.clwb p :: PEvent.sfence
                      :: ev, res, s2, cnt2))
                = some (ev, res, s, cnt2) := h
            rcases hrec : findInner fuel s1 (cnt + 1) p cnt with _ | ⟨ev1, res1, s1', c1'⟩
            · rw [hrec] at h'
              exact Option.noConfusion h'
            · rw [hrec] at h'
              have hev : PEvent.clwb c :: PEvent.clwb p :: PEvent.sfence
                  :: PEvent.cas p cnt false true :: PEvent.clwb p :: PEvent.sfence
                  :: ev1 = ev :=
                congrArg (fun t => t.1) (Option.some.inj h')
              exact hev ▸ SealedAll_clwb_cons (SealedAll_clwb_cons
                (SealedAll_sfence_cons (SealedAll_seal (ih hrec))))

/-- Every trace emitted by `findNode` is sealed. -/
theorem findOuter_sealed {fuel : Nat} : ∀ {sched cnt ev found p c nx s cnt2},
    findOuter fuel sched cnt = some (ev, found, p, c, nx, s, cnt2) → SealedAll ev := by
  induction fuel with
  | zero =>
    intro sched cnt ev found p c nx s cnt2 h
    exact Option.noConfusion h
  | succ fuel ih =>
    intro sched cnt ev found p c nx s cnt2 h
    have h' : (match findInner (fuel + 1) sched (cnt + 1) 1 cnt with
        | none => none
        | some (ev, some (found, p, c, nx), s1, cnt1) =>
            some (PEvent.clwb 1 :: ev, found, p, c, nx, s1, cnt1)
        | some (ev, none, s1, cnt1) =>
            match findOuter fuel s1 cnt1 with
            | none => none
            | some (ev2, found, p, c, nx, s2, cnt2) =>
                some (PEvent.clwb 1 :: ev ++ ev2, found, p, c, nx, s2, cnt2))
        = some (ev, found, p, c, nx, s, cnt2) := h
    rcases hrec : findInner (fuel + 1) sched (cnt + 1) 1 cnt with _ | ⟨ev1, res1, s1', c1'⟩
    · rw [hrec] at h'
      exact Option.noConfusion h'
    · rw [hrec] at h'
      cases res1 with
      | some t =>
        obtain ⟨found1, p1, c1, nx1⟩ := t
        have hev : PEvent.clwb 1 :: ev1 = ev :=
          congrArg (fun t => t.1) (Option.some.inj h')
        exact hev ▸ SealedAll_clwb_cons (findInner_sealed hrec)
      | none =>
        have h'' : (match findOuter fuel s1' c1' with
            | none => none
            | some (ev2, found, p, c, nx, s2, cnt2) =>
                some (PEvent.clwb 1 :: ev1 ++ ev2, found, p, c, nx, s2, cnt2))
            = some (ev, found, p, c, nx, s, cnt2) := h'
        rcases hrec2 : findOuter fuel s1' c1' with _ | ⟨ev2, found2, p2, c2, nx2, s2', c2'⟩
        · rw [hrec2] at h''
          exact Option.noConfusion h''
        · rw [hrec2] at h''
          have hev : PEvent.clwb 1 :: ev1 ++ ev2 = ev :=
            congrArg (fun t => t.1) (Option.some.inj h'')
          exact hev ▸ SealedAll_clwb_cons
            (SealedAll_append (findInner_sealed hrec) (ih hrec2))

/-- The mark-setting loop's trace is sealed in any continuation that writes
back the marked node's line and fences: its one successful CAS (the final
one) publishes a non-fresh pointer and the caller persists it immediately
after (lines 161–163 / 277–280). -/
theorem markLoop_sealed {fuel : Nat} : ∀ {sched cnt c nx ev nx2 s cnt2},
    markLoop fuel sched cnt c nx = some (ev, nx2, s, cnt2) →
    ∀ {rest : List PEvent}, SealedAll rest → hasClwbThenFence c rest = true →
    SealedAll (ev ++ rest) := by
  induction fuel with
  | zero =>
    intro sched cnt c nx ev nx2 s cnt2 h
    exact Option.noConfusion h
  | succ fuel ih =>
    intro sched cnt c nx ev nx2 s cnt2 h rest hrest hct
    have h' : (if (popB sched).1 = true then
          some ([PEvent.cas c nx false true], nx, (popB sched).2, cnt)
        else match markLoop fuel (popB sched).2 (cnt + 1) c cnt with
          | none => none
          | some (ev, nx2, s2, cnt2) =>
              some (PEvent.cas c nx false false :: ev, nx2, s2, cnt2))
        = some (ev, nx2, s, cnt2) := h
    rcases hok : (popB sched).1 with _ | _
    · rw [hok, if_neg Bool.false_ne_true] at h'
      rcases hrec : markLoop fuel (popB sched).2 (cnt + 1) c cnt with _ | ⟨ev1, nx1, s1', c1'⟩
      · rw [hrec] at h'
        exact Option.noConfusion h'
      · rw [hrec] at h'
        have hev : PEvent.cas c nx false false :: ev1 = ev :=
          congrArg (fun t => t.1) (Option.some.inj h')
        rw [← hev]
        exact SealedAll_casFail_cons (ih hrec hrest hct)
    · rw [hok, if_pos rfl] at h'
      have hev : [PEvent.cas c nx false true] = ev :=
        congrArg (fun t => t.1) (Option.some.inj h')
      rw [← hev]
      exact SealedAll_casTrue_cons hrest hct

/-- The replace path shared by `put` and `replace` (install the fresh node,
mark the old one, splice it out) is sealed when it reports success of the
installing CAS. -/
theorem replaceCore_sealed {fuel : Nat} {sched : List OChoice} {cnt p c nx : Nat}
    {ev : List PEvent} {s2r : List OChoice} {cnt2r : Nat} {evf : List PEvent}
    {s : List OChoice} {cnt' : Nat}
    (h : replaceCore fuel sched cnt p c nx = some (some (ev, s2r, cnt2r), evf, s, cnt')) :
    SealedAll ev := by
  have h' : (if (popB sched).1 = true then
        match markLoop fuel (popB sched).2 cnt c nx with
        | none => none
        | some (mev, nx2, s2, cnt2) =>
            if (popB s2).1 = true then
              some (some ([PEvent.clwb 4, .sfence, .cas p 4 true true, .clwb p, .sfence]
                ++ mev ++ [PEvent.clwb c, .sfence, .cas 4 nx2 false true, .clwb 4, .sfence],
                (popB s2).2, cnt2), [], (popB s2).2, cnt2)
            else match findOuter fuel (popB s2).2 cnt2 with
              | none => none
              | some (fe2, f2, p2, c2, nxv, s4, cnt4) =>
                  some (some ([PEvent.clwb 4, .sfence, .cas p 4 true true, .clwb p, .sfence]
                    ++ mev ++ [PEvent.clwb c, .sfence, .cas 4 nx2 false false] ++ fe2,
                    s4, cnt4), [], s4, cnt4)
      else some (none, [PEvent.clwb 4, .sfence, .cas p 4 true false], (popB sched).2, cnt))
      = some (some (ev, s2r, cnt2r), evf, s, cnt') := h
  rcases hok : (popB sched).1 with _ | _
  · rw [hok, if_neg Bool.false_ne_true] at h'
    exact Option.noConfusion (congrArg (fun t => t.1) (Option.some.inj h'))
  · rw [hok, if_pos rfl] at h'
    rcases hmark : markLoop fuel (popB sched).2 cnt c nx with _ | ⟨mev, nxm, s2m, c2m⟩
    · rw [hmark] at h'
      exact Option.noConfusion h'
    · rw [hmark] at h'
      have h'' : (if (popB s2m).1 = true then
            some (some ([PEvent.clwb 4, .sfence, .cas p 4 true true, .clwb p, .sfence]
              ++ mev ++ [PEvent.clwb c, .sfence, .cas 4 nxm false true, .clwb 4, .sfence],
              (popB s2m).2, c2m), [], (popB s2m).2, c2m)
          else match findOuter fuel (popB s2m).2 c2m with
            | none => none
            | some (fe2, f2, p2, c2, nxv, s4, cnt4) =>
                some (some ([PEvent.clwb 4, .sfence, .cas p 4 true true, .clwb p, .sfence]
                  ++ mev ++ [PEvent.clwb c, .sfence, .cas 4 nxm false false] ++ fe2,
                  s4, cnt4), [], s4, cnt4))
          = some (some (ev, s2r, cnt2r), evf, s, cnt') := h'
      rcases hok2 : (popB s2m).1 with _ | _
      · rw [hok2, if_neg Bool.false_ne_true] at h''
        rcases hfo : findOuter fuel (popB s2m).2 c2m with _ | ⟨fe2, f2, p2, c2v, nxv, s4v, c4v⟩
        · rw [hfo] at h''
          exact Option.noConfusion h''
        · rw [hfo] at h''
          have hev : [PEvent.clwb 4, .sfence, .cas p 4 true true, .clwb p, .sfence]
              ++ mev ++ [PEvent.clwb c, .sfence, .cas 4 nxm false false] ++ fe2 = ev :=
            congrArg (fun t => t.1)
              (Option.some.inj (congrArg (fun t => t.1) (Option.some.inj h'')))
          rw [← hev, List.append_assoc, List.append_assoc]
          exact SealedAll_install (markLoop_sealed hmark
            (SealedAll_clwb_cons (SealedAll_sfence_cons
              (SealedAll_casFail_cons (findOuter_sealed hfo))))
            hasClwbThenFence_self)
      · rw [hok2, if_pos rfl] at h''
        have hev : [PEvent.clwb 4, .sfence, .cas p 4 true true, .clwb p, .sfence]
            ++ mev ++ [PEvent.clwb c, .sfence, .cas 4 nxm false true, .clwb 4, .sfence]
            = ev :=
          congrArg (fun t => t.1)
            (Option.some.inj (congrArg (fun t => t.1) (Option.some.inj h'')))
        rw [← hev, List.append_assoc]
        exact SealedAll_install (markLoop_sealed hmark
          (SealedAll_clwb_cons (SealedAll_sfence_cons (SealedAll_seal SealedAll_nil)))
          hasClwbThenFence_self)

/-- When the replace path reports that its installing CAS failed, the events
it emitted (writeback, fence, failed CAS) are sealed. -/
theorem replaceCore_fail_sealed {fuel : Nat} {sched : List OChoice} {cnt p c nx : Nat}
    {evf : List PEvent} {s : List OChoice} {cnt' : Nat}
    (h : replaceCore fuel sched cnt p c nx = some (none, evf, s, cnt')) :
    SealedAll evf := by
  have h' : (if (popB sched).1 = true then
        match markLoop fuel (popB sched).2 cnt c nx with
        | none => none
        | some (mev, nx2, s2, cnt2) =>
            if (popB s2).1 = true then
              some (some ([PEvent.clwb 4, .sfence, .cas p 4 true true, .clwb p, .sfence]
                ++ mev ++ [PEvent.clwb c, .sfence, .cas 4 nx2 false true, .clwb 4, .sfence],
                (popB s2).2, cnt2), [], (popB s2).2, cnt2)
            else match findOuter fuel (popB s2).2 cnt2 with
              | none => none
              | some (fe2, f2, p2, c2, nxv, s4, cnt4) =>
                  some (some ([PEvent.clwb 4, .sfence, .cas p 4 true true, .clwb p, .sfence]
                    ++ mev ++ [PEvent.clwb c, .sfence, .cas 4 nx2 false false] ++ fe2,
                    s4, cnt4), [], s4, cnt4)
      else some (none, [PEvent.clwb 4, .sfence, .cas p 4 true false], (popB sched).2, cnt))
      = some (none, evf, s, cnt') := h
  rcases hok : (popB sched).1 with _ | _
  · rw [hok, if_neg Bool.false_ne_true] at h'
    have hev : [PEvent.clwb 4, .sfence, .cas p 4 true false] = evf :=
      congrArg (fun t => t.2.1) (Option.some.inj h')
    rw [← hev]
    exact SealedAll_clwb_cons (SealedAll_sfence_cons (SealedAll_casFail_cons SealedAll_nil))
  · rw [hok, if_pos rfl] at h'
    rcases hmark : markLoop fuel (popB sched).2 cnt c nx with _ | ⟨mev, nxm, s2m, c2m⟩
    · rw [hmark] at h'
      exact Option.noConfusion h'
    · rw [hmark] at h'
      have h'' : (if (popB s2m).1 = true then
            some (some ([PEvent.clwb 4, .sfence, .cas p 4 true true, .clwb p, .sfence]
              ++ mev ++ [PEvent.clwb c, .sfence, .cas 4 nxm false true, .clwb 4, .sfence],
              (popB s2m).2, c2m), [], (popB s2m).2, c2m)
          else match findOuter fuel (popB s2m).2 c2m with
            | none => none
            | some (fe2, f2, p2, c2, nxv, s4, cnt4) =>
                some (some ([PEvent.clwb 4, .sfence, .cas p 4 true true, .clwb p, .sfence]
                  ++ mev ++ [PEvent.clwb c, .sfence, .cas 4 nxm false false] ++ fe2,
                  s4, cnt4), [], s4, cnt4))
          = some (none, evf, s, cnt') := h'
      rcases hok2 : (popB s2m).1 with _ | _
      · rw [hok2, if_neg Bool.false_ne_true] at h''
        rcases hfo : findOuter fuel (popB s2m).2 c2m with _ | ⟨fe2, f2, p2, c2v, nxv, s4v, c4v⟩
        · rw [hfo] at h''
          exact Option.noConfusion h''
        · rw [hfo] at h''
          exact Option.noConfusion (congrArg (fun t => t.1) (Option.some.inj h''))
      · rw [hok2, if_pos rfl] at h''
        exact Option.noConfusion (congrArg (fun t => t.1) (Option.some.inj h''))

/-- Every trace of `insert`'s retry loop is sealed. -/
theorem insertLoop_sealed {fuel : Nat} : ∀ {sched cnt ev res s cnt2},
    insertLoop fuel sched cnt = some (ev, res, s, cnt2) → SealedAll ev := by
  induction fuel with
  | zero =>
    intro sched cnt ev res s cnt2 h
    exact Option.noConfusion h
  | succ fuel ih =>
    intro sched cnt ev res s cnt2 h
    have h' : (match findOuter (fuel + 1) sched cnt with
        | none => none
        | some (fe, found, p, cv, nxv, s1, cnt1) =>
            if found then some (fe, false, s1, cnt1)
            else
              if (popB s1).1 then
                some (fe ++ [PEvent.clwb 4, .sfence, .cas p 4 true true, .clwb p, .sfence],
                  true, (popB s1).2, cnt1)
              else
                match insertLoop fuel (popB s1).2 cnt1 with
                | none => none
                | some (ev2, r2, s3, cnt3) =>
                    some (fe ++ [PEvent.clwb 4, .sfence, .cas p 4 true false] ++ ev2,
                      r2, s3, cnt3))
        = some (ev, res, s, cnt2) := h
    rcases hfo : findOuter (fuel + 1) sched cnt with _ | ⟨fe, found, pv, cv, nxv, s1v, c1v⟩
    · rw [hfo] at h'
      exact Option.noConfusion h'
    · rw [hfo] at h'
      have h'' : (if found = true then some (fe, false, s1v, c1v)
          else
            if (popB s1v).1 = true then
              some (fe ++ [PEvent.clwb 4, .sfence, .cas pv 4 true true, .clwb pv, .sfence],
                true, (popB s1v).2, c1v)
            else
              match insertLoop fuel (popB s1v).2 c1v with
              | none => none
              | some (ev2, r2, s3, cnt3) =>
                  some (fe ++ [PEvent.clwb 4, .sfence, .cas pv 4 true false] ++ ev2,
                    r2, s3, cnt3))
          = some (ev, res, s, cnt2) := h'
      cases found with
      | true =>
        rw [if_pos rfl] at h''
        have hev : fe = ev := congrArg (fun t => t.1) (Option.some.inj h'')
        exact hev ▸ findOuter_sealed hfo
      | false =>
        rw [if_neg Bool.false_ne_true] at h''
        rcases hok : (popB s1v).1 with _ | _
        · rw [hok, if_neg Bool.false_ne_true] at h''
          rcases hrec : insertLoop fuel (popB s1v).2 c1v with _ | ⟨ev2, r2, s3v, c3v⟩
          · rw [hrec] at h''
            exact Option.noConfusion h''
          · rw [hrec] at h''
            have hev : fe ++ [PEvent.clwb 4, .sfence, .cas pv 4 true false] ++ ev2 = ev :=
              congrArg (fun t => t.1) (Option.some.inj h'')
            rw [← hev]
            exact SealedAll_append (SealedAll_append (findOuter_sealed hfo)
              (SealedAll_clwb_cons (SealedAll_sfence_cons
                (SealedAll_casFail_cons SealedAll_nil)))) (ih hrec)
        · rw [hok, if_pos rfl] at h''
          have hev : fe ++ [PEvent.clwb 4, .sfence, .cas pv 4 true true, .clwb pv, .sfence]
              = ev := congrArg (fun t => t.1) (Option.some.inj h'')
          rw [← hev]
          exact SealedAll_append (findOuter_sealed hfo) (SealedAll_install SealedAll_nil)

/-- Every trace of `put`'s retry loop is sealed. -/
theorem putLoop_sealed {fuel : Nat} : ∀ {sched cnt ev s cnt2},
    putLoop fuel sched cnt = some (ev, s, cnt2) → SealedAll ev := by
  induction fuel with
  | zero =>
    intro sched cnt ev s cnt2 h
    exact Option.noConfusion h
  | succ fuel ih =>
    intro sched cnt ev s cnt2 h
    have h' : (match findOuter (fuel + 1) sched cnt with
        | none => none
        | some (fe, found, p, cv, nxv, s1, cnt1) =>
            if found then
              match replaceCore (fuel + 1) s1 cnt1 p cv nxv with
              | none => none
              | some (some (ea, sa, ca), e0, sx, cx) => some (fe ++ ea, sa, ca)
              | some (none, ev0, s2, c2) =>
                  match putLoop fuel s2 c2 with
                  | none => none
                  | some (ev2, s3, cnt3) => some (fe ++ ev0 ++ ev2, s3, cnt3)
            else
              if (popB s1).1 then
                some (fe ++ [PEvent.clwb 4, .sfence, .cas p 4 true true, .clwb p, .sfence],
                  (popB s1).2, cnt1)
              else
                match putLoop fuel (popB s1).2 cnt1 with
                | none => none
                | some (ev2, s3, cnt3) =>
                    some (fe ++ [PEvent.clwb 4, .sfence, .cas p 4 true false] ++ ev2,
                      s3, cnt3))
        = some (ev, s, cnt2) := h
    rcases hfo : findOuter (fuel + 1) sched cnt with _ | ⟨fe, found, pv, cv, nxv, s1v, c1v⟩
    · rw [hfo] at h'
      exact Option.noConfusion h'
    · rw [hfo] at h'
      have h'' : (if found = true then
            match replaceCore (fuel + 1) s1v c1v pv cv nxv with
            | none => none
            | some (some (ea, sa, ca), e0, sx, cx) => some (fe ++ ea, sa, ca)
            | some (none, ev0, s2, c2) =>
                match putLoop fuel s2 c2 with
                | none => none
                | some (ev2, s3, cnt3) => some (fe ++ ev0 ++ ev2, s3, cnt3)
          else
            if (popB s1v).1 = true then
              some (fe ++ [PEvent.clwb 4, .sfence, .cas pv 4 true true, .clwb pv, .sfence],
                (popB s1v).2, c1v)
            else
              match putLoop fuel (popB s1v).2 c1v with
              | none => none
              | some (ev2, s3, cnt3) =>
                  some (fe ++ [PEvent.clwb 4, .sfence, .cas pv 4 true false] ++ ev2,
                    s3, cnt3))
          = some (ev, s, cnt2) := h'
      cases found with
      | true =>
        rw [if_pos rfl] at h''
        rcases hrc : replaceCore (fuel + 1) s1v c1v pv cv nxv with _ | ⟨oc, ev0, sx, cx⟩
        · rw [hrc] at h''
          exact Option.noConfusion h''
        · rw [hrc] at h''
          cases oc with
          | some t =>
            obtain ⟨ea, sa, ca⟩ := t
            have hev : fe ++ ea = ev := congrArg (fun t => t.1) (Option.some.inj h'')
            rw [← hev]
            exact SealedAll_append (findOuter_sealed hfo) (replaceCore_sealed hrc)
          | none =>
            have h3 : (match putLoop fuel sx cx with
                | none => none
                | some (ev2, s3, cnt3) => some (fe ++ ev0 ++ ev2, s3, cnt3))
                = some (ev, s, cnt2) := h''
            rcases hrec : putLoop fuel sx cx with _ | ⟨ev2, s3v, c3v⟩
            · rw [hrec] at h3
              exact Option.noConfusion h3
            · rw [hrec] at h3
              have hev : fe ++ ev0 ++ ev2 = ev :=
                congrArg (fun t => t.1) (Option.some.inj h3)
              rw [← hev]
              exact SealedAll_append (SealedAll_append (findOuter_sealed hfo)
                (replaceCore_fail_sealed hrc)) (ih hrec)
      | false =>
        rw [if_neg Bool.false_ne_true] at h''
        rcases hok : (popB s1v).1 with _ | _
        · rw [hok, if_neg Bool.false_ne_true] at h''
          rcases hrec : putLoop fuel (popB s1v).2 c1v with _ | ⟨ev2, s3v, c3v⟩
          · rw [hrec] at h''
            exact Option.noConfusion h''
          · rw [hrec] at h''
            have hev : fe ++ [PEvent.clwb 4, .sfence, .cas pv 4 true false] ++ ev2 = ev :=
              congrArg (fun t => t.1) (Option.some.inj h'')
            rw [← hev]
            exact SealedAll_append (SealedAll_append (findOuter_sealed hfo)
              (SealedAll_clwb_cons (SealedAll_sfence_cons
                (SealedAll_casFail_cons SealedAll_nil)))) (ih hrec)
        · rw [hok, if_pos rfl] at h''
          have hev : fe ++ [PEvent.clwb 4, .sfence, .cas pv 4 true true, .clwb pv, .sfence]
              = ev := congrArg (fun t => t.1) (Option.some.inj h'')
          rw [← hev]
          exact SealedAll_append (findOuter_sealed hfo) (SealedAll_install SealedAll_nil)

/-- Every trace of `replace`'s retry loop is sealed. -/
theorem replaceLoop_sealed {fuel : Nat} : ∀ {sched cnt ev s cnt2},
    replaceLoop fuel sched cnt = some (ev, s, cnt2) → SealedAll ev := by
  induction fuel with
  | zero =>
    intro sched cnt ev s cnt2 h
    exact Option.noConfusion h
  | succ fuel ih =>
    intro sched cnt ev s cnt2 h
    have h' : (match findOuter (fuel + 1) sched cnt with
        | none => none
        | some (fe, found, p, cv, nxv, s1, cnt1) =>
            if found then
              match replaceCore (fuel + 1) s1 cnt1 p cv nxv with
              | none => none
              | some (some (ea, sa, ca), e0, sx, cx) => some (fe ++ ea, sa, ca)
              | some (none, ev0, s2, c2) =>
                  match replaceLoop fuel s2 c2 with
                  | none => none
                  | some (ev2, s3, cnt3) => some (fe ++ ev0 ++ ev2, s3, cnt3)
            else some (fe, s1, cnt1))
        = some (ev, s, cnt2) := h
    rcases hfo : findOuter (fuel + 1) sched cnt with _ | ⟨fe, found, pv, cv, nxv, s1v, c1v⟩
    · rw [hfo] at h'
      exact Option.noConfusion h'
    · rw [hfo] at h'
      have h'' : (if found = true then
            match replaceCore (fuel + 1) s1v c1v pv cv nxv with
            | none => none
            | some (some (ea, sa, ca), e0, sx, cx) => some (fe ++ ea, sa, ca)
            | some (none, ev0, s2, c2) =>
                match replaceLoop fuel s2 c2 with
                | none => none
                | some (ev2, s3, cnt3) => some (fe ++ ev0 ++ ev2, s3, cnt3)
          else some (fe, s1v, c1v))
          = some (ev, s, cnt2) := h'
      cases found with
      | false =>
        rw [if_neg Bool.false_ne_true] at h''
        have hev : fe = ev := congrArg (fun t => t.1) (Option.some.inj h'')
        exact hev ▸ findOuter_sealed hfo
      | true =>
        rw [if_pos rfl] at h''
        rcases hrc : replaceCore (fuel + 1) s1v c1v pv cv nxv with _ | ⟨oc, ev0, sx, cx⟩
        · rw [hrc] at h''
          exact Option.noConfusion h''
        · rw [hrc] at h''
          cases oc with
          | some t =>
            obtain ⟨ea, sa, ca⟩ := t
            have hev : fe ++ ea = ev := congrArg (fun t => t.1) (Option.some.inj h'')
            rw [← hev]
            exact SealedAll_append (findOuter_sealed hfo) (replaceCore_sealed hrc)
          | none =>
            have h3 : (match replaceLoop fuel sx cx with
                | none => none
                | some (ev2, s3, cnt3) => some (fe ++ ev0 ++ ev2, s3, cnt3))
                = some (ev, s, cnt2) := h''
            rcases hrec : replaceLoop fuel sx cx with _ | ⟨ev2, s3v, c3v⟩
            · rw [hrec] at h3
              exact Option.noConfusion h3
            · rw [hrec] at h3
              have hev : fe ++ ev0 ++ ev2 = ev :=
                congrArg (fun t => t.1) (Option.some.inj h3)
              rw [← hev]
              exact SealedAll_append (SealedAll_append (findOuter_sealed hfo)
                (replaceCore_fail_sealed hrc)) (ih hrec)

/-- Every trace of `remove`'s retry loop is sealed. -/
theorem removeLoop_sealed {fuel : Nat} : ∀ {sched cnt ev s cnt2},
    removeLoop fuel sched cnt = some (ev, s, cnt2) → SealedAll ev := by
  induction fuel with
  | zero =>
    intro sched cnt ev s cnt2 h
    exact Option.noConfusion h
  | succ fuel ih =>
    intro sched cnt ev s cnt2 h
    have h' : (match findOuter (fuel + 1) sched cnt with
        | none => none
        | some (fe, found, p, cv, nxv, s1, cnt1) =>
            if found = false then some (fe, s1, cnt1)
            else
              if (popB s1).1 = false then
                match removeLoop fuel (popB s1).2 cnt1 with
                | none => none
                | some (ev2, s3, cnt3) =>
                    some (fe ++ [PEvent.sfence, .cas cv nxv false false] ++ ev2, s3, cnt3)
              else
                if (popB (popB s1).2).1 then
                  some (fe ++ [PEvent.sfence, .cas cv nxv false true, .clwb cv, .sfence,
                    .cas p nxv false true, .clwb p, .sfence], (popB (popB s1).2).2, cnt1)
                else
                  match findOuter (fuel + 1) (popB (popB s1).2).2 cnt1 with
                  | none => none
                  | some (fe2, f2, p2, c2, nx2, s4, cnt4) =>
                      some (fe ++ [PEvent.sfence, .cas cv nxv false true, .clwb cv,
                        .sfence, .cas p nxv false false] ++ fe2, s4, cnt4))
        = some (ev, s, cnt2) := h
    rcases hfo : findOuter (fuel + 1) sched cnt with _ | ⟨fe, found, pv, cv, nxv, s1v, c1v⟩
    · rw [hfo] at h'
      exact Option.noConfusion h'
    · rw [hfo] at h'
      have h'' : (if found = false then some (fe, s1v, c1v)
          else
            if (popB s1v).1 = false then
              match removeLoop fuel (popB s1v).2 c1v with
              | none => none
              | some (ev2, s3, cnt3) =>
                  some (fe ++ [PEvent.sfence, .cas cv nxv false false] ++ ev2, s3, cnt3)
            else
              if (popB (popB s1v).2).1 = true then
                some (fe ++ [PEvent.sfence, .cas cv nxv false true, .clwb cv, .sfence,
                  .cas pv nxv false true, .clwb pv, .sfence], (popB (popB s1v).2).2, c1v)
              else
                match findOuter (fuel + 1) (popB (popB s1v).2).2 c1v with
                | none => none
                | some (fe2, f2, p2, c2, nx2, s4, cnt4) =>
                    some (fe ++ [PEvent.sfence, .cas cv nxv false true, .clwb cv,
                      .sfence, .cas pv nxv false false] ++ fe2, s4, cnt4))
          = some (ev, s, cnt2) := h'
      cases found with
      | false =>
        rw [if_pos rfl] at h''
        have hev : fe = ev := congrArg (fun t => t.1) (Option.some.inj h'')
        exact hev ▸ findOuter_sealed hfo
      | true =>
        rw [if_neg (fun hc => Bool.noConfusion hc)] at h''
        rcases hok : (popB s1v).1 with _ | _
        · rw [hok, if_pos rfl] at h''
          rcases hrec : removeLoop fuel (popB s1v).2 c1v with _ | ⟨ev2, s3v, c3v⟩
          · rw [hrec] at h''
            exact Option.noConfusion h''
          · rw [hrec] at h''
            have hev : fe ++ [PEvent.sfence, .cas cv nxv false false] ++ ev2 = ev :=
              congrArg (fun t => t.1) (Option.some.inj h'')
            rw [← hev]
            exact SealedAll_append (SealedAll_append (findOuter_sealed hfo)
              (SealedAll_sfence_cons (SealedAll_casFail_cons SealedAll_nil))) (ih hrec)
        · rw [hok, if_neg (fun hc => Bool.noConfusion hc)] at h''
          rcases hok2 : (popB (popB s1v).2).1 with _ | _
          · rw [hok2, if_neg Bool.false_ne_true] at h''
            rcases hfo2 : findOuter (fuel + 1) (popB (popB s1v).2).2 c1v
              with _ | ⟨fe2, f2, p2, c2v, nx2v, s4v, c4v⟩
            · rw [hfo2] at h''
              exact Option.noConfusion h''
            · rw [hfo2] at h''
              have hev : fe ++ [PEvent.sfence, .cas cv nxv false true, .clwb cv,
                  .sfence, .cas pv nxv false false] ++ fe2 = ev :=
                congrArg (fun t => t.1) (Option.some.inj h'')
              rw [← hev, List.append_assoc]
              exact SealedAll_append (findOuter_sealed hfo)
                (SealedAll_sfence_cons (SealedAll_seal
                  (SealedAll_casFail_cons (findOuter_sealed hfo2))))
          · rw [hok2, if_pos rfl] at h''
            have hev : fe ++ [PEvent.sfence, .cas cv nxv false true, .clwb cv, .sfence,
                .cas pv nxv false true, .clwb pv, .sfence] = ev :=
              congrArg (fun t => t.1) (Option.some.inj h'')
            rw [← hev]
            exact SealedAll_append (findOuter_sealed hfo)
              (SealedAll_sfence_cons (SealedAll_seal (SealedAll_seal SealedAll_nil)))

/-- `insert`'s full trace is sealed. -/
theorem insertTrace_sealed {fuel : Nat} {sched : List OChoice} {tr : List PEvent}
    {res : Bool} (h : insertTrace fuel sched = some (tr, res)) : SealedAll tr := by
  have h' : (match insertLoop fuel sched 5 with
      | none => none
      | some (ea, ra, sa, ca) => some (PEvent.clwb 2 :: PEvent.clwb 3 :: ea, ra))
      = some (tr, res) := h
  rcases hrec : insertLoop fuel sched 5 with _ | ⟨ea, ra, sa, ca⟩
  · rw [hrec] at h'
    exact Option.noConfusion h'
  · rw [hrec] at h'
    have hev : PEvent.clwb 2 :: PEvent.clwb 3 :: ea = tr :=
      congrArg (fun t => t.1) (Option.some.inj h')
    exact hev ▸ SealedAll_clwb_cons (SealedAll_clwb_cons (insertLoop_sealed hrec))

/-- `put`'s full trace is sealed. -/
theorem putTrace_sealed {fuel : Nat} {sched : List OChoice} {tr : List PEvent}
    (h : putTrace fuel sched = some tr) : SealedAll tr := by
  have h' : (match putLoop fuel sched 5 with
      | none => none
      | some (ea, sa, ca) => some (PEvent.clwb 2 :: PEvent.clwb 3 :: ea))
      = some tr := h
  rcases hrec : putLoop fuel sched 5 with _ | ⟨ea, sa, ca⟩
  · rw [hrec] at h'
    exact Option.noConfusion h'
  · rw [hrec] at h'
    have hev : PEvent.clwb 2 :: PEvent.clwb 3 :: ea = tr := Option.some.inj h'
    exact hev ▸ SealedAll_clwb_cons (SealedAll_clwb_cons (putLoop_sealed hrec))

/-- `replace`'s full trace is sealed. -/
theorem replaceTrace_sealed {fuel : Nat} {sched : List OChoice} {tr : List PEvent}
    (h : replaceTrace fuel sched = some tr) : SealedAll tr := by
  have h' : (match replaceLoop fuel sched 5 with
      | none => none
      | some (ea, sa, ca) => some (PEvent.clwb 2 :: PEvent.clwb 3 :: ea))
      = some tr := h
  rcases hrec : replaceLoop fuel sched 5 with _ | ⟨ea, sa, ca⟩
  · rw [hrec] at h'
    exact Option.noConfusion h'
  · rw [hrec] at h'
    have hev : PEvent.clwb 2 :: PEvent.clwb 3 :: ea = tr := Option.some.inj h'
    exact hev ▸ SealedAll_clwb_cons (SealedAll_clwb_cons (replaceLoop_sealed hrec))

/-- `remove`'s full trace is sealed. -/
theorem removeTrace_sealed {fuel : Nat} {sched : List OChoice} {tr : List PEvent}
    (h : removeTrace fuel sched = some tr) : SealedAll tr := by
  have h' : (match removeLoop fuel sched 5 with
      | none => none
      | some (ea, sa, ca) => some ea)
      = some tr := h
  rcases hrec : removeLoop fuel sched 5 with _ | ⟨ea, sa, ca⟩
  · rw [hrec] at h'
    exact Option.noConfusion h'
  · rw [hrec] at h'
    have hev : ea = tr := Option.some.inj h'
    exact hev ▸ removeLoop_sealed hrec

/-- C1: for every PHT mutation (`put`, `insert`, `remove`, `replace`), over
every oracle-driven interleaving (`sched`) and retry bound (`fuel`) under
which the operation returns, the emitted persistence-event trace satisfies
the sealing contract `sealedFrom []`: every successful CAS publishing a
pointer to the freshly built node is preceded within the operation by a
cacheline writeback of that node, and every successful publishing CAS
(including the mark-setting ones) is followed by a cacheline writeback of
the modified pointer's line and a store fence before the operation returns
its result. -/
theorem cas_persistence_ordering :
    (∀ fuel sched tr, putTrace fuel sched = some tr → sealedFrom [] tr = true)
    ∧ (∀ fuel sched tr res, insertTrace fuel sched = some (tr, res) →
        sealedFrom [] tr = true)
    ∧ (∀ fuel sched tr, removeTrace fuel sched = some tr → sealedFrom [] tr = true)
    ∧ (∀ fuel sched tr, replaceTrace fuel sched = some tr → sealedFrom [] tr = true) :=
  ⟨fun _ _ _ h => putTrace_sealed h [],
   fun _ _ _ _ h => insertTrace_sealed h [],
   fun _ _ _ h => removeTrace_sealed h [],
   fun _ _ _ h => replaceTrace_sealed h []⟩

theorem cas_persistence_ordering_witness :
    sealedFrom [] ((putTrace 1 [.fnull, .b true]).getD []) = true
    ∧ sealedFrom [] ((insertTrace 1 [.fnull, .b true]).getD ([], false)).1 = true
    ∧ sealedFrom []
        ((removeTrace 1 [.fnode false .eq true true, .b true, .b true]).getD []) = true
    ∧ sealedFrom []
        ((replaceTrace 1 [.fnode false .eq true true, .b true, .b true, .b true]).getD [])
        = true :=
  ⟨cas_persistence_ordering.1 1 [.fnull, .b true] _ (by decide),
   cas_persistence_ordering.2.1 1 [.fnull, .b true] _
     ((insertTrace 1 [.fnull, .b true]).getD ([], false)).2 (by decide),
   cas_persistence_ordering.2.2.1 1 [.fnode false .eq true true, .b true, .b true] _
     (by decide),
   cas_persistence_ordering.2.2.2 1
     [.fnode false .eq true true, .b true, .b true, .b true] _ (by decide)⟩

end Montage
